import Mathlib

/-!
# PackageKit: the completion-time estimator of `src/pk-time.c`

A shallow embedding of `PkTime` (`src/src/pk-time.c`) and of the string helpers of
`src/libpackagekit/pk-common.c`, and the properties of their specification.

* `guint` is a natural number below `2 ^ 32`; subtraction wraps (`guint_sub`).
* `gfloat` and `gdouble` are IEEE 754 binary32 and binary64 with round to nearest, ties to
  even, every operation rounded once to its own format (C's `FLT_EVAL_METHOD == 0`).
  Every floating-point value of `pk-time.c` is a conversion of an unsigned integer or the
  non-negative reading of the `GTimer`, combined by `+`, `*` and `/`; so only non-negative
  finite values, `+inf` and NaN arise, and `Flt` has exactly these.
* A conversion from floating point to `guint` whose operand is NaN, infinite or out of range
  is undefined in C: the embedding returns `none` there.
* A string is the list of its characters before the terminating NUL, and a pointer that may
  be NULL is an `Option`. `g_strsplit`, `g_strnfill` and `atoi` are embedded after the
  documentation of GLib and the C standard; `atoi` is undefined (`none`) when the value does
  not fit an `int`. A conversion of an integer to `gint` keeps the low 32 bits (`to_gint`).
-/

namespace PackageKit

/-! ## Floating point -/

/-- Parameters of a binary floating-point format: `prec` significand bits, `emin` the
exponent of the least positive (subnormal) value, `2 ^ emax` the overflow threshold. -/
structure Fmt where
  prec : ℕ
  emin : ℤ
  emax : ℤ

/-- The format of `gfloat`. -/
def binary32 : Fmt := ⟨24, -149, 128⟩

/-- The format of `gdouble`. -/
def binary64 : Fmt := ⟨53, -1074, 1024⟩

/-- A non-negative floating-point value: finite (given by its exact value), `+inf` or NaN. -/
inductive Flt where
  | fin (q : ℚ)
  | inf
  | nan
deriving DecidableEq

/-- Binary logarithm of a natural number by repeated halving, `fuel` steps at most. -/
def log2Fuel : ℕ → ℕ → ℕ
  | 0, _ => 0
  | fuel + 1, n => if 2 ≤ n then log2Fuel fuel (n / 2) + 1 else 0

/-- Floor of the binary logarithm of a natural number (`0` at `0`). -/
def nlog2 (n : ℕ) : ℕ := log2Fuel n n

/-- Floor of the binary logarithm of a positive rational. -/
def ilog2 (q : ℚ) : ℤ :=
  let l : ℤ := (nlog2 q.num.natAbs : ℤ) - (nlog2 q.den : ℤ)
  if (2 : ℚ) ^ l ≤ q then l else l - 1

/-- Nearest integer, ties to even. -/
def rne (q : ℚ) : ℤ :=
  let f := ⌊q⌋
  let r := q - f
  if r < 1 / 2 then f
  else if 1 / 2 < r then f + 1
  else if f % 2 = 0 then f else f + 1

/-- Exponent of the unit in the last place of the format at the positive rational `q`. -/
def ulpExp (F : Fmt) (q : ℚ) : ℤ := max (ilog2 q - ((F.prec : ℤ) - 1)) F.emin

/-- Rounding of a non-negative exact result to the format: to nearest, ties to even, with
gradual underflow and overflow to `+inf`. -/
def Flt.round (F : Fmt) (q : ℚ) : Flt :=
  if q ≤ 0 then Flt.fin 0
  else
    let k := ulpExp F q
    let v := (rne (q / (2 : ℚ) ^ k) : ℚ) * (2 : ℚ) ^ k
    if (2 : ℚ) ^ F.emax ≤ v then Flt.inf else Flt.fin v

/-- Conversion of an unsigned integer to the format. -/
def Flt.ofNat (F : Fmt) (n : ℕ) : Flt := Flt.round F (n : ℚ)

/-- Floating-point addition in the format. -/
def Flt.add (F : Fmt) : Flt → Flt → Flt
  | Flt.fin a, Flt.fin b => Flt.round F (a + b)
  | Flt.nan, _ => Flt.nan
  | _, Flt.nan => Flt.nan
  | _, _ => Flt.inf

/-- Floating-point multiplication in the format. -/
def Flt.mul (F : Fmt) : Flt → Flt → Flt
  | Flt.fin a, Flt.fin b => Flt.round F (a * b)
  | Flt.nan, _ => Flt.nan
  | _, Flt.nan => Flt.nan
  | Flt.inf, Flt.fin b => if b = 0 then Flt.nan else Flt.inf
  | Flt.fin a, Flt.inf => if a = 0 then Flt.nan else Flt.inf
  | Flt.inf, Flt.inf => Flt.inf

/-- Floating-point division in the format: `0 / 0` and `inf / inf` are NaN, a positive
value over `0` is `+inf`. -/
def Flt.div (F : Fmt) : Flt → Flt → Flt
  | Flt.fin a, Flt.fin b =>
    if b = 0 then (if a = 0 then Flt.nan else Flt.inf) else Flt.round F (a / b)
  | Flt.nan, _ => Flt.nan
  | _, Flt.nan => Flt.nan
  | Flt.inf, Flt.inf => Flt.nan
  | Flt.inf, Flt.fin _ => Flt.inf
  | Flt.fin _, Flt.inf => Flt.fin 0

/-- The comparison `a < b` of C: false as soon as an operand is NaN. -/
def Flt.lt : Flt → Flt → Bool
  | Flt.fin a, Flt.fin b => decide (a < b)
  | Flt.fin _, Flt.inf => true
  | _, _ => false

/-- The conversion `(guint) x`: truncation, undefined (`none`) when `x` is NaN, infinite or
its integral part does not fit 32 bits. -/
def Flt.toGuint : Flt → Option ℕ
  | Flt.fin q => if ⌊q⌋.toNat < 4294967296 then some ⌊q⌋.toNat else none
  | _ => none

/-! ## The estimator -/

/-- The difference `a - b` of two `guint`, modulo `2 ^ 32`. -/
def guint_sub (a b : ℕ) : ℕ := (((a : ℤ) - (b : ℤ)) % 4294967296).toNat

/-- One sample of the log (`PkTimeItem`). -/
structure PkTimeItem where
  percentage : ℕ
  time : ℕ
deriving DecidableEq, Inhabited

/-- The state of an estimator (`PkTimePrivate`). The `GTimer` is external: its reading
is an argument of the operations that consult it. -/
structure PkTime where
  time_offset : ℕ
  last_percentage : ℕ
  average_min : ℕ
  average_max : ℕ
  value_min : ℕ
  value_max : ℕ
  array : List PkTimeItem
deriving DecidableEq

def PK_TIME_AVERAGE_DEFAULT_MIN : ℕ := 4
def PK_TIME_AVERAGE_DEFAULT_MAX : ℕ := 10
def PK_TIME_VALUE_DEFAULT_MIN : ℕ := 5
def PK_TIME_VALUE_DEFAULT_MAX : ℕ := 60 * 60

/-- `pk_time_set_average_limits`. -/
def pk_time_set_average_limits (time : PkTime) (average_min average_max : ℕ) :
    Bool × PkTime :=
  (true, { time with average_min := average_min, average_max := average_max })

/-- `pk_time_set_value_limits`. -/
def pk_time_set_value_limits (time : PkTime) (value_min value_max : ℕ) : Bool × PkTime :=
  (true, { time with value_min := value_min, value_max := value_max })

/-- `pk_time_get_elapsed`: `timer` is what `g_timer_elapsed` returns, a `gdouble` in
seconds. -/
def pk_time_get_elapsed (time : PkTime) (timer : Flt) : Option ℕ :=
  let elapsed := timer
  let elapsed := Flt.mul binary64 elapsed (Flt.fin 1000)
  let elapsed := Flt.add binary64 elapsed (Flt.ofNat binary64 time.time_offset)
  Flt.toGuint elapsed

/-- `pk_time_get_gradient`. -/
def pk_time_get_gradient (item1 item2 : PkTimeItem) : Flt :=
  let dy := Flt.ofNat binary32 (guint_sub item1.percentage item2.percentage)
  let dx := Flt.ofNat binary32 (guint_sub item1.time item2.time)
  Flt.div binary32 dy dx

/-- The constant `0.00001` of the gradient test, a `double`. -/
def gradient_min : Flt := Flt.round binary64 (1 / 100000)

/-- The test `grad < 0.00001 || grad > 100` of `pk_time_get_remaining`: the left comparison
is made in `double` (the promotion of a `gfloat` is exact), the right one in `gfloat`. -/
def gradient_ignored (grad : Flt) : Bool :=
  Flt.lt grad gradient_min || Flt.lt (Flt.ofNat binary32 100) grad

/-- The loop `for (i=length-1; i>0; i--)` of `pk_time_get_remaining`, entered with the
loop variable `i` and the current `averaged` and `grad_ave`; it returns their final
values. -/
def pk_time_scan (array : List PkTimeItem) (average_max : ℕ) : ℕ → ℕ → Flt → ℕ × Flt
  | 0, averaged, grad_ave => (averaged, grad_ave)
  | i + 1, averaged, grad_ave =>
    let item_prev := array.getD i default
    let item := array.getD (i + 1) default
    let grad := pk_time_get_gradient item item_prev
    if gradient_ignored grad then
      pk_time_scan array average_max i averaged grad_ave
    else
      let grad_ave := Flt.add binary32 grad_ave grad
      let averaged := averaged + 1
      if averaged > average_max then (averaged, grad_ave)
      else pk_time_scan array average_max i averaged grad_ave

/-- The result of the whole scan: `averaged` and `grad_ave` after the loop. -/
def pk_time_scan_all (time : PkTime) : ℕ × Flt :=
  pk_time_scan time.array time.average_max (time.array.length - 1) 0 (Flt.fin 0)

/-- The value of `estimated` before the range check of `pk_time_get_remaining`
(lines 191-207), from the results of the scan. -/
def pk_time_estimated (time : PkTime) : Flt :=
  let length := time.array.length
  let averaged := (pk_time_scan_all time).1
  let grad_ave := (pk_time_scan_all time).2
  let grad_ave := Flt.div binary32 grad_ave (Flt.ofNat binary32 averaged)
  let item := time.array.getD (length - 1) default
  let percentage_left := guint_sub 100 item.percentage
  let estimated := Flt.div binary32 (Flt.ofNat binary32 percentage_left) grad_ave
  Flt.div binary32 estimated (Flt.ofNat binary32 1000)

/-- The range check of `pk_time_get_remaining` (lines 209-213). -/
def pk_time_range_check (time : PkTime) (estimated : Flt) : Flt :=
  if Flt.lt estimated (Flt.ofNat binary32 time.value_min) then Flt.fin 0
  else if Flt.lt (Flt.ofNat binary32 time.value_max) estimated then Flt.fin 0
  else estimated

/-- `pk_time_get_remaining`. The reading of the clock on line 196 is only logged and is
left out. -/
def pk_time_get_remaining (time : PkTime) : Option ℕ :=
  let length := time.array.length
  if length < 2 then some 0
  else if (pk_time_scan_all time).1 < time.average_min then some 0
  else Flt.toGuint (pk_time_range_check time (pk_time_estimated time))

/-- `pk_time_add_data`; `timer` is the reading of the `GTimer` at the call. -/
def pk_time_add_data (time : PkTime) (timer : Flt) (percentage : ℕ) :
    Option (Bool × PkTime) :=
  if percentage < time.last_percentage then some (false, time)
  else
    let time := { time with last_percentage := percentage }
    match pk_time_get_elapsed time timer with
    | none => none
    | some elapsed =>
      let item : PkTimeItem := { time := elapsed, percentage := percentage }
      some (true, { time with array := time.array ++ [item] })

/-- `pk_time_free_data`: every sample is removed. -/
def pk_time_free_data (time : PkTime) : Bool × PkTime :=
  (true, { time with array := [] })

/-- `pk_time_reset`. -/
def pk_time_reset (time : PkTime) : Bool × PkTime :=
  let time := { time with time_offset := 0 }
  let time := { time with last_percentage := 0 }
  let time := { time with average_min := PK_TIME_AVERAGE_DEFAULT_MIN }
  let time := { time with average_max := PK_TIME_AVERAGE_DEFAULT_MAX }
  let time := { time with value_min := PK_TIME_VALUE_DEFAULT_MIN }
  let time := { time with value_max := PK_TIME_VALUE_DEFAULT_MAX }
  (true, (pk_time_free_data time).2)

/-- `pk_time_new`: `pk_time_init` creates the empty array and calls `pk_time_reset`. -/
def pk_time_new : PkTime :=
  (pk_time_reset ⟨0, 0, 0, 0, 0, 0, []⟩).2

/-- The log whose samples are the given `(time, percentage)` pairs, oldest first. -/
def mkLog (l : List (ℕ × ℕ)) : List PkTimeItem :=
  l.map fun s => { time := s.1, percentage := s.2 }

/-- The calls of the interface that change or read an estimator. -/
inductive PkTimeOp where
  | add_data (timer : Flt) (percentage : ℕ)
  | set_average_limits (average_min average_max : ℕ)
  | set_value_limits (value_min value_max : ℕ)
  | get_remaining
  | reset

/-- The state after one call, `none` when the call runs into undefined behaviour. -/
def PkTimeOp.apply (time : PkTime) : PkTimeOp → Option PkTime
  | PkTimeOp.add_data timer percentage =>
    (pk_time_add_data time timer percentage).map Prod.snd
  | PkTimeOp.set_average_limits average_min average_max =>
    some (pk_time_set_average_limits time average_min average_max).2
  | PkTimeOp.set_value_limits value_min value_max =>
    some (pk_time_set_value_limits time value_min value_max).2
  | PkTimeOp.get_remaining => (pk_time_get_remaining time).map fun _ => time
  | PkTimeOp.reset => some (pk_time_reset time).2

/-- The state after a sequence of calls. -/
def pk_time_run (time : PkTime) : List PkTimeOp → Option PkTime
  | [] => some time
  | op :: ops => (op.apply time).bind fun t => pk_time_run t ops

/-- The percentages of the log are non-decreasing, none exceeds the last-percentage marker,
and the marker is the newest percentage (`0` on an empty log). -/
def LogInvariant (time : PkTime) : Prop :=
  List.Sorted (· ≤ ·) (time.array.map PkTimeItem.percentage) ∧
  (∀ item ∈ time.array, item.percentage ≤ time.last_percentage) ∧
  time.last_percentage = ((time.array.getLast?).map PkTimeItem.percentage).getD 0

/-- The value `v` is a non-negative number of the format: a multiple of a power of two
not below the least exponent, by a significand of at most `prec` bits. -/
def Flt.Rep (F : Fmt) (v : ℚ) : Prop :=
  ∃ m k : ℤ, F.emin ≤ k ∧ 0 ≤ m ∧ m < 2 ^ F.prec ∧ v = (m : ℚ) * (2 : ℚ) ^ k

/-- The gradients the loop of `pk_time_get_remaining` meets from the loop variable `i`
down to 1, in that order. -/
def pk_time_gradients_below (array : List PkTimeItem) : ℕ → List Flt
  | 0 => []
  | i + 1 =>
    pk_time_get_gradient (array.getD (i + 1) default) (array.getD i default) ::
      pk_time_gradients_below array i

/-- The gradients of the consecutive pairs (older, newer) of the log, newest pair first. -/
def pk_time_gradients (array : List PkTimeItem) : List Flt :=
  ((array.zip array.tail).map fun pair => pk_time_get_gradient pair.2 pair.1).reverse

/-- The accepted gradients: those of the consecutive pairs, newest pair first, that the test
does not ignore, up to the `average_max + 1` newest of them. -/
def pk_time_accepted (time : PkTime) : List Flt :=
  ((pk_time_gradients time.array).filter fun grad => !gradient_ignored grad).take
    (time.average_max + 1)

/-- The raw estimate in the words of the specification:
`((100 - newest percentage) / mean of the accepted gradients) / 1000`, every operation in
`gfloat`, the accepted gradients summed newest first. -/
def pk_time_raw_estimate (time : PkTime) : Flt :=
  let accepted := pk_time_accepted time
  let mean := Flt.div binary32 (accepted.foldl (Flt.add binary32) (Flt.fin 0))
    (Flt.ofNat binary32 accepted.length)
  let newest := (time.array.getLast?).getD default
  Flt.div binary32
    (Flt.div binary32 (Flt.ofNat binary32 (guint_sub 100 newest.percentage)) mean)
    (Flt.ofNat binary32 1000)

/-! ### Concrete estimators -/

/-- A new estimator holding the given samples `(time, percentage)`, oldest first. -/
def withLog (l : List (ℕ × ℕ)) : PkTime := { pk_time_new with array := mkLog l }

/-- The log of the first test of `pk_time_test`: 10 % to 50 %, 2 s apart. -/
def log_test_short : PkTime :=
  withLog [(0, 10), (2000, 20), (4000, 30), (6000, 40), (8000, 50)]

/-- The log of the second test of `pk_time_test`: 0 % to 50 %, 4 minutes apart. -/
def log_test_long : PkTime :=
  withLog [(0, 0), (240000, 10), (480000, 20), (720000, 30), (960000, 40), (1200000, 50)]

/-- Three percent every 3 s. -/
def log_three : PkTime :=
  withLog [(0, 0), (3000, 3), (6000, 6), (9000, 9), (12000, 12)]

/-- The state after `set_average_limits(1, 1)`, `set_value_limits(16777217, 4294967295)`,
`add_data(2197814396)` at 0 ms and `add_data(2197815396)` at 8000 ms. -/
def log_wrapped : PkTime :=
  { pk_time_new with
    last_percentage := 2197815396, average_min := 1, average_max := 1,
    value_min := 16777217, value_max := 4294967295,
    array := mkLog [(0, 2197814396), (8000, 2197815396)] }

/-- The state after twelve calls of `add_data`, five percent every second from 0 %. -/
def log_twelve : PkTime :=
  { pk_time_new with
    last_percentage := 55,
    array := mkLog [(0, 0), (1000, 5), (2000, 10), (3000, 15), (4000, 20), (5000, 25),
      (6000, 30), (7000, 35), (8000, 40), (9000, 45), (10000, 50), (11000, 55)] }

/-- The calls that lead to `log_twelve`. -/
def calls_twelve : List PkTimeOp :=
  (List.range 12).map fun (i : ℕ) => PkTimeOp.add_data (Flt.fin (i : ℚ)) (5 * i)

/-- The state after five calls `add_data(10)` within the first millisecond. -/
def log_same_instant : PkTime :=
  { pk_time_new with
    last_percentage := 10,
    array := mkLog [(0, 10), (0, 10), (0, 10), (0, 10), (0, 10)] }

/-- The calls that lead to `log_same_instant`: the timer reads 0, 1/8192, 1/4096, 3/8192
and 1/2048 s. -/
def calls_same_instant : List PkTimeOp :=
  (List.range 5).map fun (i : ℕ) => PkTimeOp.add_data (Flt.fin ((i : ℚ) / 8192)) 10

/-- The state after `set_average_limits(1, 10)` and two calls `add_data(10)` within the
first millisecond. -/
def log_same_instant_pair : PkTime :=
  { pk_time_new with
    last_percentage := 10, average_min := 1, array := mkLog [(0, 10), (0, 10)] }

/-- The state after `set_average_limits(0, 10)`, `add_data(10)` and `add_data(20)` within
the first millisecond. -/
def log_same_instant_zero_min : PkTime :=
  { pk_time_new with
    last_percentage := 20, average_min := 0, array := mkLog [(0, 10), (0, 20)] }

/-- The log of the first test with its newest sample recorded twice. -/
def log_test_short_repeated : PkTime :=
  withLog [(0, 10), (2000, 20), (4000, 30), (6000, 40), (8000, 50), (8000, 50)]

/-- The regular log of `n` samples under the default limits: from `t0` ms and `p0` percent
in steps of `dx` ms and `dy` percent. -/
def regular_log (n t0 p0 dx dy : ℕ) : PkTime :=
  withLog ((List.range n).map fun i => (t0 + i * dx, p0 + i * dy))

/-- One percent every second, from 0 % to 4 %. -/
def log_one : PkTime := regular_log 5 0 0 1000 1

/-- One percent every 100 s, from 60 % to 64 %: the ratio `dy / dx` is `0.00001`. -/
def log_boundary : PkTime := regular_log 5 0 60 100000 1

/-- Three percent every 250 ms, from 22 % to 40 %: `(100 - 40) * 250 / (3 * 1000) = 5`. -/
def log_five : PkTime := regular_log 7 0 22 250 3

/-- `pk_time_get_remaining` with the reading of the clock on line 196: `elapsed` is
computed from the `GTimer` reading `timer` for the debug message only, and nothing else
reads it; its conversion to `guint` is undefined when the reading is out of range. -/
def pk_time_get_remaining_at (time : PkTime) (timer : Flt) : Option ℕ :=
  let length := time.array.length
  if length < 2 then some 0
  else if (pk_time_scan_all time).1 < time.average_min then some 0
  else
    match pk_time_get_elapsed time timer with
    | none => none
    | some _elapsed => Flt.toGuint (pk_time_range_check time (pk_time_estimated time))

/-- A sequence of calls of `pk_time_add_data`, each given by the reading of the `GTimer` in
seconds, the value of `time_offset` at the call (the caller may have changed it, as
`pk_time_test` does) and the percentage. -/
def pk_time_feed (time : PkTime) : List (ℚ × ℕ × ℕ) → Option PkTime
  | [] => some time
  | call :: calls =>
    match pk_time_add_data { time with time_offset := call.2.1 } (Flt.fin call.1) call.2.2 with
    | none => none
    | some result => pk_time_feed result.2 calls

/-- The first test log with another time offset and last-percentage marker. -/
def log_test_short_shifted : PkTime :=
  { log_test_short with time_offset := 8000, last_percentage := 50 }

/-- The state after `pk_time_new` and `time->priv->time_offset += 2000`, as in
`pk_time_test`. -/
def pk_time_offset_2000 : PkTime := { pk_time_new with time_offset := 2000 }

/-- The `gdouble` nearest to 1.001, a reading of the `GTimer` of 1.001 s. -/
def timer_1001_ms : ℚ := 2254051613498933 / 2251799813685248

/-- The value `pk_time_get_elapsed` returns at a call of `pk_time_feed`; it depends on the
reading of the timer and on the time offset only. -/
def pk_time_elapsed_at (call : ℚ × ℕ × ℕ) : Option ℕ :=
  pk_time_get_elapsed { pk_time_new with time_offset := call.2.1 } (Flt.fin call.1)

/-- The calls of the first test of `pk_time_test`, the timer read at 0, 1, 2, 3 and 4 times
1/1024 s and the time offset raised by 2000 before each call but the first. -/
def calls_test_short : List (ℚ × ℕ × ℕ) :=
  [(0, 0, 10), (1 / 1024, 2000, 20), (1 / 512, 4000, 30), (3 / 1024, 6000, 40),
   (1 / 256, 8000, 50)]

/-! ## Strings

A string of C is modelled by the list of its characters before the terminating NUL, one
`Char` for each `gchar`; a `const gchar *` that may be NULL is an `Option (List Char)`. -/

/-- `pk_strzero`: TRUE for NULL and for the empty string. -/
def pk_strzero : Option (List Char) → Bool
  | none => true
  | some [] => true
  | some (_ :: _) => false

/-- `g_strsplit (string, ";", 0)` of GLib: the pieces between the delimiters, in order,
with the remainder after the last delimiter; the empty string gives the empty vector. -/
def g_strsplit (string : List Char) : List (List Char) :=
  if string = [] then [] else string.splitOn ';'

/-- `pk_strsplit`: `none` is NULL. `sections[0]` of an empty vector is the terminating NULL
of the vector. -/
def pk_strsplit (id : Option (List Char)) (parts : ℕ) : Option (List (List Char)) :=
  match id with
  | none => none
  | some id =>
    let sections := g_strsplit id
    if sections.length ≠ parts then none
    else if pk_strzero sections.head? then none
    else some sections

/-- `pk_strequal`: FALSE when a string is NULL, else `strcmp (id1, id2) == 0`. -/
def pk_strequal (id1 id2 : Option (List Char)) : Bool :=
  match id1, id2 with
  | some id1, some id2 => decide (id1 = id2)
  | _, _ => false

/-- `pk_strcmp_sections`. -/
def pk_strcmp_sections (id1 id2 : Option (List Char)) (parts compare : ℕ) : Bool :=
  match id1, id2 with
  | some id1, some id2 =>
    if compare > parts then false
    else if compare = parts then pk_strequal (some id1) (some id2)
    else
      match pk_strsplit (some id1) parts, pk_strsplit (some id2) parts with
      | some sections1, some sections2 =>
        (List.range compare).all fun i => pk_strequal sections1[i]? sections2[i]?
      | _, _ => false
  | _, _ => false

/-- `pk_filter_check`; `known` tells whether `pk_filter_enum_from_text` returns a value
other than `PK_FILTER_ENUM_UNKNOWN` for a section. -/
def pk_filter_check (known : List Char → Bool) (filter : Option (List Char)) : Bool :=
  match filter with
  | none => false
  | some filter =>
    if pk_strzero (some filter) then false
    else (g_strsplit filter).all fun sec => !pk_strzero (some sec) && known sec

/-- A recogniser for the filter names used in `libst_common`. -/
def filter_known (sec : List Char) : Bool :=
  decide (sec ∈ ["none".toList, "gui".toList, "~gui".toList, "devel".toList,
    "~devel".toList, "installed".toList, "~installed".toList])

/-- `g_ascii_isdigit`. -/
def g_ascii_isdigit (c : Char) : Bool := decide ('0' ≤ c ∧ c ≤ '9')

/-- The loop of `pk_strnumber` from the index `i`, on the characters from `text[i]` on. -/
def pk_strnumber_loop : ℕ → List Char → Bool
  | _, [] => true
  | i, c :: cs =>
    if i > 10 then false
    else if i = 0 ∧ c = '-' then pk_strnumber_loop (i + 1) cs
    else if g_ascii_isdigit c = false then false
    else pk_strnumber_loop (i + 1) cs

/-- `pk_strnumber`. The `guint` `length` holds `strlen (text)` modulo `2 ^ 32`, and the
loop `for (i=0; i<length; i++)` visits the first `length` characters. -/
def pk_strnumber (text : Option (List Char)) : Bool :=
  if pk_strzero text then false
  else
    match text with
    | none => false
    | some text =>
      let length := text.length % 4294967296
      pk_strnumber_loop 0 (text.take length)

/-- `isspace` in the C locale. -/
def isspace (c : Char) : Bool :=
  decide (c = ' ' ∨ c = '\t' ∨ c = '\n' ∨ c = '\x0b' ∨ c = '\x0c' ∨ c = '\r')

/-- The digits loop of `strtol` in base 10: the value of the leading digits, after `acc`. -/
def strtol_digits : ℕ → List Char → ℕ
  | acc, [] => acc
  | acc, c :: cs =>
    if g_ascii_isdigit c then strtol_digits (acc * 10 + (c.toNat - 48)) cs else acc

/-- `atoi` of the C library: white space is skipped, then an optional sign and the leading
digits are read; the behaviour is undefined (`none`) when the value does not fit an
`int`. -/
def atoi (nptr : List Char) : Option ℤ :=
  let value : ℤ :=
    match nptr.dropWhile isspace with
    | '-' :: digits => -(strtol_digits 0 digits : ℤ)
    | '+' :: digits => (strtol_digits 0 digits : ℤ)
    | digits => (strtol_digits 0 digits : ℤ)
  if -2147483648 ≤ value ∧ value ≤ 2147483647 then some value else none

/-- `pk_strtoint`: the returned boolean with the value stored in `*value`. -/
def pk_strtoint (text : Option (List Char)) : Option (Bool × ℤ) :=
  let ret := pk_strnumber text
  if ret = false then some (false, 0)
  else
    match text with
    | none => none
    | some text => (atoi text).map fun value => (true, value)

/-- Following the claims: `sections` is the result of splitting `text` at every `;`, that
is, no section contains `;` and the sections joined with `;` are `text`. -/
def splits_into (text : List Char) (sections : List (List Char)) : Prop :=
  sections ≠ [] ∧ (∀ sec ∈ sections, ';' ∉ sec) ∧ [';'].intercalate sections = text

instance splits_into.decidable (text : List Char) (sections : List (List Char)) :
    Decidable (splits_into text sections) := by
  unfold splits_into
  infer_instance

/-- Following the claims: a well-formed decimal integer of at most 11 characters, an
optional single leading `-` followed by one or more ASCII digits and nothing else. -/
def is_decimal_integer (text : Option (List Char)) : Prop :=
  ∃ digits : List Char, digits ≠ [] ∧ (∀ c ∈ digits, '0' ≤ c ∧ c ≤ '9') ∧
    (text = some digits ∨ text = some ('-' :: digits)) ∧
    ∀ t, text = some t → t.length ≤ 11

/-- Following the claims: the integer that an optional `-` followed by decimal digits
denotes, the digits weighted by the powers of ten. -/
def decimal_value (text : List Char) : ℤ :=
  match text with
  | '-' :: digits => -((Nat.ofDigits 10 (digits.reverse.map fun c => c.toNat - 48) : ℕ) : ℤ)
  | digits => ((Nat.ofDigits 10 (digits.reverse.map fun c => c.toNat - 48) : ℕ) : ℤ)

/-- `pk_strtouint`: the returned boolean with the value stored in `*value`; `(guint) temp`
is the value of `temp` modulo `2 ^ 32`. -/
def pk_strtouint (text : Option (List Char)) : Option (Bool × ℕ) :=
  match pk_strtoint text with
  | none => none
  | some (ret, temp) =>
    if ret = false ∨ temp < 0 then some (false, 0)
    else some (true, (temp % 4294967296).toNat)

/-- `pk_strvalidate_char`: the `switch` over the 15 characters space, dollar, backtick
(`\x60`), apostrophe (`\x27`), double quote (`\x22`), caret, the brackets, the braces
(`\x7b`, `\x7d`), hash, backslash (`\x5c`), less than, greater than and the bar. -/
def pk_strvalidate_char (item : Char) : Bool :=
  if item = ' ' then false
  else if item = '$' then false
  else if item = '\x60' then false
  else if item = '\x27' then false
  else if item = '\x22' then false
  else if item = '^' then false
  else if item = '[' then false
  else if item = ']' then false
  else if item = '\x7b' then false
  else if item = '\x7d' then false
  else if item = '#' then false
  else if item = '\x5c' then false
  else if item = '<' then false
  else if item = '>' then false
  else if item = '|' then false
  else true

/-- The loop of `pk_strvalidate` from the index `i`, on the characters from `text[i]` on. -/
def pk_strvalidate_loop : ℕ → List Char → Bool
  | _, [] => true
  | i, c :: cs =>
    if i > 1024 then false
    else if pk_strvalidate_char c = false then false
    else pk_strvalidate_loop (i + 1) cs

/-- `pk_strvalidate`, for a text that is not NULL. The `guint` `length` holds
`strlen (text)` modulo `2 ^ 32`, and the loop `for (i=0; i<length; i++)` visits the first
`length` characters. -/
def pk_strvalidate (text : List Char) : Bool :=
  let length := text.length % 4294967296
  pk_strvalidate_loop 0 (text.take length)

/-- Following the claim: the 15 forbidden characters space, dollar, backtick, apostrophe,
double quote, caret, opening and closing bracket, opening and closing brace, hash,
backslash, less than, greater than, bar. -/
def forbidden_chars : List Char :=
  [' ', '$', '\x60', '\x27', '\x22', '^', '[', ']', '\x7b', '\x7d', '#', '\x5c', '<', '>',
    '|']

/-- `g_strnfill` of GLib: a string of `length` copies of `fill_char`. -/
def g_strnfill (length : ℕ) (fill_char : Char) : List Char := List.replicate length fill_char

/-- The conversion of an integer value to `gint`: the value modulo `2 ^ 32` in
`[-2 ^ 31, 2 ^ 31)`, as GCC defines the conversion of a value out of range. -/
def to_gint (z : ℤ) : ℤ := (z + 2147483648) % 4294967296 - 2147483648

/-- `g_strdup_printf ("%s%s", data, padding)` of GLib: the two strings joined. The printf
family counts the characters of its result in an `int`, so there is no result string
(`none`) when their number would exceed `INT_MAX`. -/
def g_strdup_printf (data padding : List Char) : Option (List Char) :=
  if data.length + padding.length ≤ 2147483647 then some (data ++ padding) else none

/-- `pk_strpad`: `length - strlen (data)` is computed in the unsigned type `size_t` and
stored in the `gint` `size`; `none` is the case in which `g_strdup_printf` has no result
string. -/
def pk_strpad (data : Option (List Char)) (length : ℕ) : Option (List Char) :=
  match data with
  | none => some (g_strnfill length ' ')
  | some data =>
    let size : ℤ := to_gint ((length : ℤ) - (data.length : ℤ))
    if size ≤ 0 then some data
    else
      let padding := g_strnfill size.toNat ' '
      g_strdup_printf data padding

/-- The pair of samples 100 s and one percent apart: `dy / dx` is exactly `0.00001`. -/
def pair_boundary_older : PkTimeItem := { time := 0, percentage := 0 }

/-- The newer sample of the pair with `dy / dx = 0.00001`. -/
def pair_boundary_newer : PkTimeItem := { time := 100000, percentage := 1 }

/-- A log with two rejected pairs, a stalled one and one of one percent in 200 s, between
two older and two newer pairs of ten percent per second, under the default limits. -/
def log_rejected_between : PkTime :=
  withLog [(0, 0), (1000, 10), (2000, 20), (3000, 20), (203000, 21), (204000, 31),
    (205000, 41)]

/-- The consecutive pairs (older, newer) of the log, newest pair first. -/
def pk_time_pairs (array : List PkTimeItem) : List (PkTimeItem × PkTimeItem) :=
  (array.zip array.tail).reverse

/-- A log in the range in which the conversions to `gfloat` are exact and `100 - percentage`
does not wrap: consecutive samples have increasing times at most `2 ^ 24` ms apart and
percentages that do not decrease, every time is a `guint` and every percentage is at most
100. -/
def log_in_range (time : PkTime) : Prop :=
  (∀ pair ∈ pk_time_pairs time.array,
    pair.1.time < pair.2.time ∧ pair.2.time - pair.1.time ≤ 16777216 ∧
      pair.1.percentage ≤ pair.2.percentage) ∧
  ∀ item ∈ time.array, item.time < 4294967296 ∧ item.percentage ≤ 100

instance log_in_range.decidable (time : PkTime) : Decidable (log_in_range time) := by
  unfold log_in_range
  infer_instance

theorem log2Fuel_bounds (fuel n : ℕ) (h : n ≤ fuel) (hn : 0 < n) :
    2 ^ log2Fuel fuel n ≤ n ∧ n < 2 ^ (log2Fuel fuel n + 1) := by
  induction fuel generalizing n with
  | zero => omega
  | succ f ih =>
    rw [log2Fuel]
    by_cases h2 : 2 ≤ n
    · have hle : n / 2 ≤ f := by omega
      have hpos : 0 < n / 2 := by omega
      obtain ⟨h3, h4⟩ := ih (n / 2) hle hpos
      simp only [h2, if_true]
      constructor
      · rw [pow_succ]; omega
      · rw [pow_succ]; omega
    · simp only [h2, if_false]
      omega

theorem nlog2_bounds (n : ℕ) (hn : 0 < n) : 2 ^ nlog2 n ≤ n ∧ n < 2 ^ (nlog2 n + 1) :=
  log2Fuel_bounds n n le_rfl hn

theorem ilog2_bounds (q : ℚ) (hq : 0 < q) :
    (2 : ℚ) ^ ilog2 q ≤ q ∧ q < (2 : ℚ) ^ (ilog2 q + 1) := by
  have hnum : 0 < q.num := Rat.num_pos.mpr hq
  have hn : 0 < q.num.natAbs := Int.natAbs_pos.mpr hnum.ne'
  have hd : 0 < q.den := q.den_pos
  obtain ⟨a1, a2⟩ := nlog2_bounds _ hn
  obtain ⟨b1, b2⟩ := nlog2_bounds _ hd
  have hqe : q = (q.num.natAbs : ℚ) / (q.den : ℚ) := by
    have h1 : (q.num.natAbs : ℚ) = (q.num : ℚ) := by
      rw [Nat.cast_natAbs, abs_of_pos hnum]
    rw [h1]
    exact (Rat.num_div_den q).symm
  have two_pos : (0 : ℚ) < 2 := by norm_num
  have hdq : (0 : ℚ) < q.den := by exact_mod_cast hd
  -- cast the bounds
  have a1q : (2 : ℚ) ^ (nlog2 q.num.natAbs : ℤ) ≤ (q.num.natAbs : ℚ) := by
    rw [zpow_natCast]; exact_mod_cast a1
  have a2q : (q.num.natAbs : ℚ) < (2 : ℚ) ^ ((nlog2 q.num.natAbs : ℤ) + 1) := by
    have : ((nlog2 q.num.natAbs : ℤ) + 1) = ((nlog2 q.num.natAbs + 1 : ℕ) : ℤ) := by norm_cast
    rw [this, zpow_natCast]; exact_mod_cast a2
  have b1q : (2 : ℚ) ^ (nlog2 q.den : ℤ) ≤ (q.den : ℚ) := by
    rw [zpow_natCast]; exact_mod_cast b1
  have b2q : (q.den : ℚ) < (2 : ℚ) ^ ((nlog2 q.den : ℤ) + 1) := by
    have : ((nlog2 q.den : ℤ) + 1) = ((nlog2 q.den + 1 : ℕ) : ℤ) := by norm_cast
    rw [this, zpow_natCast]; exact_mod_cast b2
  set A : ℤ := (nlog2 q.num.natAbs : ℤ) with hA
  set B : ℤ := (nlog2 q.den : ℤ) with hB
  have hpA : (0 : ℚ) < 2 ^ A := zpow_pos two_pos _
  have hpB : (0 : ℚ) < 2 ^ B := zpow_pos two_pos _
  -- lower: 2^(A-B-1) < q ; upper: q < 2^(A-B+1)
  have lower : (2 : ℚ) ^ (A - B - 1) < q := by
    have e : (2 : ℚ) ^ (A - B - 1) = 2 ^ A / 2 ^ (B + 1) := by
      rw [← zpow_sub₀ two_pos.ne']; congr 1; ring
    rw [e, hqe, div_lt_div_iff₀ (zpow_pos two_pos _) hdq]
    calc (2 : ℚ) ^ A * q.den < 2 ^ A * 2 ^ (B + 1) := by
          exact mul_lt_mul_of_pos_left b2q hpA
      _ ≤ q.num.natAbs * 2 ^ (B + 1) := by
          exact mul_le_mul_of_nonneg_right a1q (zpow_pos two_pos _).le
  have upper : q < (2 : ℚ) ^ (A - B + 1) := by
    have e : (2 : ℚ) ^ (A - B + 1) = 2 ^ (A + 1) / 2 ^ B := by
      rw [← zpow_sub₀ two_pos.ne']; congr 1; ring
    rw [e]
    nth_rewrite 1 [hqe]
    rw [div_lt_div_iff₀ hdq hpB]
    calc (q.num.natAbs : ℚ) * 2 ^ B < 2 ^ (A + 1) * 2 ^ B := by
          exact mul_lt_mul_of_pos_right a2q hpB
      _ ≤ 2 ^ (A + 1) * q.den := by
          exact mul_le_mul_of_nonneg_left b1q (zpow_pos two_pos _).le
  unfold ilog2
  simp only [← hA, ← hB]
  by_cases hc : (2 : ℚ) ^ (A - B) ≤ q
  · rw [if_pos hc]
    exact ⟨hc, upper⟩
  · rw [if_neg hc]
    refine ⟨lower.le, ?_⟩
    have : A - B - 1 + 1 = A - B := by ring
    rw [this]
    exact lt_of_not_le hc


theorem rne_cases (x : ℚ) :
    rne x = ⌊x⌋ ∨ (rne x = ⌊x⌋ + 1 ∧ (1 / 2 : ℚ) ≤ x - ⌊x⌋) := by
  unfold rne
  by_cases h1 : x - (⌊x⌋ : ℚ) < 1 / 2
  · left; simp only [h1, if_true]
  · have h1b : (1 / 2 : ℚ) ≤ x - ⌊x⌋ := not_lt.mp h1
    by_cases h2 : (1 / 2 : ℚ) < x - ⌊x⌋
    · right; simp only [h1, h2, if_true, if_false]; exact ⟨trivial, h1b⟩
    · by_cases h3 : ⌊x⌋ % 2 = 0
      · left; simp only [h1, h2, h3, if_true, if_false]
      · right; simp only [h1, h2, h3, if_false]; exact ⟨trivial, h1b⟩

theorem rne_le_of_le (x : ℚ) (N : ℤ) (h : x ≤ N) : rne x ≤ N := by
  have hf : ⌊x⌋ ≤ N := Int.floor_le_iff.mpr (lt_of_le_of_lt h (by norm_num))
  rcases rne_cases x with h1 | ⟨h1, h2⟩
  · rw [h1]; exact hf
  · rw [h1]
    by_contra hc
    have hN : N = ⌊x⌋ := by omega
    have h3 : x ≤ (⌊x⌋ : ℚ) := by rw [← hN]; exact h
    linarith

theorem le_rne_of_le (x : ℚ) (N : ℤ) (h : (N : ℚ) ≤ x) : N ≤ rne x := by
  have hf : N ≤ ⌊x⌋ := Int.le_floor.mpr h
  rcases rne_cases x with h1 | ⟨h1, _⟩
  · rw [h1]; exact hf
  · rw [h1]; omega

theorem ulpExp_ge (F : Fmt) (q : ℚ) : F.emin ≤ ulpExp F q := le_max_right _ _

theorem ulpExp_cases (F : Fmt) (q : ℚ) :
    ulpExp F q = ilog2 q - ((F.prec : ℤ) - 1) ∨
      (ulpExp F q = F.emin ∧ ilog2 q - ((F.prec : ℤ) - 1) ≤ F.emin) := by
  unfold ulpExp
  rcases le_total (ilog2 q - ((F.prec : ℤ) - 1)) F.emin with h | h
  · right; exact ⟨max_eq_right h, h⟩
  · left; exact max_eq_left h

theorem two_zpow_pos (k : ℤ) : (0 : ℚ) < (2 : ℚ) ^ k := zpow_pos (by norm_num) k

/-- A number of the format that is at least `q` is a multiple of the unit in the last place
at `q`. -/
theorem rep_multiple_of_ulp (F : Fmt) (q e : ℚ) (hq : 0 < q) (he : Flt.Rep F e)
    (hqe : q ≤ e) : ∃ N : ℤ, e = (N : ℚ) * (2 : ℚ) ^ ulpExp F q := by
  obtain ⟨m, ke, hke, hm0, hm, rfl⟩ := he
  by_cases hk : ulpExp F q ≤ ke
  · obtain ⟨d, hd⟩ := Int.le.dest hk
    refine ⟨m * 2 ^ d, ?_⟩
    rw [← hd, zpow_add₀ (by norm_num : (2 : ℚ) ≠ 0), zpow_natCast]
    push_cast
    ring
  · exfalso
    have hk2 : ke + 1 ≤ ulpExp F q := by omega
    rcases ulpExp_cases F q with h1 | ⟨h1, _⟩
    · have hlow := (ilog2_bounds q hq).1
      have hlog : ilog2 q = ulpExp F q + ((F.prec : ℤ) - 1) := by omega
      have hmq : (m : ℚ) < (2 : ℚ) ^ (F.prec : ℤ) := by
        rw [zpow_natCast]; exact_mod_cast hm
      have h3 : (m : ℚ) * 2 ^ ke < (2 : ℚ) ^ (F.prec : ℤ) * 2 ^ ke :=
        mul_lt_mul_of_pos_right hmq (two_zpow_pos ke)
      have h4 : (2 : ℚ) ^ (F.prec : ℤ) * 2 ^ ke = 2 ^ ((F.prec : ℤ) + ke) := by
        rw [zpow_add₀ (by norm_num : (2 : ℚ) ≠ 0)]
      have h5 : (2 : ℚ) ^ ((F.prec : ℤ) + ke) ≤ 2 ^ ilog2 q :=
        zpow_le_zpow_right₀ (by norm_num) (by omega)
      linarith
    · omega

theorem round_pos_eq (F : Fmt) (q : ℚ) (hq : 0 < q) :
    Flt.round F q =
      if (2 : ℚ) ^ F.emax ≤ (rne (q / (2 : ℚ) ^ ulpExp F q) : ℚ) * (2 : ℚ) ^ ulpExp F q
      then Flt.inf
      else Flt.fin ((rne (q / (2 : ℚ) ^ ulpExp F q) : ℚ) * (2 : ℚ) ^ ulpExp F q) := by
  unfold Flt.round
  rw [if_neg (not_le.mpr hq)]

/-- Rounding never goes above a number of the format that is at least the exact value. -/
theorem round_le_of_le_rep (F : Fmt) (q e : ℚ) (he : Flt.Rep F e)
    (hmax : e < (2 : ℚ) ^ F.emax) (hqe : q ≤ e) :
    ∃ v, Flt.round F q = Flt.fin v ∧ v ≤ e := by
  have he0 : 0 ≤ e := by
    obtain ⟨m, k, _, hm0, _, rfl⟩ := he
    exact mul_nonneg (by exact_mod_cast hm0) (two_zpow_pos k).le
  by_cases hq : q ≤ 0
  · exact ⟨0, by simp [Flt.round, hq], he0⟩
  · have hq0 : 0 < q := not_le.mp hq
    obtain ⟨N, hN⟩ := rep_multiple_of_ulp F q e hq0 he hqe
    have hp := two_zpow_pos (ulpExp F q)
    have hx : q / (2 : ℚ) ^ ulpExp F q ≤ (N : ℚ) := by
      rw [div_le_iff₀ hp, ← hN]; exact hqe
    have hr : rne (q / (2 : ℚ) ^ ulpExp F q) ≤ N := rne_le_of_le _ N hx
    have hv : (rne (q / (2 : ℚ) ^ ulpExp F q) : ℚ) * (2 : ℚ) ^ ulpExp F q ≤ e := by
      rw [hN]
      exact mul_le_mul_of_nonneg_right (by exact_mod_cast hr) hp.le
    refine ⟨_, ?_, hv⟩
    rw [round_pos_eq F q hq0, if_neg]
    exact not_le.mpr (lt_of_le_of_lt hv hmax)

/-- Rounding never goes below a number of the format that is at most the exact value. -/
theorem le_round_of_rep_le (F : Fmt) (q e : ℚ) (hprec : 0 < F.prec) (he : Flt.Rep F e)
    (heq : e ≤ q) :
    Flt.round F q = Flt.inf ∨ ∃ v, Flt.round F q = Flt.fin v ∧ e ≤ v := by
  have he0 : 0 ≤ e := by
    obtain ⟨m, k, _, hm0, _, rfl⟩ := he
    exact mul_nonneg (by exact_mod_cast hm0) (two_zpow_pos k).le
  by_cases hq : q ≤ 0
  · right
    exact ⟨0, by simp [Flt.round, hq], le_trans heq hq⟩
  · have hq0 : 0 < q := not_le.mp hq
    have hp := two_zpow_pos (ulpExp F q)
    have key : e ≤ (rne (q / (2 : ℚ) ^ ulpExp F q) : ℚ) * (2 : ℚ) ^ ulpExp F q := by
      obtain ⟨m, ke, hke, hm0, hm, rfl⟩ := he
      by_cases hk : ulpExp F q ≤ ke
      · obtain ⟨d, hd⟩ := Int.le.dest hk
        have hN : (m : ℚ) * (2 : ℚ) ^ ke = ((m * 2 ^ d : ℤ) : ℚ) * (2 : ℚ) ^ ulpExp F q := by
          rw [← hd, zpow_add₀ (by norm_num : (2 : ℚ) ≠ 0), zpow_natCast]
          push_cast
          ring
        have hx : ((m * 2 ^ d : ℤ) : ℚ) ≤ q / (2 : ℚ) ^ ulpExp F q := by
          rw [le_div_iff₀ hp, ← hN]; exact heq
        have hr := le_rne_of_le _ _ hx
        rw [hN]
        exact mul_le_mul_of_nonneg_right (by exact_mod_cast hr) hp.le
      · have hk2 : ke + 1 ≤ ulpExp F q := by omega
        rcases ulpExp_cases F q with h1 | ⟨h1, _⟩
        · have hlow := (ilog2_bounds q hq0).1
          have hlog : ilog2 q = ulpExp F q + ((F.prec : ℤ) - 1) := by omega
          obtain ⟨p, hpp⟩ : ∃ p : ℕ, F.prec = p + 1 := ⟨F.prec - 1, by omega⟩
          have hx : (((2 : ℤ) ^ p : ℤ) : ℚ) ≤ q / (2 : ℚ) ^ ulpExp F q := by
            rw [le_div_iff₀ hp]
            push_cast
            rw [← zpow_natCast, ← zpow_add₀ (by norm_num : (2 : ℚ) ≠ 0)]
            have : (p : ℤ) + ulpExp F q = ilog2 q := by rw [hlog, hpp]; push_cast; ring
            rw [this]; exact hlow
          have hr := le_rne_of_le _ _ hx
          have hmq : (m : ℚ) < (2 : ℚ) ^ (F.prec : ℤ) := by
            rw [zpow_natCast]; exact_mod_cast hm
          have h3 : (m : ℚ) * 2 ^ ke < (2 : ℚ) ^ (F.prec : ℤ) * 2 ^ ke :=
            mul_lt_mul_of_pos_right hmq (two_zpow_pos ke)
          have h4 : (2 : ℚ) ^ (F.prec : ℤ) * 2 ^ ke = 2 ^ ((F.prec : ℤ) + ke) := by
            rw [zpow_add₀ (by norm_num : (2 : ℚ) ≠ 0)]
          have h5 : (2 : ℚ) ^ ((F.prec : ℤ) + ke) ≤ 2 ^ ((p : ℤ) + ulpExp F q) :=
            zpow_le_zpow_right₀ (by norm_num) (by rw [hpp]; push_cast; omega)
          have h6 : (2 : ℚ) ^ ((p : ℤ) + ulpExp F q) = (((2 : ℤ) ^ p : ℤ) : ℚ) * 2 ^ ulpExp F q := by
            rw [zpow_add₀ (by norm_num : (2 : ℚ) ≠ 0), zpow_natCast]; push_cast; ring
          have h7 : (((2 : ℤ) ^ p : ℤ) : ℚ) * 2 ^ ulpExp F q ≤
              (rne (q / (2 : ℚ) ^ ulpExp F q) : ℚ) * (2 : ℚ) ^ ulpExp F q :=
            mul_le_mul_of_nonneg_right (by exact_mod_cast hr) hp.le
          linarith
        · omega
    rw [round_pos_eq F q hq0]
    by_cases hov : (2 : ℚ) ^ F.emax ≤
        (rne (q / (2 : ℚ) ^ ulpExp F q) : ℚ) * (2 : ℚ) ^ ulpExp F q
    · left; rw [if_pos hov]
    · right; rw [if_neg hov]; exact ⟨_, rfl, key⟩


/-- The result of a rounding is a number of the format. -/
theorem round_rep (F : Fmt) (hprec : 0 < F.prec) (q v : ℚ) (h : Flt.round F q = Flt.fin v) :
    Flt.Rep F v := by
  have hpow : (0 : ℤ) < 2 ^ F.prec := by positivity
  by_cases hq : q ≤ 0
  · simp only [Flt.round, hq, if_true, Flt.fin.injEq] at h
    exact ⟨0, F.emin, le_rfl, le_rfl, hpow, by rw [← h]; simp⟩
  · have hq0 : 0 < q := not_le.mp hq
    rw [round_pos_eq F q hq0] at h
    split at h
    · cases h
    · simp only [Flt.fin.injEq] at h
      have hp := two_zpow_pos (ulpExp F q)
      have hx0 : ((0 : ℤ) : ℚ) ≤ q / (2 : ℚ) ^ ulpExp F q := by
        push_cast; exact (div_pos hq0 hp).le
      have hr0 : 0 ≤ rne (q / (2 : ℚ) ^ ulpExp F q) := le_rne_of_le _ _ hx0
      have hup := (ilog2_bounds q hq0).2
      have hk : ilog2 q + 1 ≤ ulpExp F q + (F.prec : ℤ) := by
        have := le_max_left (ilog2 q - ((F.prec : ℤ) - 1)) F.emin
        unfold ulpExp; omega
      have hx1 : q / (2 : ℚ) ^ ulpExp F q ≤ (((2 : ℤ) ^ F.prec : ℤ) : ℚ) := by
        rw [div_le_iff₀ hp]
        push_cast
        rw [← zpow_natCast, ← zpow_add₀ (by norm_num : (2 : ℚ) ≠ 0)]
        have h5 : (2 : ℚ) ^ (ilog2 q + 1) ≤ 2 ^ ((F.prec : ℤ) + ulpExp F q) :=
          zpow_le_zpow_right₀ (by norm_num) (by omega)
        linarith
      have hr1 : rne (q / (2 : ℚ) ^ ulpExp F q) ≤ 2 ^ F.prec := rne_le_of_le _ _ hx1
      rcases lt_or_eq_of_le hr1 with hlt | heq
      · exact ⟨_, ulpExp F q, ulpExp_ge F q, hr0, hlt, h.symm⟩
      · obtain ⟨p, hpp⟩ : ∃ p : ℕ, F.prec = p + 1 := ⟨F.prec - 1, by omega⟩
        refine ⟨2 ^ p, ulpExp F q + 1, ?_, by positivity, ?_, ?_⟩
        · have := ulpExp_ge F q; omega
        · rw [hpp, pow_succ]
          have : (0 : ℤ) < 2 ^ p := by positivity
          omega
        · rw [← h, heq, hpp, zpow_add₀ (by norm_num : (2 : ℚ) ≠ 0)]
          push_cast
          ring

/-- Rounding leaves a number of the format as it is. -/
theorem round_of_rep (F : Fmt) (hprec : 0 < F.prec) (e : ℚ) (he : Flt.Rep F e)
    (hmax : e < (2 : ℚ) ^ F.emax) : Flt.round F e = Flt.fin e := by
  obtain ⟨v, hv, hle⟩ := round_le_of_le_rep F e e he hmax le_rfl
  rcases le_round_of_rep_le F e e hprec he le_rfl with h | ⟨w, hw, hge⟩
  · rw [hv] at h; cases h
  · rw [hv] at hw
    cases hw
    rw [hv, le_antisymm hle hge]

/-! ## Adding samples, resetting -/

theorem pk_time_get_elapsed_offset (time time2 : PkTime) (timer : Flt)
    (h : time2.time_offset = time.time_offset) :
    pk_time_get_elapsed time2 timer = pk_time_get_elapsed time timer := by
  simp [pk_time_get_elapsed, h]

theorem pk_time_add_data_down (time : PkTime) (timer : Flt) (p : ℕ)
    (h : p < time.last_percentage) : pk_time_add_data time timer p = some (false, time) := by
  simp [pk_time_add_data, h]

theorem pk_time_add_data_up (time : PkTime) (timer : Flt) (p elapsed : ℕ)
    (h : time.last_percentage ≤ p) (hc : pk_time_get_elapsed time timer = some elapsed) :
    pk_time_add_data time timer p =
      some (true, { time with last_percentage := p,
                              array := time.array ++ [{ time := elapsed, percentage := p }] }) := by
  have hc2 : pk_time_get_elapsed { time with last_percentage := p } timer = some elapsed :=
    (pk_time_get_elapsed_offset time _ timer rfl).trans hc
  simp [pk_time_add_data, Nat.not_lt.mpr h, hc2]

theorem pk_time_add_data_undefined (time : PkTime) (timer : Flt) (p : ℕ)
    (h : time.last_percentage ≤ p) (hc : pk_time_get_elapsed time timer = none) :
    pk_time_add_data time timer p = none := by
  have hc2 : pk_time_get_elapsed { time with last_percentage := p } timer = none :=
    (pk_time_get_elapsed_offset time _ timer rfl).trans hc
  simp [pk_time_add_data, Nat.not_lt.mpr h, hc2]

/-- C1: `pk_time_add_data` returns FALSE exactly when the percentage is strictly below the
last accepted one (for every state, clock reading and percentage). When the clock reading
converts to a `guint`, it returns TRUE exactly when the percentage is not below the last
accepted one: so for every percentage on a freshly reset estimator, for a percentage equal
to the last accepted one, and for a percentage above 100 that is not below it. -/
theorem pk_time_add_data_false_iff (time : PkTime) (timer : Flt) (p : ℕ) :
    ((pk_time_add_data time timer p).map Prod.fst = some false ↔ p < time.last_percentage) ∧
    ((pk_time_get_elapsed time timer).isSome = true →
      ((pk_time_add_data time timer p).map Prod.fst = some true ↔ time.last_percentage ≤ p) ∧
      (p = time.last_percentage → (pk_time_add_data time timer p).map Prod.fst = some true) ∧
      (100 < p → time.last_percentage ≤ p →
        (pk_time_add_data time timer p).map Prod.fst = some true)) ∧
    (∀ prior : PkTime, (pk_time_get_elapsed (pk_time_reset prior).2 timer).isSome = true →
      (pk_time_add_data (pk_time_reset prior).2 timer p).map Prod.fst = some true) := by
  have key : ∀ t : PkTime, (pk_time_get_elapsed t timer).isSome = true →
      t.last_percentage ≤ p → (pk_time_add_data t timer p).map Prod.fst = some true := by
    intro t hc hle
    obtain ⟨elapsed, he⟩ := Option.isSome_iff_exists.mp hc
    rw [pk_time_add_data_up t timer p elapsed hle he]
    rfl
  refine ⟨?_, ?_, ?_⟩
  · constructor
    · intro h
      by_contra hlt
      have hle : time.last_percentage ≤ p := Nat.le_of_not_lt hlt
      cases hc : pk_time_get_elapsed time timer with
      | none => rw [pk_time_add_data_undefined time timer p hle hc] at h; simp at h
      | some elapsed => rw [pk_time_add_data_up time timer p elapsed hle hc] at h; simp at h
    · intro h
      rw [pk_time_add_data_down time timer p h]
      rfl
  · intro hc
    refine ⟨⟨?_, key time hc⟩, fun h => key time hc (le_of_eq h.symm), fun _ h => key time hc h⟩
    intro h
    by_contra hlt
    rw [pk_time_add_data_down time timer p (Nat.lt_of_not_le hlt)] at h
    simp at h
  · intro prior hc
    exact key _ hc (Nat.zero_le p)

/-- C1, at concrete inputs: on a new estimator 250 is accepted, then 250 again, and 249 is
refused. -/
theorem pk_time_add_data_false_iff_witness :
    (pk_time_add_data pk_time_new (Flt.fin 0) 250).map Prod.fst = some true ∧
    (pk_time_add_data { pk_time_new with last_percentage := 250 } (Flt.fin 1) 250).map Prod.fst
      = some true ∧
    (pk_time_add_data { pk_time_new with last_percentage := 250 } (Flt.fin 1) 249).map Prod.fst
      = some false :=
  ⟨(pk_time_add_data_false_iff pk_time_new (Flt.fin 0) 250).2.2 pk_time_new (by decide!),
   ((pk_time_add_data_false_iff { pk_time_new with last_percentage := 250 } (Flt.fin 1) 250).2.1
      (by decide!)).2.1 rfl,
   (pk_time_add_data_false_iff { pk_time_new with last_percentage := 250 } (Flt.fin 1) 249).1.mpr
      (by decide)⟩

/-- C2: a call of `pk_time_add_data` with a percentage below the last accepted one returns
FALSE and the state it leaves is the state it found: log, last-percentage marker, time
offset and the four limits. -/
theorem pk_time_add_data_rejected_unchanged (time : PkTime) (timer : Flt) (p : ℕ)
    (h : p < time.last_percentage) :
    pk_time_add_data time timer p = some (false, time) :=
  pk_time_add_data_down time timer p h

/-- C2, at a concrete input: after `add_data(5)`, `add_data(3)` is refused and the log keeps
its one sample, of percentage 5. -/
theorem pk_time_add_data_rejected_unchanged_witness :
    pk_time_add_data pk_time_new (Flt.fin 0) 5 =
      some (true, { pk_time_new with last_percentage := 5, array := mkLog [(0, 5)] }) ∧
    pk_time_add_data { pk_time_new with last_percentage := 5, array := mkLog [(0, 5)] }
        (Flt.fin 2) 3 =
      some (false, { pk_time_new with last_percentage := 5, array := mkLog [(0, 5)] }) :=
  ⟨by decide!,
   pk_time_add_data_rejected_unchanged
     { pk_time_new with last_percentage := 5, array := mkLog [(0, 5)] } (Flt.fin 2) 3
     (by decide)⟩

theorem logInvariant_reset (prior : PkTime) : LogInvariant (pk_time_reset prior).2 := by
  simp [LogInvariant, pk_time_reset, pk_time_free_data]

theorem logInvariant_add_data (time t : PkTime) (timer : Flt) (p : ℕ) (b : Bool)
    (hinv : LogInvariant time) (h : pk_time_add_data time timer p = some (b, t)) :
    LogInvariant t := by
  by_cases hlt : p < time.last_percentage
  · rw [pk_time_add_data_down time timer p hlt] at h
    cases h
    exact hinv
  · have hle : time.last_percentage ≤ p := Nat.le_of_not_lt hlt
    cases hc : pk_time_get_elapsed time timer with
    | none => rw [pk_time_add_data_undefined time timer p hle hc] at h; cases h
    | some elapsed =>
      rw [pk_time_add_data_up time timer p elapsed hle hc] at h
      cases h
      obtain ⟨hs, hb, _⟩ := hinv
      refine ⟨?_, ?_, ?_⟩
      · simp only [List.map_append, List.map_cons, List.map_nil]
        refine List.pairwise_append.mpr ⟨hs, List.pairwise_singleton _ _, ?_⟩
        intro a ha b hb2
        obtain ⟨item, hitem, rfl⟩ := List.mem_map.mp ha
        rw [List.mem_singleton.mp hb2]
        exact le_trans (hb item hitem) hle
      · intro item hitem
        rcases List.mem_append.mp hitem with h1 | h1
        · exact le_trans (hb item h1) hle
        · rw [List.mem_singleton.mp h1]
      · simp

theorem logInvariant_apply (time t : PkTime) (op : PkTimeOp) (hinv : LogInvariant time)
    (h : op.apply time = some t) : LogInvariant t := by
  cases op with
  | add_data timer p =>
    cases hres : pk_time_add_data time timer p with
    | none => simp [PkTimeOp.apply, hres] at h
    | some r =>
      simp only [PkTimeOp.apply, hres, Option.map_some', Option.some.injEq] at h
      subst h
      exact logInvariant_add_data time _ timer p r.1 hinv hres
  | set_average_limits a b =>
    simp only [PkTimeOp.apply, pk_time_set_average_limits, Option.some.injEq] at h
    subst h
    exact hinv
  | set_value_limits a b =>
    simp only [PkTimeOp.apply, pk_time_set_value_limits, Option.some.injEq] at h
    subst h
    exact hinv
  | get_remaining =>
    cases hres : pk_time_get_remaining time with
    | none => simp [PkTimeOp.apply, hres] at h
    | some r =>
      simp only [PkTimeOp.apply, hres, Option.map_some', Option.some.injEq] at h
      subst h
      exact hinv
  | reset =>
    simp only [PkTimeOp.apply, Option.some.injEq] at h
    subst h
    exact logInvariant_reset time

theorem logInvariant_run (ops : List PkTimeOp) (time t : PkTime) (hinv : LogInvariant time)
    (h : pk_time_run time ops = some t) : LogInvariant t := by
  induction ops generalizing time with
  | nil =>
    simp only [pk_time_run, Option.some.injEq] at h
    subst h
    exact hinv
  | cons op ops ih =>
    simp only [pk_time_run, Option.bind_eq_some] at h
    obtain ⟨t2, h1, h2⟩ := h
    exact ih t2 (logInvariant_apply time t2 op hinv h1) h2

/-- C3: in every state reached from `pk_time_reset` by a sequence of `pk_time_add_data`,
`pk_time_set_average_limits`, `pk_time_set_value_limits`, `pk_time_get_remaining` and
`pk_time_reset` calls, the percentages of the log are non-decreasing from oldest to newest,
and the last-percentage marker is the newest sample's percentage, `0` on an empty log. -/
theorem pk_time_log_monotone (prior : PkTime) (ops : List PkTimeOp) (time : PkTime)
    (h : pk_time_run (pk_time_reset prior).2 ops = some time) :
    List.Sorted (· ≤ ·) (time.array.map PkTimeItem.percentage) ∧
    time.last_percentage = ((time.array.getLast?).map PkTimeItem.percentage).getD 0 :=
  have hinv := logInvariant_run ops _ time (logInvariant_reset prior) h
  ⟨hinv.1, hinv.2.2⟩

/-- C3, at a concrete input: a run in which 3 is refused after 5 and the limits are changed
ends with the log 5, 5, 40 and the marker 40. -/
theorem pk_time_log_monotone_witness :
    pk_time_run (pk_time_reset pk_time_new).2
      [PkTimeOp.add_data (Flt.fin 0) 5, PkTimeOp.add_data (Flt.fin 1) 3,
       PkTimeOp.get_remaining, PkTimeOp.set_average_limits 1 2,
       PkTimeOp.add_data (Flt.fin 2) 5, PkTimeOp.set_value_limits 0 100,
       PkTimeOp.add_data (Flt.fin 3) 40, PkTimeOp.get_remaining] =
      some { pk_time_new with
        last_percentage := 40, average_min := 1, average_max := 2, value_min := 0,
        value_max := 100, array := mkLog [(0, 5), (2000, 5), (3000, 40)] } ∧
    List.Sorted (· ≤ ·) ((mkLog [(0, 5), (2000, 5), (3000, 40)]).map PkTimeItem.percentage) ∧
    40 = (((mkLog [(0, 5), (2000, 5), (3000, 40)]).getLast?).map
      PkTimeItem.percentage).getD 0 :=
  ⟨by decide!,
   pk_time_log_monotone pk_time_new
     [PkTimeOp.add_data (Flt.fin 0) 5, PkTimeOp.add_data (Flt.fin 1) 3,
       PkTimeOp.get_remaining, PkTimeOp.set_average_limits 1 2,
       PkTimeOp.add_data (Flt.fin 2) 5, PkTimeOp.set_value_limits 0 100,
       PkTimeOp.add_data (Flt.fin 3) 40, PkTimeOp.get_remaining]
     { pk_time_new with
        last_percentage := 40, average_min := 1, average_max := 2, value_min := 0,
        value_max := 100, array := mkLog [(0, 5), (2000, 5), (3000, 40)] } (by decide!)⟩

/-- C8: whatever the prior state, custom limits included, after `pk_time_reset` the log is
empty, the last-percentage marker and the time offset are 0 and the limits are
`average_min = 4`, `average_max = 10`, `value_min = 5`, `value_max = 3600`. -/
theorem pk_time_reset_defaults (prior : PkTime) (a b c d : ℕ) :
    pk_time_reset prior = (true, ⟨0, 0, 4, 10, 5, 3600, []⟩) ∧
    pk_time_reset
        (pk_time_set_value_limits (pk_time_set_average_limits prior a b).2 c d).2 =
      (true, ⟨0, 0, 4, 10, 5, 3600, []⟩) ∧
    (pk_time_reset prior).2.array = [] ∧
    (pk_time_reset prior).2.last_percentage = 0 ∧
    (pk_time_reset prior).2.time_offset = 0 ∧
    (pk_time_reset prior).2.average_min = 4 ∧
    (pk_time_reset prior).2.average_max = 10 ∧
    (pk_time_reset prior).2.value_min = 5 ∧
    (pk_time_reset prior).2.value_max = 3600 := by
  simp [pk_time_reset, pk_time_free_data, PK_TIME_AVERAGE_DEFAULT_MIN,
    PK_TIME_AVERAGE_DEFAULT_MAX, PK_TIME_VALUE_DEFAULT_MIN, PK_TIME_VALUE_DEFAULT_MAX]

/-! ## The estimate -/

/-- C4: `pk_time_get_remaining` returns 0 whenever the log holds fewer than 2 samples, and
whenever the scan accepts fewer than `average_min` gradients, for every log and limits. -/
theorem pk_time_get_remaining_insufficient (time : PkTime)
    (h : time.array.length < 2 ∨ (pk_time_scan_all time).1 < time.average_min) :
    pk_time_get_remaining time = some 0 := by
  unfold pk_time_get_remaining
  by_cases hl : time.array.length < 2
  · simp [hl]
  · rcases h with h | h
    · exact absurd h hl
    · simp [hl, h]

/-- C4, at concrete inputs: a new estimator, a log of one sample, and a log of four samples
(three gradients, below `average_min = 4`) all give 0. -/
theorem pk_time_get_remaining_insufficient_witness :
    pk_time_get_remaining pk_time_new = some 0 ∧
    pk_time_get_remaining { pk_time_new with array := mkLog [(0, 10)] } = some 0 ∧
    ((pk_time_scan_all { pk_time_new with
        array := mkLog [(0, 10), (2000, 20), (4000, 30), (6000, 40)] }).1 = 3 ∧
     pk_time_get_remaining { pk_time_new with
        array := mkLog [(0, 10), (2000, 20), (4000, 30), (6000, 40)] } = some 0) :=
  ⟨pk_time_get_remaining_insufficient pk_time_new (Or.inl (by decide)),
   pk_time_get_remaining_insufficient { pk_time_new with array := mkLog [(0, 10)] }
     (Or.inl (by decide)),
   by decide!,
   pk_time_get_remaining_insufficient
     { pk_time_new with array := mkLog [(0, 10), (2000, 20), (4000, 30), (6000, 40)] }
     (Or.inr (by decide!))⟩

theorem pk_time_gradients_below_eq_take (array : List PkTimeItem) (i : ℕ)
    (hi : i ≤ array.length - 1) :
    pk_time_gradients_below array i =
      (((array.zip array.tail).take i).map
        fun pair => pk_time_get_gradient pair.2 pair.1).reverse := by
  induction i with
  | zero => simp [pk_time_gradients_below]
  | succ i ih =>
    have hlen : (array.zip array.tail).length = array.length - 1 := by
      rw [List.length_zip, List.length_tail]; omega
    have h0 : i < (array.zip array.tail).length := by omega
    have h1 : i < array.length := by omega
    have h2 : i + 1 < array.length := by omega
    have h3 : i < array.tail.length := by rw [List.length_tail]; omega
    rw [pk_time_gradients_below, ih (by omega), List.take_succ,
      List.getElem?_eq_getElem h0, List.getElem_zip, List.getElem_tail,
      List.getD_eq_getElem _ _ h1, List.getD_eq_getElem _ _ h2]
    simp

theorem pk_time_gradients_below_all (array : List PkTimeItem) :
    pk_time_gradients_below array (array.length - 1) = pk_time_gradients array := by
  rw [pk_time_gradients_below_eq_take array _ le_rfl, pk_time_gradients,
    List.take_of_length_le]
  rw [List.length_zip, List.length_tail]; omega

/-- The loop, entered with at most `average_max` gradients accepted, accepts the gradients
it meets that are not ignored until `average_max + 1` are accepted in all, and sums
them in the order it meets them. -/
theorem pk_time_scan_eq (array : List PkTimeItem) (average_max i averaged : ℕ) (grad_ave : Flt)
    (ha : averaged ≤ average_max) :
    pk_time_scan array average_max i averaged grad_ave =
      (averaged + (((pk_time_gradients_below array i).filter
          fun grad => !gradient_ignored grad).take (average_max + 1 - averaged)).length,
       (((pk_time_gradients_below array i).filter
          fun grad => !gradient_ignored grad).take (average_max + 1 - averaged)).foldl
          (Flt.add binary32) grad_ave) := by
  induction i generalizing averaged grad_ave with
  | zero => simp [pk_time_scan, pk_time_gradients_below]
  | succ i ih =>
    rw [pk_time_scan, pk_time_gradients_below]
    by_cases hg : gradient_ignored
        (pk_time_get_gradient (array.getD (i + 1) default) (array.getD i default)) = true
    · simp only [hg, if_true, List.filter_cons, Bool.not_true, Bool.false_eq_true, if_false]
      exact ih averaged grad_ave ha
    · have hg2 : gradient_ignored
          (pk_time_get_gradient (array.getD (i + 1) default) (array.getD i default)) = false := by
        simpa using hg
      obtain ⟨d, hd⟩ : ∃ d, average_max + 1 - averaged = d + 1 :=
        ⟨average_max - averaged, by omega⟩
      simp only [hg2, Bool.false_eq_true, if_false, List.filter_cons, Bool.not_false, if_true,
        hd, List.take_succ_cons, List.length_cons, List.foldl_cons]
      by_cases hlt : averaged + 1 > average_max
      · have hd0 : d = 0 := by omega
        simp [hlt, hd0]
      · have hle : averaged + 1 ≤ average_max := by omega
        have hd1 : average_max + 1 - (averaged + 1) = d := by omega
        simp only [hlt, if_false]
        rw [ih (averaged + 1) _ hle, hd1]
        congr 1
        omega

theorem pk_time_scan_all_eq (time : PkTime) :
    pk_time_scan_all time =
      ((pk_time_accepted time).length,
       (pk_time_accepted time).foldl (Flt.add binary32) (Flt.fin 0)) := by
  unfold pk_time_scan_all
  rw [pk_time_scan_eq _ _ _ _ _ (Nat.zero_le _), pk_time_gradients_below_all]
  simp [pk_time_accepted]

theorem pk_time_estimated_eq (time : PkTime) :
    pk_time_estimated time = pk_time_raw_estimate time := by
  unfold pk_time_estimated pk_time_raw_estimate
  simp only [pk_time_scan_all_eq]
  rw [List.getLast?_eq_getElem?, List.getD_eq_getElem?_getD]

theorem div_rep (F : Fmt) (hprec : 0 < F.prec) (a b : Flt) (e : ℚ)
    (h : Flt.div F a b = Flt.fin e) : Flt.Rep F e := by
  have hpow : (0 : ℤ) < 2 ^ F.prec := by positivity
  cases a with
  | fin x =>
    cases b with
    | fin y =>
      simp only [Flt.div] at h
      split at h
      · split at h <;> cases h
      · exact round_rep F hprec _ e h
    | inf =>
      simp only [Flt.div, Flt.fin.injEq] at h
      exact ⟨0, F.emin, le_rfl, le_rfl, hpow, by rw [← h]; simp⟩
    | nan => simp [Flt.div] at h
  | inf => cases b <;> simp [Flt.div] at h
  | nan => cases b <;> simp [Flt.div] at h

theorem rep_natCast (n : ℕ) (h : n ≤ 16777216) : Flt.Rep binary32 (n : ℚ) := by
  rcases Nat.lt_or_ge n 16777216 with h1 | h1
  · refine ⟨n, 0, by decide, by positivity, ?_, by simp⟩
    have : ((n : ℕ) : ℤ) < 16777216 := by exact_mod_cast h1
    simpa [binary32] using this
  · have hn : n = 16777216 := le_antisymm h h1
    refine ⟨8388608, 1, by decide, by norm_num, by norm_num [binary32], ?_⟩
    rw [hn]; norm_num

/-- The conversion of an unsigned integer up to `2 ^ 24` to `gfloat` is exact. -/
theorem ofNat_exact (n : ℕ) (h : n ≤ 16777216) :
    Flt.ofNat binary32 n = Flt.fin (n : ℚ) := by
  refine round_of_rep binary32 (by decide) _ (rep_natCast n h) ?_
  have h1 : (n : ℚ) ≤ 16777216 := by exact_mod_cast h
  have h2 : (16777216 : ℚ) < (2 : ℚ) ^ binary32.emax := by norm_num [binary32]
  exact lt_of_le_of_lt h1 h2

theorem pk_time_get_remaining_eq (time : PkTime) (hlen : 2 ≤ time.array.length)
    (hmin : time.average_min ≤ (pk_time_accepted time).length) :
    pk_time_get_remaining time =
      Flt.toGuint (pk_time_range_check time (pk_time_raw_estimate time)) := by
  unfold pk_time_get_remaining
  rw [if_neg (by omega), pk_time_scan_all_eq, if_neg (by simpa using hmin),
    pk_time_estimated_eq]

theorem toGuint_zero : Flt.toGuint (Flt.fin 0) = some 0 := by
  simp [Flt.toGuint]

/-- Above 100 percent the `guint` difference `100 - percentage` wraps, and a limit above
`2 ^ 24` rounds in its conversion to `gfloat`: after `set_average_limits(1, 1)`,
`set_value_limits(16777217, 4294967295)` and the samples 2197814396 at 0 ms and 2197815396 at
8000 ms, one gradient (0.125) is accepted, `100 - 2197815396` wraps to 2097152000 and the
estimate is 16777216; `value_min = 16777217` converts to the `gfloat` 16777216, the test
`estimated < value_min` is false, and 16777216 is returned. -/
theorem pk_time_get_remaining_wrapped :
    pk_time_run pk_time_new
      [PkTimeOp.set_average_limits 1 1, PkTimeOp.set_value_limits 16777217 4294967295,
       PkTimeOp.add_data (Flt.fin 0) 2197814396, PkTimeOp.add_data (Flt.fin 8) 2197815396] =
      some log_wrapped ∧
    (pk_time_accepted log_wrapped).length = 1 ∧
    pk_time_raw_estimate log_wrapped = Flt.fin 16777216 ∧
    Flt.ofNat binary32 16777217 = Flt.fin 16777216 ∧
    pk_time_get_remaining log_wrapped = some 16777216 := by
  decide!

theorem pk_time_accepted_length_le (time : PkTime) :
    (pk_time_accepted time).length ≤ time.average_max + 1 := by
  unfold pk_time_accepted
  rw [List.length_take]
  exact min_le_left _ _

/-- C9 fails on the code: the scan never accepts more than `average_max + 1` gradients, and
it does accept `average_max + 1` of them: after twelve calls of `add_data` one second and
five percent apart under the default limits (`average_max = 10`), eleven gradients are
summed and divided by 11. -/
theorem pk_time_scan_exceeds_average_max :
    (∀ time : PkTime, (pk_time_scan_all time).1 ≤ time.average_max + 1) ∧
    pk_time_run pk_time_new calls_twelve = some log_twelve ∧
    log_twelve.average_max = 10 ∧
    (pk_time_scan_all log_twelve).1 = 11 ∧
    pk_time_scan_all log_twelve = (11, Flt.fin (3690987 / 67108864)) ∧
    pk_time_get_remaining log_twelve = some 9 :=
  ⟨fun time => by rw [pk_time_scan_all_eq]; exact pk_time_accepted_length_le time,
   by decide!, by decide!, by decide!, by decide!, by decide!⟩

/-- C10 fails on the code: a pair of samples with the same elapsed time and the same
percentage has the gradient `0 / 0`, a NaN, which neither comparison of the test ignores; it
is counted and added to the sum. After five calls `add_data(10)` within one millisecond
under the default limits, and after two of them with `average_min = 1`, the estimate is NaN
and its conversion to `guint` is undefined. A pair with the same elapsed time and different
percentages has the gradient `+inf` and is ignored, but with `average_min = 0` the mean is
`0 / 0` all the same. The log of the first test gives 10; with its newest sample recorded
twice, the NaN is the first of five accepted gradients and no estimate is left. -/
theorem pk_time_same_instant_accepted :
    (∀ percentage time : ℕ,
      pk_time_get_gradient ⟨percentage, time⟩ ⟨percentage, time⟩ = Flt.nan) ∧
    gradient_ignored Flt.nan = false ∧
    pk_time_run pk_time_new calls_same_instant = some log_same_instant ∧
    pk_time_scan_all log_same_instant = (4, Flt.nan) ∧
    pk_time_raw_estimate log_same_instant = Flt.nan ∧
    pk_time_get_remaining log_same_instant = none ∧
    pk_time_run pk_time_new
      [PkTimeOp.set_average_limits 1 10, PkTimeOp.add_data (Flt.fin 0) 10,
       PkTimeOp.add_data (Flt.fin (1 / 8192)) 10] = some log_same_instant_pair ∧
    pk_time_scan_all log_same_instant_pair = (1, Flt.nan) ∧
    pk_time_get_remaining log_same_instant_pair = none ∧
    pk_time_get_gradient ⟨20, 0⟩ ⟨10, 0⟩ = Flt.inf ∧
    gradient_ignored Flt.inf = true ∧
    pk_time_run pk_time_new
      [PkTimeOp.set_average_limits 0 10, PkTimeOp.add_data (Flt.fin 0) 10,
       PkTimeOp.add_data (Flt.fin (1 / 8192)) 20] = some log_same_instant_zero_min ∧
    pk_time_scan_all log_same_instant_zero_min = (0, Flt.fin 0) ∧
    pk_time_raw_estimate log_same_instant_zero_min = Flt.nan ∧
    pk_time_get_remaining log_same_instant_zero_min = none ∧
    pk_time_get_remaining log_test_short = some 10 ∧
    pk_time_scan_all log_test_short_repeated = (5, Flt.nan) ∧
    pk_time_get_remaining log_test_short_repeated = none := by
  refine ⟨?_, by decide!, by decide!, by decide!, by decide!, by decide!, by decide!,
    by decide!, by decide!, by decide!, by decide!, by decide!, by decide!, by decide!,
    by decide!, by decide!, by decide!, by decide!⟩
  intro percentage time
  simp [pk_time_get_gradient, guint_sub, Flt.ofNat, Flt.round, Flt.div]

theorem rne_abs_sub_le (x : ℚ) : |(rne x : ℚ) - x| ≤ 1 / 2 := by
  have h1 : (⌊x⌋ : ℚ) ≤ x := Int.floor_le x
  have h2 : x < (⌊x⌋ : ℚ) + 1 := Int.lt_floor_add_one x
  rcases rne_cases x with h | ⟨h, h3⟩
  · have h4 : x - (⌊x⌋ : ℚ) ≤ 1 / 2 := by
      unfold rne at h
      by_contra hc
      have hc2 : (1 / 2 : ℚ) < x - ⌊x⌋ := not_le.mp hc
      simp only [not_lt.mpr hc2.le, hc2, if_true, if_false] at h
      omega
    rw [h, abs_le]
    constructor <;> linarith
  · rw [h, abs_le]
    push_cast
    constructor <;> linarith

/-- In the normal range and below the overflow threshold, rounding to `gfloat` is finite and
changes the value by at most one part in `2 ^ 24`. -/
theorem round32_rel (q : ℚ) (hlo : (2 : ℚ) ^ (-126 : ℤ) ≤ q) (hhi : q ≤ (2 : ℚ) ^ (127 : ℤ)) :
    ∃ v, Flt.round binary32 q = Flt.fin v ∧
      q * (1 - 1 / 16777216) ≤ v ∧ v ≤ q * (1 + 1 / 16777216) := by
  have hq0 : 0 < q := lt_of_lt_of_le (two_zpow_pos _) hlo
  obtain ⟨b1, b2⟩ := ilog2_bounds q hq0
  have hlog : (-126 : ℤ) ≤ ilog2 q := by
    have h3 : (2 : ℚ) ^ (-126 : ℤ) < (2 : ℚ) ^ (ilog2 q + 1) := lt_of_le_of_lt hlo b2
    have h4 := (zpow_lt_zpow_iff_right₀ (by norm_num : (1 : ℚ) < 2)).mp h3
    omega
  have hk : ulpExp binary32 q = ilog2 q - 23 := by
    unfold ulpExp
    simp only [binary32]
    rw [max_eq_left (by omega)]
    norm_num
  have hp := two_zpow_pos (ulpExp binary32 q)
  have hulp : (2 : ℚ) ^ ulpExp binary32 q ≤ q / 8388608 := by
    rw [hk, zpow_sub₀ (by norm_num : (2 : ℚ) ≠ 0)]
    have : (2 : ℚ) ^ (23 : ℤ) = 8388608 := by norm_num
    rw [this]
    exact div_le_div_of_nonneg_right b1 (by norm_num)
  have hr := rne_abs_sub_le (q / (2 : ℚ) ^ ulpExp binary32 q)
  rw [abs_le] at hr
  have hv1 : q - (2 : ℚ) ^ ulpExp binary32 q / 2 ≤
      (rne (q / (2 : ℚ) ^ ulpExp binary32 q) : ℚ) * (2 : ℚ) ^ ulpExp binary32 q := by
    have := mul_le_mul_of_nonneg_right hr.1 hp.le
    rw [sub_mul, div_mul_cancel₀ _ hp.ne'] at this
    linarith
  have hv2 : (rne (q / (2 : ℚ) ^ ulpExp binary32 q) : ℚ) * (2 : ℚ) ^ ulpExp binary32 q ≤
      q + (2 : ℚ) ^ ulpExp binary32 q / 2 := by
    have := mul_le_mul_of_nonneg_right hr.2 hp.le
    rw [sub_mul, div_mul_cancel₀ _ hp.ne'] at this
    linarith
  refine ⟨(rne (q / (2 : ℚ) ^ ulpExp binary32 q) : ℚ) * (2 : ℚ) ^ ulpExp binary32 q, ?_,
    by linarith, by linarith⟩
  rw [round_pos_eq binary32 q hq0, if_neg]
  rw [not_le]
  have h127 : (2 : ℚ) ^ (127 : ℤ) * (1 + 1 / 16777216) < (2 : ℚ) ^ binary32.emax := by
    norm_num [binary32]
  have : q * (1 + 1 / 16777216) ≤ (2 : ℚ) ^ (127 : ℤ) * (1 + 1 / 16777216) :=
    mul_le_mul_of_nonneg_right hhi (by norm_num)
  linarith

theorem guint_sub_add (a d : ℕ) (hd : d < 4294967296) : guint_sub (a + d) a = d := by
  unfold guint_sub
  have h : ((a + d : ℕ) : ℤ) - (a : ℤ) = (d : ℤ) := by push_cast; ring
  rw [h, Int.emod_eq_of_lt (by positivity) (by exact_mod_cast hd)]
  simp

/-- The regular log: `n` samples from `(t0, p0)` in steps of `dx` ms and `dy` percent. -/
theorem mkLog_regular_getD (n t0 p0 dx dy i : ℕ) (hi : i < n) :
    (mkLog ((List.range n).map fun i => (t0 + i * dx, p0 + i * dy))).getD i default =
      { percentage := p0 + i * dy, time := t0 + i * dx } := by
  rw [List.getD_eq_getElem _ _ (by simp [mkLog, hi])]
  simp [mkLog]

theorem pk_time_get_gradient_regular (t0 p0 dx dy i : ℕ) (hdx : dx < 4294967296)
    (hdy : dy < 4294967296) :
    pk_time_get_gradient { percentage := p0 + (i + 1) * dy, time := t0 + (i + 1) * dx }
        { percentage := p0 + i * dy, time := t0 + i * dx } =
      Flt.div binary32 (Flt.ofNat binary32 dy) (Flt.ofNat binary32 dx) := by
  unfold pk_time_get_gradient
  have h1 : p0 + (i + 1) * dy = (p0 + i * dy) + dy := by ring
  have h2 : t0 + (i + 1) * dx = (t0 + i * dx) + dx := by ring
  simp only [h1, h2, guint_sub_add _ _ hdx, guint_sub_add _ _ hdy]

theorem pk_time_gradients_below_regular (n t0 p0 dx dy : ℕ) (hdx : dx < 4294967296)
    (hdy : dy < 4294967296) (i : ℕ) (hi : i + 1 ≤ n) :
    pk_time_gradients_below
        (mkLog ((List.range n).map fun i => (t0 + i * dx, p0 + i * dy))) i =
      List.replicate i (Flt.div binary32 (Flt.ofNat binary32 dy) (Flt.ofNat binary32 dx)) := by
  induction i with
  | zero => simp [pk_time_gradients_below]
  | succ i ih =>
    rw [pk_time_gradients_below, mkLog_regular_getD n t0 p0 dx dy (i + 1) (by omega),
      mkLog_regular_getD n t0 p0 dx dy i (by omega),
      pk_time_get_gradient_regular t0 p0 dx dy i hdx hdy, ih (by omega), List.replicate_succ]

theorem pk_time_accepted_regular (n t0 p0 dx dy : ℕ) (hdx : dx < 4294967296)
    (hdy : dy < 4294967296) (hn : 1 ≤ n)
    (hg : gradient_ignored
      (Flt.div binary32 (Flt.ofNat binary32 dy) (Flt.ofNat binary32 dx)) = false) :
    pk_time_accepted (withLog ((List.range n).map fun i => (t0 + i * dx, p0 + i * dy))) =
      List.replicate (min 11 (n - 1))
        (Flt.div binary32 (Flt.ofNat binary32 dy) (Flt.ofNat binary32 dx)) := by
  have hlen : (mkLog ((List.range n).map fun i => (t0 + i * dx, p0 + i * dy))).length = n := by
    simp [mkLog]
  unfold pk_time_accepted
  have harr : (withLog ((List.range n).map fun i => (t0 + i * dx, p0 + i * dy))).array =
      mkLog ((List.range n).map fun i => (t0 + i * dx, p0 + i * dy)) := rfl
  have hmax : (withLog ((List.range n).map fun i => (t0 + i * dx, p0 + i * dy))).average_max =
      10 := rfl
  rw [harr, hmax, ← pk_time_gradients_below_all, hlen,
    pk_time_gradients_below_regular n t0 p0 dx dy hdx hdy (n - 1) (by omega)]
  have hf : (List.replicate (n - 1)
      (Flt.div binary32 (Flt.ofNat binary32 dy) (Flt.ofNat binary32 dx))).filter
        (fun grad => !gradient_ignored grad) =
      List.replicate (n - 1)
        (Flt.div binary32 (Flt.ofNat binary32 dy) (Flt.ofNat binary32 dx)) := by
    rw [List.filter_eq_self]
    intro a ha
    rw [List.eq_of_mem_replicate ha, hg]
    rfl
  rw [hf, List.take_replicate]

theorem pow_hi_le (j : ℕ) (hj : j ≤ 13) :
    (1 + 1 / 16777216 : ℚ) ^ j ≤ 1 + 8 / 10000000 := by
  have h1 : (1 + 1 / 16777216 : ℚ) ^ j ≤ (1 + 1 / 16777216 : ℚ) ^ 13 :=
    pow_le_pow_right₀ (by norm_num) hj
  have h2 : (1 + 1 / 16777216 : ℚ) ^ 13 ≤ 1 + 8 / 10000000 := by norm_num
  exact le_trans h1 h2

theorem pow_lo_ge (j : ℕ) (hj : j ≤ 13) :
    (1 - 8 / 10000000 : ℚ) ≤ (1 - 1 / 16777216 : ℚ) ^ j := by
  have h1 : (1 - 1 / 16777216 : ℚ) ^ 13 ≤ (1 - 1 / 16777216 : ℚ) ^ j :=
    pow_le_pow_of_le_one (by norm_num) (by norm_num) hj
  have h2 : (1 - 8 / 10000000 : ℚ) ≤ (1 - 1 / 16777216 : ℚ) ^ 13 := by norm_num
  exact le_trans h2 h1

theorem two_zpow_neg126_le : (2 : ℚ) ^ (-126 : ℤ) ≤ 1 / 1000000 := by
  norm_num

theorem le_two_zpow_127 : (100000000 : ℚ) ≤ (2 : ℚ) ^ (127 : ℤ) := by
  norm_num

/-- The `gfloat` sum of `j ≤ 11` copies of a gradient `g`, accumulated from `0.0`, is finite
and within `j` roundings of `j * g`. -/
theorem sum_replicate_bounds (g : ℚ) (hg1 : 1 / 1000000 ≤ g) (hg2 : g ≤ 128) (j : ℕ)
    (hj : j ≤ 11) :
    ∃ s, (List.replicate j (Flt.fin g)).foldl (Flt.add binary32) (Flt.fin 0) = Flt.fin s ∧
      j * g * (1 - 1 / 16777216) ^ j ≤ s ∧ s ≤ j * g * (1 + 1 / 16777216) ^ j := by
  induction j with
  | zero => exact ⟨0, by simp, by simp, by simp⟩
  | succ j ih =>
    obtain ⟨s, hs, hlo, hhi⟩ := ih (by omega)
    have hg0 : 0 ≤ g := le_trans (by norm_num) hg1
    have hL0 : (0 : ℚ) ≤ (1 - 1 / 16777216) ^ j := pow_nonneg (by norm_num) j
    have hL1 : (1 - 1 / 16777216 : ℚ) ^ j ≤ 1 := pow_le_one₀ (by norm_num) (by norm_num)
    have hH1 : (1 : ℚ) ≤ (1 + 1 / 16777216 : ℚ) ^ j := one_le_pow₀ (by norm_num)
    have hH2 := pow_hi_le j (by omega)
    have hjq : (j : ℚ) ≤ 11 := by exact_mod_cast (by omega : j ≤ 11)
    have hj0 : (0 : ℚ) ≤ j := by positivity
    have hs0 : 0 ≤ s := le_trans (mul_nonneg (mul_nonneg hj0 hg0) hL0) hlo
    have hsum_lo : ((j : ℚ) + 1) * g * (1 - 1 / 16777216) ^ j ≤ s + g := by
      have : g * (1 - 1 / 16777216) ^ j ≤ g := by
        calc g * (1 - 1 / 16777216) ^ j ≤ g * 1 := mul_le_mul_of_nonneg_left hL1 hg0
          _ = g := mul_one g
      linarith
    have hsum_hi : s + g ≤ ((j : ℚ) + 1) * g * (1 + 1 / 16777216) ^ j := by
      have : g ≤ g * (1 + 1 / 16777216) ^ j := by
        calc g = g * 1 := (mul_one g).symm
          _ ≤ g * (1 + 1 / 16777216) ^ j := mul_le_mul_of_nonneg_left hH1 hg0
      linarith
    have hjg : (j : ℚ) * g ≤ 11 * 128 := mul_le_mul hjq hg2 hg0 (by norm_num)
    have hsmall : s + g ≤ 100000000 := by
      have h1 : ((j : ℚ) + 1) * g * (1 + 1 / 16777216) ^ j ≤
          ((j : ℚ) + 1) * g * (1 + 8 / 10000000) :=
        mul_le_mul_of_nonneg_left hH2 (mul_nonneg (by positivity) hg0)
      nlinarith
    obtain ⟨v, hv, hvlo, hvhi⟩ := round32_rel (s + g)
      (le_trans two_zpow_neg126_le (by linarith)) (le_trans hsmall le_two_zpow_127)
    refine ⟨v, ?_, ?_, ?_⟩
    · rw [List.replicate_succ', List.foldl_append, hs]
      simp only [List.foldl_cons, List.foldl_nil, Flt.add]
      exact hv
    · have h1 : ((j : ℚ) + 1) * g * (1 - 1 / 16777216) ^ j * (1 - 1 / 16777216) ≤
          (s + g) * (1 - 1 / 16777216) :=
        mul_le_mul_of_nonneg_right hsum_lo (by norm_num)
      push_cast
      rw [pow_succ]
      linarith
    · have h1 : (s + g) * (1 + 1 / 16777216) ≤
          ((j : ℚ) + 1) * g * (1 + 1 / 16777216) ^ j * (1 + 1 / 16777216) :=
        mul_le_mul_of_nonneg_right hsum_hi (by norm_num)
      push_cast
      rw [pow_succ]
      linarith

theorem guint_sub_of_le (a b : ℕ) (h : b ≤ a) (ha : a < 4294967296) :
    guint_sub a b = a - b := by
  unfold guint_sub
  have h1 : ((a : ℤ) - (b : ℤ)) = ((a - b : ℕ) : ℤ) := by omega
  rw [h1, Int.emod_eq_of_lt (by positivity) (by omega)]
  simp

theorem gradient_min_eq :
    gradient_min = Flt.fin (5902958103587057 / 590295810358705651712) := by
  decide!

/-- The gradient of a regular log with `0.0000101 ≤ dy / dx ≤ 25`: finite, within one
rounding of `dy / dx`, and not ignored. -/
theorem regular_gradient (dx dy : ℕ) (hdx : 0 < dx) (hdy25 : dy ≤ 25)
    (hgrad : (101 : ℚ) / 10000000 ≤ (dy : ℚ) / dx) :
    ∃ g : ℚ, Flt.div binary32 (Flt.ofNat binary32 dy) (Flt.ofNat binary32 dx) = Flt.fin g ∧
      (dy : ℚ) / dx * (1 - 1 / 16777216) ≤ g ∧ g ≤ (dy : ℚ) / dx * (1 + 1 / 16777216) ∧
      gradient_ignored (Flt.fin g) = false ∧ dx ≤ 16777216 := by
  have hdxq : (0 : ℚ) < dx := by exact_mod_cast hdx
  have hdx1 : (1 : ℚ) ≤ dx := by exact_mod_cast hdx
  have hdyq25 : (dy : ℚ) ≤ 25 := by exact_mod_cast hdy25
  have hdxle : (dx : ℚ) ≤ 2500000 := by
    rw [le_div_iff₀ hdxq] at hgrad
    linarith
  have hdxN : dx ≤ 16777216 := by
    have : (dx : ℚ) ≤ 16777216 := by linarith
    exact_mod_cast this
  have hr25 : (dy : ℚ) / dx ≤ 25 := by
    rw [div_le_iff₀ hdxq]
    nlinarith
  obtain ⟨g, hg, hglo, hghi⟩ := round32_rel ((dy : ℚ) / dx)
    (le_trans two_zpow_neg126_le (by linarith)) (le_trans (by linarith) le_two_zpow_127)
  refine ⟨g, ?_, hglo, hghi, ?_, hdxN⟩
  · rw [ofNat_exact dy (by omega), ofNat_exact dx hdxN]
    simp only [Flt.div]
    rw [if_neg (by exact_mod_cast hdx.ne')]
    exact hg
  · have h1 : (101 : ℚ) / 10000000 * (1 - 1 / 16777216) ≤
        (dy : ℚ) / dx * (1 - 1 / 16777216) :=
      mul_le_mul_of_nonneg_right hgrad (by norm_num)
    have h2 : (5902958103587057 / 590295810358705651712 : ℚ) ≤
        (101 : ℚ) / 10000000 * (1 - 1 / 16777216) := by norm_num
    have h3 : (dy : ℚ) / dx * (1 + 1 / 16777216) ≤ 25 * (1 + 1 / 16777216) :=
      mul_le_mul_of_nonneg_right hr25 (by norm_num)
    have hlo : ¬ g < 5902958103587057 / 590295810358705651712 := not_lt.mpr (by linarith)
    have hhi : ¬ (100 : ℚ) < g := not_lt.mpr (by linarith)
    unfold gradient_ignored
    rw [gradient_min_eq, ofNat_exact 100 (by norm_num)]
    simp [Flt.lt, hlo, hhi]

/-- The mean of `4 ≤ k ≤ 11` copies of a gradient within one rounding of `r`: finite and
within eight parts in ten million of `r`. -/
theorem regular_mean (r g : ℚ) (k : ℕ) (hk4 : 4 ≤ k) (hk : k ≤ 11)
    (hr1 : (101 : ℚ) / 10000000 ≤ r) (hr2 : r ≤ 25)
    (hglo : r * (1 - 1 / 16777216) ≤ g) (hghi : g ≤ r * (1 + 1 / 16777216)) :
    ∃ mean : ℚ,
      Flt.div binary32 ((List.replicate k (Flt.fin g)).foldl (Flt.add binary32) (Flt.fin 0))
        (Flt.ofNat binary32 k) = Flt.fin mean ∧
      r * (1 - 8 / 10000000) ≤ mean ∧ mean ≤ r * (1 + 8 / 10000000) := by
  have hr0 : 0 < r := lt_of_lt_of_le (by norm_num) hr1
  have hg1 : (1 : ℚ) / 1000000 ≤ g := by nlinarith
  have hg2 : g ≤ 128 := by nlinarith
  have hg0 : 0 ≤ g := le_trans (by norm_num) hg1
  obtain ⟨s, hs, hslo, hshi⟩ := sum_replicate_bounds g hg1 hg2 k hk
  have hkq : (0 : ℚ) < k := by exact_mod_cast (by omega : 0 < k)
  have hL := pow_lo_ge k (by omega)
  have hH := pow_hi_le k (by omega)
  have hL2 := pow_lo_ge (k + 2) (by omega)
  have hH2 := pow_hi_le (k + 2) (by omega)
  have hLk0 : (0 : ℚ) ≤ (1 - 1 / 16777216) ^ k := pow_nonneg (by norm_num) k
  have hHk0 : (0 : ℚ) ≤ (1 + 1 / 16777216) ^ k := pow_nonneg (by norm_num) k
  have hq_lo : g * (1 - 1 / 16777216) ^ k ≤ s / k := by
    rw [le_div_iff₀ hkq]; linarith
  have hq_hi : s / k ≤ g * (1 + 1 / 16777216) ^ k := by
    rw [div_le_iff₀ hkq]; linarith
  have hq_small : (1 : ℚ) / 1000000 ≤ s / k := by
    have : g * (1 - 8 / 10000000) ≤ g * (1 - 1 / 16777216) ^ k :=
      mul_le_mul_of_nonneg_left hL hg0
    nlinarith
  have hq_big : s / k ≤ 100000000 := by
    have : g * (1 + 1 / 16777216) ^ k ≤ g * (1 + 8 / 10000000) :=
      mul_le_mul_of_nonneg_left hH hg0
    nlinarith
  obtain ⟨mean, hmean, hmlo, hmhi⟩ := round32_rel (s / k)
    (le_trans two_zpow_neg126_le hq_small) (le_trans hq_big le_two_zpow_127)
  refine ⟨mean, ?_, ?_, ?_⟩
  · rw [hs, ofNat_exact k (by omega)]
    simp only [Flt.div]
    rw [if_neg hkq.ne']
    exact hmean
  · have h1 : r * (1 - 1 / 16777216) * (1 - 1 / 16777216) ^ k ≤
        g * (1 - 1 / 16777216) ^ k := mul_le_mul_of_nonneg_right hglo hLk0
    have h2 : r * (1 - 1 / 16777216) * (1 - 1 / 16777216) ^ k * (1 - 1 / 16777216) ≤
        s / k * (1 - 1 / 16777216) :=
      mul_le_mul_of_nonneg_right (le_trans h1 hq_lo) (by norm_num)
    have h3 : r * (1 - 1 / 16777216) * (1 - 1 / 16777216) ^ k * (1 - 1 / 16777216) =
        r * (1 - 1 / 16777216) ^ (k + 2) := by ring
    have h4 : r * (1 - 8 / 10000000) ≤ r * (1 - 1 / 16777216) ^ (k + 2) :=
      mul_le_mul_of_nonneg_left hL2 hr0.le
    linarith
  · have h1 : g * (1 + 1 / 16777216) ^ k ≤
        r * (1 + 1 / 16777216) * (1 + 1 / 16777216) ^ k :=
      mul_le_mul_of_nonneg_right hghi hHk0
    have h2 : s / k * (1 + 1 / 16777216) ≤
        r * (1 + 1 / 16777216) * (1 + 1 / 16777216) ^ k * (1 + 1 / 16777216) :=
      mul_le_mul_of_nonneg_right (le_trans hq_hi h1) (by norm_num)
    have h3 : r * (1 + 1 / 16777216) * (1 + 1 / 16777216) ^ k * (1 + 1 / 16777216) =
        r * (1 + 1 / 16777216) ^ (k + 2) := by ring
    have h4 : r * (1 + 1 / 16777216) ^ (k + 2) ≤ r * (1 + 8 / 10000000) :=
      mul_le_mul_of_nonneg_left hH2 hr0.le
    linarith

/-- The estimate computed from a mean gradient within eight parts in ten million of `r`:
finite and within one part in a million of `pl / (1000 * r)`. -/
theorem regular_estimate (r mean : ℚ) (pl : ℕ) (hpl : pl ≤ 100)
    (hr1 : (101 : ℚ) / 10000000 ≤ r)
    (hmlo : r * (1 - 8 / 10000000) ≤ mean) (hmhi : mean ≤ r * (1 + 8 / 10000000))
    (hElo : (501 : ℚ) / 100 ≤ pl / (1000 * r)) (hEhi : (pl : ℚ) / (1000 * r) ≤ 359999 / 100) :
    ∃ est : ℚ,
      Flt.div binary32 (Flt.div binary32 (Flt.ofNat binary32 pl) (Flt.fin mean))
        (Flt.ofNat binary32 1000) = Flt.fin est ∧
      (pl : ℚ) / (1000 * r) * (1 - 1 / 1000000) ≤ est ∧
      est ≤ (pl : ℚ) / (1000 * r) * (1 + 1 / 1000000) := by
  have hr0 : 0 < r := lt_of_lt_of_le (by norm_num) hr1
  have hm0 : 0 < mean := lt_of_lt_of_le (mul_pos hr0 (by norm_num)) hmlo
  have h1000r : (0 : ℚ) < 1000 * r := by positivity
  set E : ℚ := (pl : ℚ) / (1000 * r) with hE
  have hE0 : 0 < E := lt_of_lt_of_le (by norm_num) hElo
  have hpl_eq : (pl : ℚ) = E * (1000 * r) := by
    rw [hE, div_mul_cancel₀ _ h1000r.ne']
  have hEr0 : 0 ≤ E * r := (mul_pos hE0 hr0).le
  -- the quotient `pl / mean`
  have hq3lo : 1000 * E * (1 - 8 / 10000000) ≤ (pl : ℚ) / mean := by
    rw [le_div_iff₀ hm0, hpl_eq]
    have h1 : 1000 * E * (1 - 8 / 10000000) * mean ≤
        1000 * E * (1 - 8 / 10000000) * (r * (1 + 8 / 10000000)) :=
      mul_le_mul_of_nonneg_left hmhi (by nlinarith)
    nlinarith
  have hq3hi : (pl : ℚ) / mean ≤ 1000 * E * (1 + 81 / 100000000) := by
    rw [div_le_iff₀ hm0, hpl_eq]
    have h1 : 1000 * E * (1 + 81 / 100000000) * (r * (1 - 8 / 10000000)) ≤
        1000 * E * (1 + 81 / 100000000) * mean :=
      mul_le_mul_of_nonneg_left hmlo (by nlinarith)
    nlinarith
  obtain ⟨x1, hx1, hx1lo, hx1hi⟩ := round32_rel ((pl : ℚ) / mean)
    (le_trans two_zpow_neg126_le (by nlinarith)) (le_trans (by nlinarith) le_two_zpow_127)
  have hq4lo : E * (1 - 8 / 10000000) * (1 - 1 / 16777216) ≤ x1 / 1000 := by
    rw [le_div_iff₀ (by norm_num)]
    nlinarith
  have hq4hi : x1 / 1000 ≤ E * (1 + 81 / 100000000) * (1 + 1 / 16777216) := by
    rw [div_le_iff₀ (by norm_num)]
    nlinarith
  obtain ⟨est, hest, hestlo, hesthi⟩ := round32_rel (x1 / 1000)
    (le_trans two_zpow_neg126_le (by nlinarith)) (le_trans (by nlinarith) le_two_zpow_127)
  refine ⟨est, ?_, ?_, ?_⟩
  · rw [ofNat_exact pl (by omega), ofNat_exact 1000 (by norm_num)]
    simp only [Flt.div]
    rw [if_neg hm0.ne', hx1]
    simp only [Flt.div]
    rw [if_neg (by norm_num)]
    exact_mod_cast hest
  · have h1 : E * (1 - 8 / 10000000) * (1 - 1 / 16777216) * (1 - 1 / 16777216) ≤
        x1 / 1000 * (1 - 1 / 16777216) :=
      mul_le_mul_of_nonneg_right hq4lo (by norm_num)
    have h2 : E * (1 - 1 / 1000000) ≤
        E * ((1 - 8 / 10000000) * (1 - 1 / 16777216) * (1 - 1 / 16777216)) :=
      mul_le_mul_of_nonneg_left (by norm_num) hE0.le
    linarith
  · have h1 : x1 / 1000 * (1 + 1 / 16777216) ≤
        E * (1 + 81 / 100000000) * (1 + 1 / 16777216) * (1 + 1 / 16777216) :=
      mul_le_mul_of_nonneg_right hq4hi (by norm_num)
    have h2 : E * ((1 + 81 / 100000000) * (1 + 1 / 16777216) * (1 + 1 / 16777216)) ≤
        E * (1 + 1 / 1000000) :=
      mul_le_mul_of_nonneg_left (by norm_num) hE0.le
    linarith

theorem regular_log_length (n t0 p0 dx dy : ℕ) :
    (regular_log n t0 p0 dx dy).array.length = n := by
  simp [regular_log, withLog, mkLog]

theorem regular_log_newest (n t0 p0 dx dy : ℕ) (hn : 1 ≤ n) :
    ((regular_log n t0 p0 dx dy).array.getLast?).getD default =
      { percentage := p0 + (n - 1) * dy, time := t0 + (n - 1) * dx } := by
  rw [List.getLast?_eq_getElem?, ← List.getD_eq_getElem?_getD, regular_log_length]
  exact mkLog_regular_getD n t0 p0 dx dy (n - 1) (by omega)

/-- C7, as amended: for a log of `n ≥ 5` samples under the default limits in which every
consecutive pair has the same time step `dx > 0` ms and the same percentage step `dy > 0`,
with `0.0000101 ≤ dy / dx` and the newest percentage `p ≤ 100`, when
`E = (100 - p) * dx / (dy * 1000)` lies in `[5.01, 3599.99]` the single-precision estimate
is within `0.004` of `E` and `pk_time_get_remaining` returns its floor: `⌊E⌋` or, by the
rounding of the `gfloat` operations, a neighbour of it. -/
theorem pk_time_get_remaining_regular (n t0 p0 dx dy : ℕ) (hn : 5 ≤ n) (hdx : 0 < dx)
    (hdy : 0 < dy) (hp : p0 + (n - 1) * dy ≤ 100)
    (hgrad : (101 : ℚ) / 10000000 ≤ (dy : ℚ) / dx)
    (hlo : (501 : ℚ) / 100 ≤
      ((100 - (p0 + (n - 1) * dy) : ℕ) : ℚ) * dx / ((dy : ℚ) * 1000))
    (hhi : ((100 - (p0 + (n - 1) * dy) : ℕ) : ℚ) * dx / ((dy : ℚ) * 1000) ≤ 359999 / 100) :
    ∃ est : ℚ, pk_time_raw_estimate (regular_log n t0 p0 dx dy) = Flt.fin est ∧
      |est - ((100 - (p0 + (n - 1) * dy) : ℕ) : ℚ) * dx / ((dy : ℚ) * 1000)| ≤ 1 / 250 ∧
      pk_time_get_remaining (regular_log n t0 p0 dx dy) = some ⌊est⌋.toNat ∧
      (⌊est⌋.toNat : ℤ) - 1 ≤
        ⌊((100 - (p0 + (n - 1) * dy) : ℕ) : ℚ) * dx / ((dy : ℚ) * 1000)⌋ ∧
      ⌊((100 - (p0 + (n - 1) * dy) : ℕ) : ℚ) * dx / ((dy : ℚ) * 1000)⌋ ≤
        (⌊est⌋.toNat : ℤ) + 1 := by
  have hdy25 : dy ≤ 25 := by
    have h4 : 4 * dy ≤ (n - 1) * dy := Nat.mul_le_mul_right dy (by omega)
    omega
  have hdxq : (0 : ℚ) < dx := by exact_mod_cast hdx
  have hdyq : (0 : ℚ) < dy := by exact_mod_cast hdy
  have hdx1 : (1 : ℚ) ≤ dx := by exact_mod_cast hdx
  have hdyq25 : (dy : ℚ) ≤ 25 := by exact_mod_cast hdy25
  have hr25 : (dy : ℚ) / dx ≤ 25 := by
    rw [div_le_iff₀ hdxq]
    nlinarith
  obtain ⟨g, hg, hglo, hghi, hign, hdxN⟩ := regular_gradient dx dy hdx hdy25 hgrad
  have hacc : pk_time_accepted (regular_log n t0 p0 dx dy) =
      List.replicate (min 11 (n - 1)) (Flt.fin g) := by
    rw [← hg]
    exact pk_time_accepted_regular n t0 p0 dx dy (by omega) (by omega) (by omega)
      (by rw [hg]; exact hign)
  obtain ⟨mean, hmean, hmlo, hmhi⟩ := regular_mean ((dy : ℚ) / dx) g (min 11 (n - 1))
    (by omega) (by omega) hgrad hr25 hglo hghi
  have hEeq : ((100 - (p0 + (n - 1) * dy) : ℕ) : ℚ) * dx / ((dy : ℚ) * 1000) =
      ((100 - (p0 + (n - 1) * dy) : ℕ) : ℚ) / (1000 * ((dy : ℚ) / dx)) := by
    have h1 : (1000 * ((dy : ℚ) / dx)) = (dy : ℚ) * 1000 / dx := by ring
    rw [h1, div_div_eq_mul_div]
  rw [hEeq] at hlo hhi ⊢
  obtain ⟨est, hest, hestlo, hesthi⟩ := regular_estimate ((dy : ℚ) / dx) mean
    (100 - (p0 + (n - 1) * dy)) (by omega) hgrad hmlo hmhi hlo hhi
  have hraw : pk_time_raw_estimate (regular_log n t0 p0 dx dy) = Flt.fin est := by
    unfold pk_time_raw_estimate
    simp only [hacc, List.length_replicate, regular_log_newest n t0 p0 dx dy (by omega),
      guint_sub_of_le 100 _ hp (by norm_num), hmean]
    exact hest
  set E : ℚ := ((100 - (p0 + (n - 1) * dy) : ℕ) : ℚ) / (1000 * ((dy : ℚ) / dx)) with hE
  have hE0 : 0 ≤ E := le_trans (by norm_num) hlo
  have hest5 : (5 : ℚ) ≤ est := by nlinarith
  have hest3600 : est ≤ 3600 := by nlinarith
  have habs : |est - E| ≤ 1 / 250 := by
    rw [abs_le]
    constructor <;> nlinarith
  have hget : pk_time_get_remaining (regular_log n t0 p0 dx dy) = some ⌊est⌋.toNat := by
    rw [pk_time_get_remaining_eq _ (by rw [regular_log_length]; omega)
      (by rw [hacc, List.length_replicate]; exact (by decide : 4 ≤ 4).trans (by omega)), hraw]
    have hv1 : (regular_log n t0 p0 dx dy).value_min = 5 := rfl
    have hv2 : (regular_log n t0 p0 dx dy).value_max = 3600 := rfl
    unfold pk_time_range_check
    rw [hv1, hv2, ofNat_exact 5 (by norm_num), ofNat_exact 3600 (by norm_num)]
    have h1 : ¬ est < 5 := not_lt.mpr hest5
    have h2 : ¬ (3600 : ℚ) < est := not_lt.mpr hest3600
    have hfl : ⌊est⌋.toNat < 4294967296 := by
      have h3 : ⌊est⌋ < 4294967296 := by
        have : (⌊est⌋ : ℚ) ≤ est := Int.floor_le est
        have h4 : (⌊est⌋ : ℚ) < ((4294967296 : ℤ) : ℚ) := by push_cast; linarith
        exact_mod_cast h4
      omega
    simp [Flt.lt, h1, h2, Flt.toGuint, hfl]
  have hfl0 : 0 ≤ ⌊est⌋ := Int.floor_nonneg.mpr (by linarith)
  have hcast : ((⌊est⌋.toNat : ℕ) : ℤ) = ⌊est⌋ := Int.toNat_of_nonneg hfl0
  rw [abs_le] at habs
  refine ⟨est, hraw, abs_le.mpr habs, hget, ?_, ?_⟩
  · rw [hcast]
    have h1 : ((⌊est⌋ - 1 : ℤ) : ℚ) ≤ E := by
      push_cast
      have := Int.floor_le est
      linarith
    exact Int.le_floor.mpr h1
  · rw [hcast]
    have h1 : (⌊E⌋ : ℚ) < ((⌊est⌋ + 1 + 1 : ℤ) : ℚ) := by
      push_cast
      have h2 := Int.floor_le E
      have h3 := Int.lt_floor_add_one est
      linarith
    have h4 : ⌊E⌋ < ⌊est⌋ + 1 + 1 := by exact_mod_cast h1
    omega

/-- C7, at concrete inputs: the logs of the two tests of `pk_time_test` are regular logs
within the hypotheses, with `E = 10` and `E = 1200`; their estimates are within `0.004` of
`E`, and the values returned are 10 and 1200. -/
theorem pk_time_get_remaining_regular_witness :
    regular_log 5 0 10 2000 10 = log_test_short ∧
    regular_log 6 0 0 240000 10 = log_test_long ∧
    (∃ est : ℚ, pk_time_raw_estimate log_test_short = Flt.fin est ∧ |est - 10| ≤ 1 / 250 ∧
      pk_time_get_remaining log_test_short = some ⌊est⌋.toNat) ∧
    (∃ est : ℚ, pk_time_raw_estimate log_test_long = Flt.fin est ∧ |est - 1200| ≤ 1 / 250 ∧
      pk_time_get_remaining log_test_long = some ⌊est⌋.toNat) ∧
    pk_time_get_remaining log_test_short = some 10 ∧
    pk_time_get_remaining log_test_long = some 1200 := by
  refine ⟨by decide!, by decide!, ?_, ?_, by decide!, by decide!⟩
  · obtain ⟨est, h1, h2, h3, _⟩ := pk_time_get_remaining_regular 5 0 10 2000 10
      (by decide) (by decide) (by decide) (by decide) (by norm_num) (by norm_num)
      (by norm_num)
    refine ⟨est, h1, ?_, h3⟩
    norm_num at h2 ⊢
    exact h2
  · obtain ⟨est, h1, h2, h3, _⟩ := pk_time_get_remaining_regular 6 0 0 240000 10
      (by decide) (by decide) (by decide) (by decide) (by norm_num) (by norm_num)
      (by norm_num)
    refine ⟨est, h1, ?_, h3⟩
    norm_num at h2 ⊢
    exact h2

/-- C7 fails as stated. Five samples one second and one percent apart, from 0 % to 4 %,
have `dy / dx = 0.001` and `(100 - 4) * 1000 / (1 * 1000) = 96`, within `[5, 3600]`; the
single-precision estimate is 12582911 / 131072 (95.99999) and 95 is returned. Five samples
100 s and one percent apart, from 60 % to 64 %, have `dy / dx = 0.00001` and
`(100 - 64) * 100000 / (1 * 1000) = 3600`; the `gfloat` gradient is below the `double`
constant `0.00001`, no gradient is accepted and 0 is returned. Seven samples 250 ms and
three percent apart, from 22 % to 40 %, have `(100 - 40) * 250 / (3 * 1000) = 5`; the
estimate is 10485759 / 2097152 (4.9999995), below `value_min = 5`, and 0 is returned. -/
theorem pk_time_get_remaining_regular_counterexample :
    (log_one = withLog [(0, 0), (1000, 1), (2000, 2), (3000, 3), (4000, 4)] ∧
      ((1 : ℚ) / 100000 ≤ 1 / 1000 ∧ (1 : ℚ) / 1000 ≤ 100) ∧
      ⌊((100 - 4 : ℕ) : ℚ) * 1000 / (1 * 1000)⌋ = 96 ∧
      pk_time_raw_estimate log_one = Flt.fin (12582911 / 131072) ∧
      pk_time_get_remaining log_one = some 95) ∧
    (log_boundary =
        withLog [(0, 60), (100000, 61), (200000, 62), (300000, 63), (400000, 64)] ∧
      ((1 : ℚ) / 100000 ≤ 1 / 100000 ∧ (1 : ℚ) / 100000 ≤ 100) ∧
      ⌊((100 - 64 : ℕ) : ℚ) * 100000 / (1 * 1000)⌋ = 3600 ∧
      pk_time_get_gradient ⟨64, 400000⟩ ⟨63, 300000⟩ = Flt.fin (2748779 / 274877906944) ∧
      gradient_ignored (Flt.fin (2748779 / 274877906944)) = true ∧
      pk_time_accepted log_boundary = [] ∧
      pk_time_get_remaining log_boundary = some 0) ∧
    (log_five = withLog [(0, 22), (250, 25), (500, 28), (750, 31), (1000, 34), (1250, 37),
        (1500, 40)] ∧
      ((1 : ℚ) / 100000 ≤ 3 / 250 ∧ (3 : ℚ) / 250 ≤ 100) ∧
      ⌊((100 - 40 : ℕ) : ℚ) * 250 / (3 * 1000)⌋ = 5 ∧
      pk_time_raw_estimate log_five = Flt.fin (10485759 / 2097152) ∧
      pk_time_get_remaining log_five = some 0) := by
  decide!

/-! ## Determinism and the limits -/

theorem pk_time_scan_all_congr (time1 time2 : PkTime) (harray : time1.array = time2.array)
    (hmax : time1.average_max = time2.average_max) :
    pk_time_scan_all time1 = pk_time_scan_all time2 := by
  unfold pk_time_scan_all
  rw [harray, hmax]

theorem pk_time_get_remaining_congr (time1 time2 : PkTime)
    (harray : time1.array = time2.array)
    (hamin : time1.average_min = time2.average_min)
    (hamax : time1.average_max = time2.average_max)
    (hvmin : time1.value_min = time2.value_min)
    (hvmax : time1.value_max = time2.value_max) :
    pk_time_get_remaining time1 = pk_time_get_remaining time2 := by
  unfold pk_time_get_remaining pk_time_estimated pk_time_range_check
  rw [pk_time_scan_all_congr time1 time2 harray hamax, harray, hamin, hvmin, hvmax]

/-- C11: `pk_time_get_remaining` is a function of the sample log and the four limits: two
states with the same log and the same limits give the same result whatever the readings of
the clock, the time offsets and the last-percentage markers are, as long as the readings
fit a `guint` (the clock is read for a debug message only), and the call leaves the state
as it is. -/
theorem pk_time_get_remaining_deterministic (time1 time2 : PkTime) (timer1 timer2 : Flt)
    (harray : time1.array = time2.array)
    (hamin : time1.average_min = time2.average_min)
    (hamax : time1.average_max = time2.average_max)
    (hvmin : time1.value_min = time2.value_min)
    (hvmax : time1.value_max = time2.value_max)
    (hclock1 : (pk_time_get_elapsed time1 timer1).isSome = true)
    (hclock2 : (pk_time_get_elapsed time2 timer2).isSome = true) :
    pk_time_get_remaining_at time1 timer1 = pk_time_get_remaining_at time2 timer2 ∧
    pk_time_get_remaining_at time1 timer1 = pk_time_get_remaining time1 ∧
    (∀ after : PkTime, PkTimeOp.get_remaining.apply time1 = some after → after = time1) := by
  have h1 : ∀ (t : PkTime) (timer : Flt), (pk_time_get_elapsed t timer).isSome = true →
      pk_time_get_remaining_at t timer = pk_time_get_remaining t := by
    intro t timer h
    obtain ⟨e, he⟩ := Option.isSome_iff_exists.mp h
    simp only [pk_time_get_remaining_at, pk_time_get_remaining, he]
  refine ⟨?_, h1 _ _ hclock1, ?_⟩
  · rw [h1 _ _ hclock1, h1 _ _ hclock2]
    exact pk_time_get_remaining_congr time1 time2 harray hamin hamax hvmin hvmax
  · intro after h
    cases hres : pk_time_get_remaining time1 with
    | none => simp [PkTimeOp.apply, hres] at h
    | some r =>
      simp only [PkTimeOp.apply, hres, Option.map_some', Option.some.injEq] at h
      exact h.symm

/-- C11, at a concrete input: the log of the first test gives 10 with the time offset 0,
the marker 0 and the clock at 0 s, and with the time offset 8000, the marker 50 and the
clock at 123 s. -/
theorem pk_time_get_remaining_deterministic_witness :
    pk_time_get_remaining_at log_test_short (Flt.fin 0) = some 10 ∧
    pk_time_get_remaining_at log_test_short_shifted (Flt.fin 123) = some 10 ∧
    PkTimeOp.get_remaining.apply log_test_short = some log_test_short :=
  have h := pk_time_get_remaining_deterministic log_test_short log_test_short_shifted
    (Flt.fin 0) (Flt.fin 123) rfl rfl rfl rfl rfl (by decide!) (by decide!)
  ⟨by decide!, h.1.symm.trans (by decide!), by decide!⟩

/-- C13: for all `min` and `max`, `pk_time_set_average_limits` returns TRUE and changes
`average_min` and `average_max` only, `pk_time_set_value_limits` returns TRUE and changes
`value_min` and `value_max` only, and the next `pk_time_get_remaining` works with the new
limits: on the log of the first test, which gives 10 under the default limits, asking for
5 gradients, or for a value of at least 11 or at most 9, gives 0. -/
theorem pk_time_set_limits_frame (time : PkTime) (min max : ℕ) :
    pk_time_set_average_limits time min max =
      (true, { time with average_min := min, average_max := max }) ∧
    pk_time_set_value_limits time min max =
      (true, { time with value_min := min, value_max := max }) ∧
    ((pk_time_set_average_limits time min max).2.average_min = min ∧
     (pk_time_set_average_limits time min max).2.average_max = max ∧
     (pk_time_set_average_limits time min max).2.value_min = time.value_min ∧
     (pk_time_set_average_limits time min max).2.value_max = time.value_max ∧
     (pk_time_set_average_limits time min max).2.array = time.array ∧
     (pk_time_set_average_limits time min max).2.last_percentage = time.last_percentage ∧
     (pk_time_set_average_limits time min max).2.time_offset = time.time_offset) ∧
    ((pk_time_set_value_limits time min max).2.value_min = min ∧
     (pk_time_set_value_limits time min max).2.value_max = max ∧
     (pk_time_set_value_limits time min max).2.average_min = time.average_min ∧
     (pk_time_set_value_limits time min max).2.average_max = time.average_max ∧
     (pk_time_set_value_limits time min max).2.array = time.array ∧
     (pk_time_set_value_limits time min max).2.last_percentage = time.last_percentage ∧
     (pk_time_set_value_limits time min max).2.time_offset = time.time_offset) ∧
    (pk_time_get_remaining log_test_short = some 10 ∧
     pk_time_get_remaining (pk_time_set_average_limits log_test_short 5 10).2 = some 0 ∧
     pk_time_get_remaining (pk_time_set_average_limits log_test_short 10 0).2 = some 0 ∧
     pk_time_scan_all (pk_time_set_average_limits log_test_short 0 0).2 =
       (1, Flt.fin (5368709 / 1073741824)) ∧
     pk_time_get_remaining (pk_time_set_value_limits log_test_short 11 3600).2 = some 0 ∧
     pk_time_get_remaining (pk_time_set_value_limits log_test_short 5 9).2 = some 0 ∧
     pk_time_get_remaining (pk_time_set_value_limits log_test_short 10 10).2 = some 10 ∧
     pk_time_get_remaining (pk_time_set_value_limits log_test_short 11 9).2 = some 0) :=
  ⟨rfl, rfl, ⟨rfl, rfl, rfl, rfl, rfl, rfl, rfl⟩, ⟨rfl, rfl, rfl, rfl, rfl, rfl, rfl⟩,
   by decide!⟩

/-! ## Monotonicity of rounding and of the clock -/

theorem rne_mono (x y : ℚ) (h : x ≤ y) : rne x ≤ rne y := by
  have hf : ⌊x⌋ ≤ ⌊y⌋ := Int.floor_mono h
  rcases lt_or_eq_of_le hf with hlt | heq
  · have h1 : rne x ≤ ⌊x⌋ + 1 := by rcases rne_cases x with h | ⟨h, _⟩ <;> omega
    have h2 : ⌊y⌋ ≤ rne y := by rcases rne_cases y with h | ⟨h, _⟩ <;> omega
    omega
  · unfold rne
    simp only
    rw [← heq]
    split_ifs <;> first | omega | (exfalso; linarith)

theorem ilog2_mono (q1 q2 : ℚ) (h1 : 0 < q1) (h : q1 ≤ q2) : ilog2 q1 ≤ ilog2 q2 := by
  by_contra hc
  have hlt : ilog2 q2 + 1 ≤ ilog2 q1 := by omega
  have hb1 := (ilog2_bounds q1 h1).1
  have hb2 := (ilog2_bounds q2 (lt_of_lt_of_le h1 h)).2
  have h5 : (2 : ℚ) ^ (ilog2 q2 + 1) ≤ 2 ^ ilog2 q1 :=
    zpow_le_zpow_right₀ (by norm_num) hlt
  linarith

theorem round_fin_lt (F : Fmt) (q v : ℚ) (h : Flt.round F q = Flt.fin v) :
    v < (2 : ℚ) ^ F.emax := by
  by_cases hq : q ≤ 0
  · simp only [Flt.round, hq, if_true, Flt.fin.injEq] at h
    rw [← h]; exact two_zpow_pos _
  · rw [round_pos_eq F q (not_le.mp hq)] at h
    split at h
    · cases h
    · rename_i hlt
      simp only [Flt.fin.injEq] at h
      rw [← h]; exact not_le.mp hlt

theorem rep_nonneg (F : Fmt) (e : ℚ) (he : Flt.Rep F e) : 0 ≤ e := by
  obtain ⟨m, k, _, hm0, _, rfl⟩ := he
  exact mul_nonneg (by exact_mod_cast hm0) (two_zpow_pos k).le

/-- Rounding to nearest is monotone: below an exact value whose rounding is finite, the
rounding is finite and not larger. -/
theorem round_mono (F : Fmt) (hprec : 0 < F.prec) (q1 q2 v2 : ℚ) (h : q1 ≤ q2)
    (h2 : Flt.round F q2 = Flt.fin v2) : ∃ v1, Flt.round F q1 = Flt.fin v1 ∧ v1 ≤ v2 := by
  have hv2 := round_fin_lt F q2 v2 h2
  have hrep := round_rep F hprec q2 v2 h2
  by_cases hq : q1 ≤ v2
  · exact round_le_of_le_rep F q1 v2 hrep hv2 hq
  · have hq1 : 0 < q1 := lt_of_le_of_lt (rep_nonneg F v2 hrep) (not_le.mp hq)
    have hq2 : 0 < q2 := lt_of_lt_of_le hq1 h
    have hl := ilog2_mono q1 q2 hq1 h
    by_cases hk : ulpExp F q1 = ulpExp F q2
    · rw [round_pos_eq F q2 hq2] at h2
      split at h2
      · cases h2
      · rename_i hlt
        simp only [Flt.fin.injEq] at h2
        have hp := two_zpow_pos (ulpExp F q2)
        have hx : q1 / (2 : ℚ) ^ ulpExp F q2 ≤ q2 / (2 : ℚ) ^ ulpExp F q2 :=
          div_le_div_of_nonneg_right h hp.le
        have hr := rne_mono _ _ hx
        have hv : (rne (q1 / (2 : ℚ) ^ ulpExp F q2) : ℚ) * (2 : ℚ) ^ ulpExp F q2 ≤ v2 := by
          rw [← h2]
          exact mul_le_mul_of_nonneg_right (by exact_mod_cast hr) hp.le
        refine ⟨_, ?_, hv⟩
        rw [round_pos_eq F q1 hq1, hk, if_neg]
        exact not_le.mpr (lt_of_le_of_lt hv hv2)
    · exfalso
      have hk2 : ulpExp F q2 = ilog2 q2 - ((F.prec : ℤ) - 1) ∧ ilog2 q1 + 1 ≤ ilog2 q2 ∧
          F.emin ≤ ilog2 q2 - ((F.prec : ℤ) - 1) := by
        have e1 := ulpExp_ge F q1
        have e2 := ulpExp_ge F q2
        rcases ulpExp_cases F q1 with a | ⟨a, a2⟩ <;>
          rcases ulpExp_cases F q2 with b | ⟨b, b2⟩ <;> omega
      obtain ⟨p, hpp⟩ : ∃ p : ℕ, F.prec = p + 1 := ⟨F.prec - 1, by omega⟩
      have hB : Flt.Rep F ((2 : ℚ) ^ ilog2 q2) := by
        refine ⟨2 ^ p, ilog2 q2 - ((F.prec : ℤ) - 1), hk2.2.2, by positivity, ?_, ?_⟩
        · rw [hpp]; exact pow_lt_pow_right₀ (by norm_num) (by omega)
        · have e : ilog2 q2 = (p : ℤ) + (ilog2 q2 - ((F.prec : ℤ) - 1)) := by
            rw [hpp]; push_cast; ring
          nth_rewrite 1 [e]
          rw [zpow_add₀ (by norm_num : (2 : ℚ) ≠ 0), zpow_natCast]
          push_cast
          ring
      have hq1B : q1 < (2 : ℚ) ^ ilog2 q2 :=
        lt_of_lt_of_le (ilog2_bounds q1 hq1).2 (zpow_le_zpow_right₀ (by norm_num) hk2.2.1)
      rcases le_round_of_rep_le F q2 _ hprec hB (ilog2_bounds q2 hq2).1 with hinf | ⟨w, hw, hle⟩
      · rw [h2] at hinf; cases hinf
      · rw [h2] at hw
        cases hw
        exact hq (le_trans hq1B.le hle)

theorem rep64_natCast (n : ℕ) (h : n < 9007199254740992) : Flt.Rep binary64 (n : ℚ) := by
  refine ⟨n, 0, by decide, by positivity, ?_, by simp⟩
  have : ((n : ℕ) : ℤ) < 9007199254740992 := by exact_mod_cast h
  simpa [binary64] using this

theorem lt_emax64 (x : ℚ) (h : x < 9007199254740992) : x < (2 : ℚ) ^ binary64.emax := by
  have h2 : (9007199254740992 : ℚ) ≤ (2 : ℚ) ^ binary64.emax := by norm_num [binary64]
  exact lt_of_lt_of_le h h2

/-- The conversion of an unsigned integer below `2 ^ 53` to `gdouble` is exact. -/
theorem ofNat64_exact (n : ℕ) (h : n < 9007199254740992) :
    Flt.ofNat binary64 n = Flt.fin (n : ℚ) :=
  round_of_rep binary64 (by decide) _ (rep64_natCast n h)
    (lt_emax64 _ (by exact_mod_cast h))

/-- Rounding to `gdouble` does not cross a whole number: the integral part of the rounded
value is that of the exact value, or the rounded value is the next whole number. -/
theorem floor_round64 (x : ℚ) (h0 : 0 ≤ x) (h : x < 4294967295) :
    ∃ v, Flt.round binary64 x = Flt.fin v ∧ (⌊x⌋.toNat : ℚ) ≤ v ∧ v ≤ ⌊x⌋.toNat + 1 ∧
      (⌊v⌋.toNat = ⌊x⌋.toNat ∨ ⌊v⌋.toNat = ⌊x⌋.toNat + 1) ∧ ⌊x⌋.toNat + 1 < 4294967296 := by
  have hf0 : 0 ≤ ⌊x⌋ := Int.floor_nonneg.mpr h0
  have hfx : ((⌊x⌋.toNat : ℤ) : ℚ) = (⌊x⌋ : ℚ) := by rw [Int.toNat_of_nonneg hf0]
  have hlo : ((⌊x⌋.toNat : ℕ) : ℚ) ≤ x := by
    have := Int.floor_le x
    have e : ((⌊x⌋.toNat : ℕ) : ℚ) = ((⌊x⌋.toNat : ℤ) : ℚ) := by norm_cast
    rw [e, hfx]; exact this
  have hhi : x < ((⌊x⌋.toNat + 1 : ℕ) : ℚ) := by
    have := Int.lt_floor_add_one x
    have e : ((⌊x⌋.toNat + 1 : ℕ) : ℚ) = ((⌊x⌋.toNat : ℤ) : ℚ) + 1 := by norm_cast
    rw [e, hfx]; exact this
  have hN : ⌊x⌋.toNat + 1 < 4294967296 := by
    have h1 : ((⌊x⌋.toNat : ℕ) : ℚ) < ((4294967295 : ℕ) : ℚ) := by
      push_cast; linarith
    have h2 : ⌊x⌋.toNat < 4294967295 := by exact_mod_cast h1
    omega
  have hp : 0 < binary64.prec := by decide
  obtain ⟨v, hv, hle⟩ := round_le_of_le_rep binary64 x _
    (rep64_natCast (⌊x⌋.toNat + 1) (by omega))
    (lt_emax64 _ (by
      have : ((⌊x⌋.toNat + 1 : ℕ) : ℚ) < ((4294967296 : ℕ) : ℚ) := by exact_mod_cast hN
      push_cast at this ⊢; linarith)) hhi.le
  rcases le_round_of_rep_le binary64 x _ hp (rep64_natCast ⌊x⌋.toNat (by omega)) hlo with
    hinf | ⟨w, hw, hge⟩
  · rw [hv] at hinf; cases hinf
  · rw [hv] at hw
    cases hw
    refine ⟨v, hv, hge, by push_cast at hle; exact hle, ?_, hN⟩
    have h1 : (⌊x⌋.toNat : ℤ) ≤ ⌊v⌋ := Int.le_floor.mpr (by exact_mod_cast hge)
    have h2 : ⌊v⌋ ≤ (⌊x⌋.toNat : ℤ) + 1 := by
      have : ⌊v⌋ ≤ ⌊((⌊x⌋.toNat + 1 : ℕ) : ℚ)⌋ := Int.floor_mono hle
      rw [Int.floor_natCast] at this
      push_cast at this
      exact this
    omega

theorem pk_time_get_elapsed_eq (time : PkTime) (s t : ℚ)
    (ht : Flt.mul binary64 (Flt.fin s) (Flt.fin 1000) = Flt.fin t)
    (hoff : time.time_offset < 9007199254740992) :
    pk_time_get_elapsed time (Flt.fin s) =
      Flt.toGuint (Flt.round binary64 (t + time.time_offset)) := by
  simp only [pk_time_get_elapsed, ht, ofNat64_exact _ hoff, Flt.add]

/-- The value of `pk_time_get_elapsed` does not decrease when the reading of the timer and
the time offset do not decrease, as long as the later value is defined. -/
theorem pk_time_get_elapsed_mono (time1 time2 : PkTime) (s1 s2 : ℚ) (e2 : ℕ) (hs : s1 ≤ s2)
    (ho : time1.time_offset ≤ time2.time_offset)
    (h2 : pk_time_get_elapsed time2 (Flt.fin s2) = some e2) :
    ∃ e1, pk_time_get_elapsed time1 (Flt.fin s1) = some e1 ∧ e1 ≤ e2 := by
  have hp : 0 < binary64.prec := by decide
  simp only [pk_time_get_elapsed, Flt.mul, Flt.ofNat] at h2 ⊢
  cases hm : Flt.round binary64 (s2 * 1000) with
  | inf =>
    rw [hm] at h2
    cases ho2 : Flt.round binary64 (time2.time_offset : ℚ) <;> rw [ho2] at h2 <;>
      simp [Flt.add, Flt.toGuint] at h2
  | nan =>
    rw [hm] at h2
    cases ho2 : Flt.round binary64 (time2.time_offset : ℚ) <;> rw [ho2] at h2 <;>
      simp [Flt.add, Flt.toGuint] at h2
  | fin t2 =>
    rw [hm] at h2
    cases ho2 : Flt.round binary64 (time2.time_offset : ℚ) with
    | inf => rw [ho2] at h2; simp [Flt.add, Flt.toGuint] at h2
    | nan => rw [ho2] at h2; simp [Flt.add, Flt.toGuint] at h2
    | fin u2 =>
      rw [ho2] at h2
      simp only [Flt.add] at h2
      cases hv : Flt.round binary64 (t2 + u2) with
      | inf => rw [hv] at h2; simp [Flt.toGuint] at h2
      | nan => rw [hv] at h2; simp [Flt.toGuint] at h2
      | fin v2 =>
        rw [hv] at h2
        obtain ⟨t1, ht1, hle1⟩ :=
          round_mono binary64 hp (s1 * 1000) (s2 * 1000) t2 (by linarith) hm
        obtain ⟨u1, hu1, hle2⟩ := round_mono binary64 hp (time1.time_offset : ℚ)
          (time2.time_offset : ℚ) u2 (by exact_mod_cast ho) ho2
        obtain ⟨v1, hv1, hle3⟩ :=
          round_mono binary64 hp (t1 + u1) (t2 + u2) v2 (by linarith) hv
        rw [ht1, hu1]
        simp only [Flt.add]
        rw [hv1]
        simp only [Flt.toGuint] at h2 ⊢
        have hfl : ⌊v1⌋.toNat ≤ ⌊v2⌋.toNat := Int.toNat_le_toNat (Int.floor_mono hle3)
        split at h2
        · rename_i hlt
          simp only [Option.some.injEq] at h2
          exact ⟨⌊v1⌋.toNat, by rw [if_pos (by omega)], by omega⟩
        · cases h2

/-- C12 (amended): let `t` be the reading of the timer in milliseconds, the `gdouble`
product of the reading in seconds and 1000, and let `t + time_offset` be below
`2 ^ 32 - 1`. Then `pk_time_get_elapsed` returns the `gdouble` sum of `t` and
`time_offset` truncated, which is the integral part of `t + time_offset` or, when the sum
rounds up to a whole number, one more; it is `t + time_offset` when `t` is a whole number;
no earlier reading under the same offset gives a larger value; and directly after
`pk_time_reset`, at the reading 0, the value is 0. -/
theorem pk_time_get_elapsed_value (time : PkTime) (s t : ℚ)
    (ht : Flt.mul binary64 (Flt.fin s) (Flt.fin 1000) = Flt.fin t)
    (hrange : t + time.time_offset < 4294967295) :
    pk_time_get_elapsed time (Flt.fin s) =
      Flt.toGuint (Flt.round binary64 (t + time.time_offset)) ∧
    (pk_time_get_elapsed time (Flt.fin s) = some ⌊t + time.time_offset⌋.toNat ∨
      pk_time_get_elapsed time (Flt.fin s) = some (⌊t + time.time_offset⌋.toNat + 1)) ∧
    (∀ n : ℕ, t = n → pk_time_get_elapsed time (Flt.fin s) = some (n + time.time_offset)) ∧
    (∀ s1 : ℚ, s1 ≤ s → ∃ e1 e2, pk_time_get_elapsed time (Flt.fin s1) = some e1 ∧
      pk_time_get_elapsed time (Flt.fin s) = some e2 ∧ e1 ≤ e2) ∧
    (∀ prior : PkTime, pk_time_get_elapsed (pk_time_reset prior).2 (Flt.fin 0) = some 0) := by
  have ht0 : 0 ≤ t := rep_nonneg binary64 t (round_rep binary64 (by decide) _ t ht)
  have ho0 : (0 : ℚ) ≤ time.time_offset := Nat.cast_nonneg _
  have hoff : time.time_offset < 9007199254740992 := by
    have h1 : ((time.time_offset : ℕ) : ℚ) < ((9007199254740992 : ℕ) : ℚ) := by
      push_cast; linarith
    exact_mod_cast h1
  have heq := pk_time_get_elapsed_eq time s t ht hoff
  obtain ⟨v, hv, hlo, hhi, hfl, hN⟩ :=
    floor_round64 (t + time.time_offset) (by linarith) hrange
  have hdef : pk_time_get_elapsed time (Flt.fin s) = some ⌊v⌋.toNat := by
    rw [heq, hv]
    simp only [Flt.toGuint]
    rw [if_pos (by omega)]
  refine ⟨heq, ?_, ?_, ?_, ?_⟩
  · rcases hfl with h | h
    · left; rw [hdef, h]
    · right; rw [hdef, h]
  · intro n hn
    have hsum : t + (time.time_offset : ℚ) = ((n + time.time_offset : ℕ) : ℚ) := by
      rw [hn]; push_cast; ring
    have hlt : n + time.time_offset < 4294967295 := by
      have h1 : ((n + time.time_offset : ℕ) : ℚ) < ((4294967295 : ℕ) : ℚ) := by
        rw [← hsum]; push_cast; exact hrange
      exact_mod_cast h1
    rw [heq, hsum, round_of_rep binary64 (by decide) _ (rep64_natCast _ (by omega))
      (lt_emax64 _ (by exact_mod_cast (by omega : n + time.time_offset < 9007199254740992)))]
    simp only [Flt.toGuint, Int.floor_natCast, Int.toNat_ofNat]
    rw [if_pos (by omega)]
  · intro s1 hs1
    obtain ⟨e1, he1, hle⟩ := pk_time_get_elapsed_mono time time s1 s _ hs1 le_rfl hdef
    exact ⟨e1, _, he1, hdef, hle⟩
  · intro prior
    have h0 : Flt.mul binary64 (Flt.fin 0) (Flt.fin 1000) = Flt.fin 0 := by
      simp [Flt.mul, Flt.round]
    rw [pk_time_get_elapsed_eq _ 0 0 h0 (by simp [pk_time_reset, pk_time_free_data])]
    simp [pk_time_reset, pk_time_free_data, Flt.round, Flt.toGuint]

/-- C12, at a concrete input: at the reading 2 s, 2000 ms, with the time offset 2000 the
value is 4000, and the earlier reading 1.001 s gives 3001. -/
theorem pk_time_get_elapsed_value_witness :
    pk_time_get_elapsed pk_time_offset_2000 (Flt.fin 2) = some (2000 + 2000) ∧
    ∃ e1 e2, pk_time_get_elapsed pk_time_offset_2000 (Flt.fin timer_1001_ms) = some e1 ∧
      pk_time_get_elapsed pk_time_offset_2000 (Flt.fin 2) = some e2 ∧ e1 ≤ e2 :=
  have h := pk_time_get_elapsed_value pk_time_offset_2000 2 2000 (by decide!) (by decide!)
  ⟨h.2.2.1 2000 (by norm_num), h.2.2.2.1 timer_1001_ms (by decide!)⟩

/-- C12, the claim as stated fails: at the reading 1.001 s of the timer (the `gdouble`
nearest to 1.001) the reading in milliseconds is `1001 - 2 ^ -43`; with the time offset 0
the function returns 1000, with the time offset 2000 it returns 3001 and not the integral
part 3000 of the sum, because the `gdouble` sum rounds up to 3001. No reading `r` in
milliseconds has both `r + 0` truncated equal to 1000 and `r + 2000` truncated equal to
3001. -/
theorem pk_time_get_elapsed_value_counterexample :
    Flt.mul binary64 (Flt.fin timer_1001_ms) (Flt.fin 1000) =
      Flt.fin (8804889115230207 / 8796093022208) ∧
    pk_time_get_elapsed pk_time_new (Flt.fin timer_1001_ms) = some 1000 ∧
    pk_time_get_elapsed pk_time_offset_2000 (Flt.fin timer_1001_ms) = some 3001 ∧
    ⌊(8804889115230207 / 8796093022208 : ℚ) + pk_time_offset_2000.time_offset⌋.toNat
      = 3000 ∧
    ¬ ∃ r : ℚ, ⌊r + (0 : ℕ)⌋ = 1000 ∧ ⌊r + (2000 : ℕ)⌋ = 3001 := by
  refine ⟨by decide!, by decide!, by decide!, by decide!, ?_⟩
  rintro ⟨r, h0, h1⟩
  rw [Int.floor_add_nat] at h0 h1
  omega

/-! ## Appending samples -/

theorem pk_time_get_elapsed_at (time : PkTime) (c : ℚ × ℕ × ℕ) :
    pk_time_get_elapsed { time with time_offset := c.2.1 } (Flt.fin c.1) =
      pk_time_elapsed_at c :=
  pk_time_get_elapsed_offset { pk_time_new with time_offset := c.2.1 }
    { time with time_offset := c.2.1 } _ rfl

theorem pk_time_elapsed_at_mono (a b : ℚ × ℕ × ℕ) (h : a.1 ≤ b.1 ∧ a.2.1 ≤ b.2.1) (e2 : ℕ)
    (hb : pk_time_elapsed_at b = some e2) :
    ∃ e1, pk_time_elapsed_at a = some e1 ∧ e1 ≤ e2 :=
  pk_time_get_elapsed_mono _ _ a.1 b.1 e2 h.1 h.2 hb

/-- Calls of `pk_time_add_data` with non-decreasing readings of the timer and non-decreasing
time offsets keep the log sorted by time. -/
theorem pk_time_feed_sorted (calls : List (ℚ × ℕ × ℕ)) :
    ∀ time : PkTime, List.Chain' (fun a b => a.1 ≤ b.1 ∧ a.2.1 ≤ b.2.1) calls →
    (∀ c ∈ calls, (pk_time_elapsed_at c).isSome = true) →
    List.Sorted (· ≤ ·) (time.array.map (·.time)) →
    (∀ c ∈ calls.head?, ∀ e, pk_time_elapsed_at c = some e →
      ∀ item ∈ time.array, item.time ≤ e) →
    ∃ result, pk_time_feed time calls = some result ∧
      List.Sorted (· ≤ ·) (result.array.map (·.time)) := by
  induction calls with
  | nil => intro time _ _ hs _; exact ⟨time, rfl, hs⟩
  | cons c rest ih =>
    intro time hch hdef hs hb
    obtain ⟨e, he⟩ := Option.isSome_iff_exists.mp (hdef c (List.mem_cons_self _ _))
    have hbe := hb c (by simp) e he
    have hget : pk_time_get_elapsed { time with time_offset := c.2.1 } (Flt.fin c.1) =
        some e := (pk_time_get_elapsed_at time c).trans he
    have hrest_def : ∀ c1 ∈ rest, (pk_time_elapsed_at c1).isSome = true :=
      fun c1 hc1 => hdef c1 (List.mem_cons_of_mem _ hc1)
    have hnext : ∀ c1 ∈ rest.head?, ∀ e1, pk_time_elapsed_at c1 = some e1 → e ≤ e1 := by
      intro c1 hc1 e1 he1
      obtain ⟨e0, h0, hle⟩ := pk_time_elapsed_at_mono c c1 (hch.rel_head? hc1) e1 he1
      rw [he] at h0
      cases h0
      exact hle
    rw [pk_time_feed]
    by_cases hp : c.2.2 < time.last_percentage
    · rw [pk_time_add_data_down { time with time_offset := c.2.1 } _ _ hp]
      exact ih _ hch.tail hrest_def hs
        (fun c1 hc1 e1 he1 item hi => le_trans (hbe item hi) (hnext c1 hc1 e1 he1))
    · rw [pk_time_add_data_up { time with time_offset := c.2.1 } _ _ e (not_lt.mp hp) hget]
      refine ih _ hch.tail hrest_def ?_ ?_
      · simp only [List.map_append, List.map_cons, List.map_nil, List.Sorted,
          List.pairwise_append, List.pairwise_cons, List.Pairwise.nil, List.mem_map,
          List.mem_singleton]
        refine ⟨hs, ⟨by simp, trivial⟩, ?_⟩
        rintro a ⟨item, hi, rfl⟩ b rfl
        exact hbe item hi
      · intro c1 hc1 e1 he1 item hi
        rcases List.mem_append.mp hi with hi | hi
        · exact le_trans (hbe item hi) (hnext c1 hc1 e1 he1)
        · rw [List.mem_singleton.mp hi]
          exact hnext c1 hc1 e1 he1

/-- C14: when the percentage `p` is not below the last-percentage marker and the clock
reads `elapsed`, `pk_time_add_data` returns TRUE, the log is the old log followed by the
one sample (`elapsed`, `p`), the marker is `p`, and the limits and the time offset are as
before. Consequently, starting from an empty log, calls whose readings of the timer and
whose time offsets never decrease, each with a reading that fits a `guint`, leave a log
whose times are non-decreasing. -/
theorem pk_time_add_data_appends (time : PkTime) (timer : Flt) (p elapsed : ℕ)
    (h : time.last_percentage ≤ p) (hc : pk_time_get_elapsed time timer = some elapsed) :
    (∃ after, pk_time_add_data time timer p = some (true, after) ∧
      after.array = time.array ++ [{ time := elapsed, percentage := p }] ∧
      after.last_percentage = p ∧
      after.average_min = time.average_min ∧ after.average_max = time.average_max ∧
      after.value_min = time.value_min ∧ after.value_max = time.value_max ∧
      after.time_offset = time.time_offset) ∧
    (∀ (start : PkTime) (calls : List (ℚ × ℕ × ℕ)), start.array = [] →
      List.Chain' (fun a b => a.1 ≤ b.1 ∧ a.2.1 ≤ b.2.1) calls →
      (∀ c ∈ calls, (pk_time_elapsed_at c).isSome = true) →
      ∃ result, pk_time_feed start calls = some result ∧
        List.Sorted (· ≤ ·) (result.array.map (·.time))) := by
  constructor
  · exact ⟨_, pk_time_add_data_up time timer p elapsed h hc, rfl, rfl, rfl, rfl, rfl, rfl,
      rfl⟩
  · intro start calls hstart hch hdef
    refine pk_time_feed_sorted calls start hch hdef ?_ ?_
    · rw [hstart]; exact List.sorted_nil
    · intro c _ e _ item hi
      rw [hstart] at hi
      cases hi

/-- C14, at a concrete input: after four samples, `pk_time_add_data (50)` at the reading
1/256 s with the time offset 8000 appends the sample (8003, 50), and the five calls leave
the times 0, 2000, 4001, 6002, 8003. -/
theorem pk_time_add_data_appends_witness :
    (∃ after, pk_time_add_data
        { withLog [(0, 10), (2000, 20), (4001, 30), (6002, 40)] with
          time_offset := 8000, last_percentage := 40 } (Flt.fin (1 / 256)) 50 =
          some (true, after) ∧
      after.array = mkLog [(0, 10), (2000, 20), (4001, 30), (6002, 40), (8003, 50)] ∧
      after.last_percentage = 50 ∧ after.time_offset = 8000) ∧
    ∃ result, pk_time_feed pk_time_new calls_test_short = some result ∧
      result.array.map (·.time) = [0, 2000, 4001, 6002, 8003] :=
  have h := pk_time_add_data_appends
    { withLog [(0, 10), (2000, 20), (4001, 30), (6002, 40)] with
      time_offset := 8000, last_percentage := 40 } (Flt.fin (1 / 256)) 50 8003
    (by decide) (by decide!)
  ⟨by
    obtain ⟨after, h1, h2, h3, _, _, _, _, h4⟩ := h.1
    exact ⟨after, h1, h2, h3, h4⟩,
   by
    obtain ⟨result, h1, _⟩ := h.2 pk_time_new calls_test_short rfl
      (by norm_num [calls_test_short]) (by decide!)
    refine ⟨result, h1, ?_⟩
    have h2 : pk_time_feed pk_time_new calls_test_short = some
        { withLog [(0, 10), (2000, 20), (4001, 30), (6002, 40), (8003, 50)] with
          time_offset := 8000, last_percentage := 50 } := by decide!
    rw [h2] at h1
    cases h1
    rfl⟩

/-! ## Splitting identifiers -/

theorem splitOn_not_mem (text : List Char) : ∀ sec ∈ text.splitOn ';', ';' ∉ sec := by
  unfold List.splitOn
  induction text with
  | nil => simp
  | cons c cs ih =>
    intro sec hsec
    rw [List.splitOnP_cons] at hsec
    by_cases hc : (c == ';') = true
    · rw [if_pos hc] at hsec
      rcases List.mem_cons.mp hsec with h | h
      · rw [h]; simp
      · exact ih _ h
    · rw [if_neg hc] at hsec
      cases hsp : List.splitOnP (fun x => x == ';') cs with
      | nil => rw [hsp] at hsec; simp at hsec
      | cons first rest =>
        rw [hsp] at hsec ih
        simp only [List.modifyHead_cons, List.mem_cons] at hsec
        rcases hsec with h | h
        · rw [h]
          intro hmem
          rcases List.mem_cons.mp hmem with h3 | h3
          · exact hc (by rw [← h3]; simp)
          · exact ih first (List.mem_cons_self _ _) h3
        · exact ih sec (List.mem_cons_of_mem _ h)

/-- The sections of a text are unique: they are the pieces between the `;`. -/
theorem splits_into_iff (text : List Char) (sections : List (List Char)) :
    splits_into text sections ↔ sections = text.splitOn ';' := by
  constructor
  · rintro ⟨hne, hno, hjoin⟩
    rw [← hjoin, List.splitOn_intercalate sections ';' hno hne]
  · rintro rfl
    exact ⟨List.splitOnP_ne_nil _ _, splitOn_not_mem text, List.intercalate_splitOn text ';'⟩

theorem pk_strsplit_eq_some_iff (text : List Char) (parts : ℕ)
    (sections : List (List Char)) :
    pk_strsplit (some text) parts = some sections ↔
      splits_into text sections ∧ sections.length = parts ∧
        ∃ first rest, sections = first :: rest ∧ first ≠ [] := by
  rw [splits_into_iff]
  simp only [pk_strsplit, g_strsplit]
  by_cases ht : text = []
  · subst ht
    constructor
    · intro h
      by_cases hp : 0 = parts
      · simp [hp.symm, pk_strzero] at h
      · simp [hp, pk_strzero] at h
    · rintro ⟨hs, _, first, rest, hfr, hne⟩
      rw [List.splitOn_nil] at hs
      rw [hs] at hfr
      simp only [List.cons.injEq] at hfr
      exact absurd hfr.1.symm hne
  · rw [if_neg ht]
    cases hsp : text.splitOn ';' with
    | nil => exact absurd hsp (List.splitOnP_ne_nil _ _)
    | cons first rest =>
      cases first with
      | nil =>
        constructor
        · intro h
          by_cases hp : rest.length + 1 = parts
          · simp [hp, pk_strzero] at h
          · simp [hp, pk_strzero] at h
        · rintro ⟨hs, _, f, r, hfr, hne⟩
          rw [hs] at hfr
          simp only [List.cons.injEq] at hfr
          exact absurd hfr.1.symm hne
      | cons c cs =>
        by_cases hp : rest.length + 1 = parts
        · simp only [List.length_cons, hp, ne_eq, not_true_eq_false, if_false,
            List.head?_cons, pk_strzero, Bool.false_eq_true, Option.some.injEq]
          constructor
          · intro h
            rw [← h]
            exact ⟨rfl, by simp [hp], _, _, rfl, by simp⟩
          · rintro ⟨hs, _⟩
            exact hs.symm
        · simp only [List.length_cons, hp, ne_eq, not_false_eq_true, if_true]
          constructor
          · intro h; cases h
          · rintro ⟨hs, hl, _⟩
            rw [hs] at hl
            exact absurd hl hp

/-- C15: `pk_strsplit (id, parts)` returns a section array, not NULL, if and only if `id`
is not NULL, the sections of `id`, the pieces between its `;`, are exactly `parts` many,
and the first section is not empty; so NULL is returned for too few or too many sections,
an empty first section, and a NULL or empty `id`. -/
theorem pk_strsplit_non_null_iff (id : Option (List Char)) (parts : ℕ) :
    (pk_strsplit id parts ≠ none ↔
      ∃ text sections, id = some text ∧ splits_into text sections ∧
        sections.length = parts ∧ ∃ first rest, sections = first :: rest ∧ first ≠ []) ∧
    pk_strsplit (some "foo;moo".toList) 2 = some ["foo".toList, "moo".toList] ∧
    pk_strsplit (some "foo;moo".toList) 1 = none ∧
    pk_strsplit (some "foo;moo".toList) 3 = none ∧
    pk_strsplit (some ";moo".toList) 2 = none ∧
    pk_strsplit none parts = none ∧ pk_strsplit (some []) parts = none := by
  refine ⟨?_, by decide, by decide, by decide, by decide, rfl, ?_⟩
  swap
  · by_cases hp : 0 = parts
    · simp [pk_strsplit, g_strsplit, hp.symm, pk_strzero]
    · simp [pk_strsplit, g_strsplit, hp, pk_strzero]
  cases id with
  | none => simp [pk_strsplit]
  | some text =>
    constructor
    · intro h
      obtain ⟨sections, hs⟩ := Option.ne_none_iff_exists'.mp h
      exact ⟨text, sections, rfl, (pk_strsplit_eq_some_iff text parts sections).mp hs⟩
    · rintro ⟨text2, sections, hid, hrest⟩
      cases hid
      rw [(pk_strsplit_eq_some_iff text parts sections).mpr hrest]
      simp

/-- C16: a section array returned by `pk_strsplit (id, parts)` has exactly `parts`
sections, none of them contains `;`, and the sections joined in order with `;` are `id`:
empty sections are kept. -/
theorem pk_strsplit_sections (id : Option (List Char)) (parts : ℕ)
    (sections : List (List Char)) (h : pk_strsplit id parts = some sections) :
    ∃ text, id = some text ∧ sections.length = parts ∧ (∀ sec ∈ sections, ';' ∉ sec) ∧
      [';'].intercalate sections = text := by
  cases id with
  | none => simp [pk_strsplit] at h
  | some text =>
    obtain ⟨⟨_, hno, hjoin⟩, hl, _⟩ := (pk_strsplit_eq_some_iff text parts sections).mp h
    exact ⟨text, rfl, hl, hno, hjoin⟩

/-- C16, at a concrete input: the identifier of `libst_common` with two empty sections. -/
theorem pk_strsplit_sections_witness :
    pk_strsplit (some "kde-i18n-csb;4:3.5.8~pre20071001-0ubuntu1;;".toList) 4 =
      some ["kde-i18n-csb".toList, "4:3.5.8~pre20071001-0ubuntu1".toList, [], []] ∧
    ∃ text, some "kde-i18n-csb;4:3.5.8~pre20071001-0ubuntu1;;".toList = some text ∧
      ["kde-i18n-csb".toList, "4:3.5.8~pre20071001-0ubuntu1".toList, [], []].length = 4 ∧
      (∀ sec ∈ ["kde-i18n-csb".toList, "4:3.5.8~pre20071001-0ubuntu1".toList, [], []],
        ';' ∉ sec) ∧
      [';'].intercalate ["kde-i18n-csb".toList, "4:3.5.8~pre20071001-0ubuntu1".toList, [], []]
        = text :=
  ⟨by decide!, pk_strsplit_sections _ 4 _ (by decide!)⟩
theorem pk_strzero_some (text : List Char) : pk_strzero (some text) = true ↔ text = [] := by
  cases text <;> simp [pk_strzero]

theorem pk_strequal_getElem (sections1 sections2 : List (List Char)) (i : ℕ)
    (h1 : i < sections1.length) (h2 : i < sections2.length) :
    pk_strequal sections1[i]? sections2[i]? = true ↔ sections1[i]? = sections2[i]? := by
  rw [List.getElem?_eq_getElem h1, List.getElem?_eq_getElem h2]
  simp [pk_strequal]

/-- C17: for identifiers that each split at `;` into exactly `parts` sections with a first
section that is not empty: when `compare` is at most `parts`, `pk_strcmp_sections` returns
TRUE if and only if the first `compare` sections are pairwise equal; for `compare` equal to
`parts` this is the equality of the two strings; when `compare` is above `parts`, or an
identifier is NULL, it returns FALSE. -/
theorem pk_strcmp_sections_iff (id1 id2 : List Char) (parts compare : ℕ)
    (sections1 sections2 : List (List Char))
    (h1 : splits_into id1 sections1) (hl1 : sections1.length = parts)
    (hf1 : ∃ first rest, sections1 = first :: rest ∧ first ≠ [])
    (h2 : splits_into id2 sections2) (hl2 : sections2.length = parts)
    (hf2 : ∃ first rest, sections2 = first :: rest ∧ first ≠ []) :
    (compare ≤ parts →
      (pk_strcmp_sections (some id1) (some id2) parts compare = true ↔
        ∀ i < compare, sections1[i]? = sections2[i]?)) ∧
    (pk_strcmp_sections (some id1) (some id2) parts parts = true ↔ id1 = id2) ∧
    (parts < compare → pk_strcmp_sections (some id1) (some id2) parts compare = false) ∧
    (∀ other, pk_strcmp_sections none other parts compare = false ∧
      pk_strcmp_sections other none parts compare = false) := by
  have hfull : id1 = id2 ↔ ∀ i < parts, sections1[i]? = sections2[i]? := by
    constructor
    · intro h i _
      rw [(splits_into_iff id1 sections1).mp h1, (splits_into_iff id2 sections2).mp h2, h]
    · intro h
      have hs : sections1 = sections2 := by
        apply List.ext_getElem?
        intro n
        by_cases hn : n < parts
        · exact h n hn
        · rw [List.getElem?_eq_none (by omega), List.getElem?_eq_none (by omega)]
      rw [← h1.2.2, ← h2.2.2, hs]
  have hparts : pk_strcmp_sections (some id1) (some id2) parts parts = true ↔ id1 = id2 := by
    simp [pk_strcmp_sections, pk_strequal]
  refine ⟨?_, hparts, ?_, ?_⟩
  · intro hle
    by_cases hc : compare = parts
    · rw [hc, hparts, hfull]
    · have hlt : compare < parts := by omega
      simp only [pk_strcmp_sections, gt_iff_lt, if_neg (by omega : ¬ parts < compare),
        if_neg hc, (pk_strsplit_eq_some_iff id1 parts sections1).mpr ⟨h1, hl1, hf1⟩,
        (pk_strsplit_eq_some_iff id2 parts sections2).mpr ⟨h2, hl2, hf2⟩,
        List.all_eq_true, List.mem_range]
      constructor
      · intro h i hi
        exact (pk_strequal_getElem _ _ i (by omega) (by omega)).mp (h i hi)
      · intro h i hi
        exact (pk_strequal_getElem _ _ i (by omega) (by omega)).mpr (h i hi)
  · intro hgt
    simp [pk_strcmp_sections, hgt]
  · intro other
    constructor
    · simp [pk_strcmp_sections]
    · cases other <;> simp [pk_strcmp_sections]

/-- C17, at a concrete input: the identifiers of `libst_common` that differ in the fourth
section only are equal in the first three sections and different as strings. -/
theorem pk_strcmp_sections_iff_witness :
    pk_strcmp_sections (some "moo;0.0.1;i386;fedora".toList)
      (some "moo;0.0.1;i386;data".toList) 4 3 = true ∧
    pk_strcmp_sections (some "moo;0.0.1;i386;fedora".toList)
      (some "moo;0.0.1;i386;data".toList) 4 4 = false ∧
    pk_strcmp_sections (some "moo;0.0.1;i386;fedora".toList)
      (some "moo;0.0.1;i386;data".toList) 4 5 = false :=
  have h := pk_strcmp_sections_iff "moo;0.0.1;i386;fedora".toList "moo;0.0.1;i386;data".toList
    4 3 ["moo".toList, "0.0.1".toList, "i386".toList, "fedora".toList]
    ["moo".toList, "0.0.1".toList, "i386".toList, "data".toList]
    (by decide!) rfl ⟨_, _, rfl, by decide⟩ (by decide!) rfl ⟨_, _, rfl, by decide⟩
  ⟨(h.1 (by decide)).mpr (by decide!), by decide!, by decide!⟩

/-- C18: with `known` the recogniser of filter names, `pk_filter_check` returns TRUE if and
only if the filter is not NULL, not empty, and every section of it is not empty and
recognised; `";"` and `"gui;;"` have an empty section and `"moo;foo"` an unknown one. -/
theorem pk_filter_check_iff (known : List Char → Bool) (filter : Option (List Char)) :
    (pk_filter_check known filter = true ↔
      ∃ text sections, filter = some text ∧ text ≠ [] ∧ splits_into text sections ∧
        ∀ sec ∈ sections, sec ≠ [] ∧ known sec = true) ∧
    pk_filter_check known (some ";".toList) = false ∧
    pk_filter_check known (some "gui;;".toList) = false ∧
    (known "moo".toList = false ∨ known "foo".toList = false →
      pk_filter_check known (some "moo;foo".toList) = false) ∧
    pk_filter_check filter_known (some "moo;foo".toList) = false ∧
    pk_filter_check filter_known (some "moo".toList) = false ∧
    pk_filter_check filter_known (some "none".toList) = true ∧
    pk_filter_check filter_known (some "gui".toList) = true ∧
    pk_filter_check filter_known (some "devel;~gui".toList) = true ∧
    pk_filter_check filter_known (some "~gui;~installed".toList) = true := by
  have hiff : ∀ f : Option (List Char), pk_filter_check known f = true ↔
      ∃ text sections, f = some text ∧ text ≠ [] ∧ splits_into text sections ∧
        ∀ sec ∈ sections, sec ≠ [] ∧ known sec = true := by
    intro f
    cases f with
    | none => simp [pk_filter_check]
    | some text =>
      by_cases ht : text = []
      · subst ht
        simp [pk_filter_check, pk_strzero]
      · have hz : pk_strzero (some text) = false := by
          rw [Bool.eq_false_iff, Ne, pk_strzero_some]; exact ht
        simp only [pk_filter_check, hz, Bool.false_eq_true, if_false, g_strsplit, if_neg ht,
          List.all_eq_true, Bool.and_eq_true, Bool.not_eq_true', Option.some.injEq]
        constructor
        · intro h
          refine ⟨text, _, rfl, ht, (splits_into_iff text _).mpr rfl, ?_⟩
          intro sec hsec
          obtain ⟨a, b⟩ := h sec hsec
          refine ⟨?_, b⟩
          intro hs
          rw [(pk_strzero_some sec).mpr hs] at a
          cases a
        · rintro ⟨text2, sections, hid, _, hsp, hall⟩ sec hsec
          subst hid
          rw [← (splits_into_iff _ sections).mp hsp] at hsec
          obtain ⟨a, b⟩ := hall sec hsec
          refine ⟨?_, b⟩
          rw [Bool.eq_false_iff, Ne, pk_strzero_some]
          exact a
  refine ⟨hiff filter, ?_, ?_, ?_, by decide!, by decide!, by decide!, by decide!,
    by decide!, by decide!⟩
  · have key : g_strsplit ";".toList = [[], []] := by decide
    have hz : pk_strzero (some ";".toList) = false := by decide
    simp only [pk_filter_check, hz, key, List.all_cons, List.all_nil]
    simp [pk_strzero]
  · have key : g_strsplit "gui;;".toList = ["gui".toList, [], []] := by decide
    have hz : pk_strzero (some "gui;;".toList) = false := by decide
    simp only [pk_filter_check, hz, key, List.all_cons, List.all_nil]
    simp [pk_strzero]
  · intro h
    have key : g_strsplit "moo;foo".toList = ["moo".toList, "foo".toList] := by decide
    have hz : pk_strzero (some "moo;foo".toList) = false := by decide
    simp only [pk_filter_check, hz, key, List.all_cons, List.all_nil]
    rcases h with h | h <;> rw [h] <;> simp

/-! ## Numbers in text -/

theorem pk_strnumber_loop_pos (cs : List Char) : ∀ i : ℕ, 1 ≤ i →
    (pk_strnumber_loop i cs = true ↔
      (∀ c ∈ cs, g_ascii_isdigit c = true) ∧ (cs = [] ∨ i + cs.length ≤ 11)) := by
  induction cs with
  | nil => intro i _; simp [pk_strnumber_loop]
  | cons c cs ih =>
    intro i hi
    rw [pk_strnumber_loop]
    by_cases h10 : i > 10
    · rw [if_pos h10]
      simp only [Bool.false_eq_true, List.length_cons, false_iff, not_and, not_or]
      intro _
      exact ⟨by simp, by omega⟩
    · rw [if_neg h10, if_neg (by omega : ¬ (i = 0 ∧ c = '-'))]
      by_cases hd : g_ascii_isdigit c = false
      · rw [if_pos hd]
        simp only [Bool.false_eq_true, false_iff, not_and]
        intro hall
        rw [hall c (List.mem_cons_self _ _)] at hd
        cases hd
      · rw [if_neg hd, ih (i + 1) (by omega)]
        have hd1 : g_ascii_isdigit c = true := by simpa using hd
        simp only [List.mem_cons, forall_eq_or_imp, hd1, true_and, List.length_cons]
        constructor
        · rintro ⟨hall, hlen⟩
          refine ⟨hall, Or.inr ?_⟩
          rcases hlen with h | h
          · rw [h]; simp; omega
          · omega
        · rintro ⟨hall, hlen⟩
          refine ⟨hall, Or.inr ?_⟩
          rcases hlen with h | h
          · cases h
          · omega

theorem pk_strnumber_short (text : List Char) (hlen : text.length < 4294967296) :
    pk_strnumber (some text) =
      if pk_strzero (some text) then false else pk_strnumber_loop 0 text := by
  simp only [pk_strnumber, Nat.mod_eq_of_lt hlen, List.take_length]

/-- The texts shorter than `2 ^ 32` characters that `pk_strnumber` accepts: a first
character that is `-` or a digit, followed by at most ten digits. -/
theorem pk_strnumber_iff (text : Option (List Char))
    (hlen : ∀ t, text = some t → t.length < 4294967296) :
    pk_strnumber text = true ↔
      ∃ c cs, text = some (c :: cs) ∧ (c = '-' ∨ g_ascii_isdigit c = true) ∧
        (∀ d ∈ cs, g_ascii_isdigit d = true) ∧ cs.length ≤ 10 := by
  cases text with
  | none => simp [pk_strnumber, pk_strzero]
  | some t =>
    rw [pk_strnumber_short t (hlen t rfl)]
    cases t with
    | nil => simp [pk_strzero]
    | cons c cs =>
      have hloop := pk_strnumber_loop_pos cs 1 le_rfl
      have hlen : (cs = [] ∨ 1 + cs.length ≤ 11) ↔ cs.length ≤ 10 := by
        constructor
        · rintro (h | h)
          · rw [h]; simp
          · omega
        · intro h; right; omega
      simp only [pk_strzero, Bool.false_eq_true, if_false, pk_strnumber_loop,
        gt_iff_lt, Nat.not_lt_zero, true_and, zero_add, Option.some.injEq, List.cons.injEq]
      by_cases hm : c = '-'
      · rw [if_pos hm, hloop, hlen]
        constructor
        · rintro ⟨h1, h2⟩
          exact ⟨c, cs, ⟨rfl, rfl⟩, Or.inl hm, h1, h2⟩
        · rintro ⟨c2, cs2, ⟨rfl, rfl⟩, _, h1, h2⟩
          exact ⟨h1, h2⟩
      · rw [if_neg hm]
        by_cases hd : g_ascii_isdigit c = false
        · rw [if_pos hd]
          simp only [Bool.false_eq_true, false_iff, not_exists, not_and]
          rintro c2 cs2 ⟨rfl, rfl⟩ (h | h)
          · exact absurd h hm
          · rw [h] at hd; cases hd
        · rw [if_neg hd, hloop, hlen]
          have hd1 : g_ascii_isdigit c = true := by simpa using hd
          constructor
          · rintro ⟨h1, h2⟩
            exact ⟨c, cs, ⟨rfl, rfl⟩, Or.inr hd1, h1, h2⟩
          · rintro ⟨c2, cs2, ⟨rfl, rfl⟩, _, h1, h2⟩
            exact ⟨h1, h2⟩

/-- A text of `2 ^ 32` characters has the `guint` length 0: the loop of `pk_strnumber`
does not look at any of them. -/
theorem pk_strnumber_of_wrap (text : List Char) (hne : text ≠ [])
    (hl : text.length % 4294967296 = 0) : pk_strnumber (some text) = true := by
  cases text with
  | nil => exact absurd rfl hne
  | cons c cs =>
    simp only [pk_strnumber, pk_strzero, Bool.false_eq_true, if_false, hl, List.take_zero,
      pk_strnumber_loop]

theorem pk_strnumber_wraps (c : Char) :
    pk_strnumber (some (List.replicate 4294967296 c)) = true := by
  apply pk_strnumber_of_wrap
  · intro h
    have := congrArg List.length h
    rw [List.length_replicate] at this
    cases this
  · rw [List.length_replicate]

theorem g_ascii_isdigit_iff (c : Char) : g_ascii_isdigit c = true ↔ '0' ≤ c ∧ c ≤ '9' := by
  simp [g_ascii_isdigit]

/-- C19: `pk_strnumber` accepts the lone `"-"`, which has no digit. The `guint` `length`
holds the length of the text modulo `2 ^ 32`, so a text of `2 ^ 32` characters is accepted
without a look at any of them. A text shorter than `2 ^ 32` characters is accepted if and
only if it is a well-formed decimal integer of at most 11 characters or is `"-"`. The
function returns FALSE for NULL, the empty string, a leading `+`, a `-` that is not first,
a character that is no digit, and a text of 12 characters. -/
theorem pk_strnumber_accepts_minus :
    pk_strnumber (some "-".toList) = true ∧ ¬ is_decimal_integer (some "-".toList) ∧
    (∀ text, (∀ t, text = some t → t.length < 4294967296) →
      (pk_strnumber text = true ↔ is_decimal_integer text ∨ text = some "-".toList)) ∧
    pk_strnumber (some (List.replicate 4294967296 'x')) = true ∧
    pk_strnumber (some "123".toList) = true ∧ pk_strnumber (some "-123".toList) = true ∧
    pk_strnumber (some "0".toList) = true ∧
    pk_strnumber (some "-1234567890".toList) = true ∧
    pk_strnumber none = false ∧ pk_strnumber (some "".toList) = false ∧
    pk_strnumber (some "+503".toList) = false ∧ pk_strnumber (some "503-".toList) = false ∧
    pk_strnumber (some "dave".toList) = false ∧
    pk_strnumber (some "123456891234".toList) = false := by
  have hnot : ¬ is_decimal_integer (some "-".toList) := by
    rintro ⟨digits, hne, hall, hor, _⟩
    rcases hor with h | h
    · simp only [Option.some.injEq] at h
      have := hall '-' (by rw [← h]; decide)
      exact absurd this.1 (by decide)
    · simp only [Option.some.injEq] at h
      have h2 : digits = [] := by
        have := congrArg List.tail h
        simpa using this.symm
      exact hne h2
  refine ⟨by decide, hnot, ?_, pk_strnumber_wraps 'x', by decide, by decide, by decide,
    by decide, by decide, by decide, by decide, by decide, by decide, by decide⟩
  intro text hshort
  rw [pk_strnumber_iff text hshort]
  constructor
  · rintro ⟨c, cs, rfl, hc, hall, hlen⟩
    rcases hc with hc | hc
    · cases cs with
      | nil => right; rw [hc]; rfl
      | cons d ds =>
        left
        refine ⟨d :: ds, by simp, fun x hx => (g_ascii_isdigit_iff x).mp (hall x hx),
          Or.inr (by rw [hc]), ?_⟩
        intro t ht
        simp only [Option.some.injEq] at ht
        rw [← ht]
        simp only [List.length_cons] at hlen ⊢
        omega
    · left
      refine ⟨c :: cs, by simp, ?_, Or.inl rfl, ?_⟩
      · intro x hx
        rcases List.mem_cons.mp hx with h | h
        · rw [h]; exact (g_ascii_isdigit_iff c).mp hc
        · exact (g_ascii_isdigit_iff x).mp (hall x h)
      · intro t ht
        simp only [Option.some.injEq] at ht
        rw [← ht]
        simp only [List.length_cons]
        omega
  · rintro (⟨digits, hne, hall, hor, hlen⟩ | h)
    · cases digits with
      | nil => exact absurd rfl hne
      | cons d ds =>
        have hd : ∀ x ∈ d :: ds, g_ascii_isdigit x = true :=
          fun x hx => (g_ascii_isdigit_iff x).mpr (hall x hx)
        rcases hor with h | h
        · have hl := hlen _ h
          simp only [List.length_cons] at hl
          exact ⟨d, ds, h, Or.inr (hd d (List.mem_cons_self _ _)),
            fun x hx => hd x (List.mem_cons_of_mem _ hx), by omega⟩
        · have hl := hlen _ h
          simp only [List.length_cons] at hl
          exact ⟨'-', d :: ds, h, Or.inl rfl, hd, by simp only [List.length_cons]; omega⟩
    · exact ⟨'-', [], h, Or.inl rfl, by simp, by simp⟩

theorem strtol_digits_eq (ds : List Char) : ∀ acc : ℕ,
    (∀ c ∈ ds, g_ascii_isdigit c = true) →
    strtol_digits acc ds =
      acc * 10 ^ ds.length + Nat.ofDigits 10 (ds.reverse.map fun c => c.toNat - 48) := by
  induction ds with
  | nil => intro acc _; simp [strtol_digits]
  | cons c cs ih =>
    intro acc hall
    rw [strtol_digits, if_pos (hall c (List.mem_cons_self _ _)),
      ih _ (fun x hx => hall x (List.mem_cons_of_mem _ hx))]
    simp only [List.length_cons, List.reverse_cons, List.map_append, List.map_cons,
      List.map_nil, Nat.ofDigits_append, Nat.ofDigits_singleton, List.length_map,
      List.length_reverse]
    ring

theorem isspace_of_number (c : Char) (hc : c = '-' ∨ g_ascii_isdigit c = true) :
    isspace c = false := by
  rcases hc with h | h
  · rw [h]; decide
  · have h0 := ((g_ascii_isdigit_iff c).mp h).1
    simp only [isspace, decide_eq_false_iff_not, not_or]
    refine ⟨?_, ?_, ?_, ?_, ?_, ?_⟩ <;>
      · intro hc
        rw [hc] at h0
        exact absurd h0 (by decide)

/-- On a text that `pk_strnumber` accepts, `atoi` is defined exactly when the integer the
text denotes fits an `int`, and is that integer. -/
theorem atoi_eq (c : Char) (cs : List Char) (hc : c = '-' ∨ g_ascii_isdigit c = true)
    (hall : ∀ d ∈ cs, g_ascii_isdigit d = true) :
    atoi (c :: cs) =
      if -2147483648 ≤ decimal_value (c :: cs) ∧ decimal_value (c :: cs) ≤ 2147483647
      then some (decimal_value (c :: cs)) else none := by
  have hsp := isspace_of_number c hc
  have hdrop : List.dropWhile isspace (c :: cs) = c :: cs := by
    simp [List.dropWhile, hsp]
  by_cases hm : c = '-'
  · subst hm
    have hv : strtol_digits 0 cs = Nat.ofDigits 10 (cs.reverse.map fun c => c.toNat - 48) := by
      rw [strtol_digits_eq cs 0 hall]; simp
    simp only [atoi, hdrop, decimal_value, hv]
  · have hd : g_ascii_isdigit c = true := by
      rcases hc with h | h
      · exact absurd h hm
      · exact h
    have hp : c ≠ '+' := by
      intro h
      rw [h] at hd
      exact absurd hd (by decide)
    have hv : strtol_digits 0 (c :: cs) =
        Nat.ofDigits 10 ((c :: cs).reverse.map fun c => c.toNat - 48) := by
      rw [strtol_digits_eq (c :: cs) 0 (by
        intro x hx
        rcases List.mem_cons.mp hx with h | h
        · rw [h]; exact hd
        · exact hall x h)]
      simp
    have h1 : (match c :: cs with
        | '-' :: digits => -(strtol_digits 0 digits : ℤ)
        | '+' :: digits => (strtol_digits 0 digits : ℤ)
        | digits => (strtol_digits 0 digits : ℤ)) = (strtol_digits 0 (c :: cs) : ℤ) := by
      split
      · rename_i h; simp only [List.cons.injEq] at h; exact absurd h.1 hm
      · rename_i h; simp only [List.cons.injEq] at h; exact absurd h.1 hp
      · rfl
    have h2 : decimal_value (c :: cs) =
        ((Nat.ofDigits 10 ((c :: cs).reverse.map fun c => c.toNat - 48) : ℕ) : ℤ) := by
      unfold decimal_value
      split
      · rename_i h; simp only [List.cons.injEq] at h; exact absurd h.1 hm
      · rfl
    simp only [atoi, hdrop, h1, h2, hv]

/-- C20: `pk_strtoint` returns FALSE and stores 0 exactly when `pk_strnumber` is FALSE.
When `pk_strnumber` is TRUE, for a text shorter than `2 ^ 32` characters, it stores the
integer the text denotes, as long as this fits a `gint`; but the limit of 11 characters
does not ensure that: `"2147483648"` is accepted and `atoi` is called on a value that no
`int` holds, which is undefined. The lone `"-"` is accepted as well, and 0 is stored for
it. -/
theorem pk_strtoint_overflow :
    (∀ text, pk_strnumber text = false → pk_strtoint text = some (false, 0)) ∧
    (∀ text flag value, pk_strtoint text = some (flag, value) →
      flag = pk_strnumber text) ∧
    (∀ text : List Char, text.length < 4294967296 → pk_strnumber (some text) = true →
      -2147483648 ≤ decimal_value text → decimal_value text ≤ 2147483647 →
      pk_strtoint (some text) = some (true, decimal_value text)) ∧
    (∀ text : List Char, text.length < 4294967296 → pk_strnumber (some text) = true →
      ¬ (-2147483648 ≤ decimal_value text ∧ decimal_value text ≤ 2147483647) →
      pk_strtoint (some text) = none) ∧
    pk_strtoint (some "234".toList) = some (true, 234) ∧
    pk_strtoint (some "-234".toList) = some (true, -234) ∧
    pk_strtoint (some "dave".toList) = some (false, 0) ∧
    pk_strnumber (some "2147483648".toList) = true ∧
    decimal_value "2147483648".toList = 2147483648 ∧
    pk_strtoint (some "2147483648".toList) = none ∧
    pk_strnumber (some "99999999999".toList) = true ∧
    pk_strtoint (some "99999999999".toList) = none ∧
    pk_strtoint (some "-".toList) = some (true, 0) := by
  have hacc : ∀ text : List Char, text.length < 4294967296 →
      pk_strnumber (some text) = true →
      pk_strtoint (some text) =
        (if -2147483648 ≤ decimal_value text ∧ decimal_value text ≤ 2147483647
          then some (decimal_value text) else none).map fun value => (true, value) := by
    intro text hshort h
    obtain ⟨c, cs, ht, hc, hall, _⟩ := (pk_strnumber_iff _ (by
      intro t ht
      simp only [Option.some.injEq] at ht
      rw [← ht]
      exact hshort)).mp h
    simp only [Option.some.injEq] at ht
    subst ht
    simp only [pk_strtoint, h, Bool.true_eq_false, if_false, atoi_eq c cs hc hall]
  refine ⟨?_, ?_, ?_, ?_, by decide!, by decide!, by decide!, by decide!, by decide!,
    by decide!, by decide!, by decide!, by decide!⟩
  · intro text h
    simp [pk_strtoint, h]
  · intro text flag value h
    cases hn : pk_strnumber text with
    | false =>
      simp only [pk_strtoint, hn, if_true, Option.some.injEq, Prod.mk.injEq] at h
      exact h.1.symm
    | true =>
      cases text with
      | none => simp [pk_strnumber, pk_strzero] at hn
      | some t =>
        simp only [pk_strtoint, hn, Bool.true_eq_false, if_false, Option.map_eq_some',
          Prod.mk.injEq] at h
        obtain ⟨_, _, hflag, _⟩ := h
        exact hflag.symm
  · intro text hshort h h1 h2
    rw [hacc text hshort h, if_pos ⟨h1, h2⟩]
    rfl
  · intro text hshort h hn
    rw [hacc text hshort h, if_neg hn]
    rfl

/-! ## Unsigned numbers, validation and padding -/

theorem pk_strtoint_range (text : Option (List Char)) (ret : Bool) (temp : ℤ)
    (h : pk_strtoint text = some (ret, temp)) : -2147483648 ≤ temp ∧ temp ≤ 2147483647 := by
  unfold pk_strtoint at h
  simp only at h
  split at h
  · simp only [Option.some.injEq, Prod.mk.injEq] at h
    rw [← h.2]
    decide
  · cases text with
    | none => simp at h
    | some t =>
      simp only [Option.map_eq_some'] at h
      obtain ⟨value, hv, hp⟩ := h
      simp only [Prod.mk.injEq] at hp
      rw [← hp.2]
      unfold atoi at hv
      simp only at hv
      split at hv
      · rename_i hr
        simp only [Option.some.injEq] at hv
        rw [← hv]
        exact hr
      · cases hv

/-- C21: whenever `pk_strtoint` returns (its `atoi` is defined), `pk_strtouint` returns TRUE
if and only if `pk_strtoint` returns TRUE and the converted integer is not negative, and
then stores that integer; in every other case it returns FALSE and stores 0. -/
theorem pk_strtouint_iff (text : Option (List Char)) (ret : Bool) (temp : ℤ)
    (h : pk_strtoint text = some (ret, temp)) :
    (∃ flag value, pk_strtouint text = some (flag, value) ∧
      (flag = true ↔ ret = true ∧ 0 ≤ temp) ∧
      (flag = true → (value : ℤ) = temp) ∧
      (flag = false → value = 0)) := by
  have hr := pk_strtoint_range text ret temp h
  simp only [pk_strtouint, h]
  by_cases hc : ret = false ∨ temp < 0
  · rw [if_pos hc]
    refine ⟨false, 0, rfl, ?_, by simp, by simp⟩
    simp only [Bool.false_eq_true, false_iff, not_and, not_le]
    intro hret
    rcases hc with h1 | h1
    · rw [h1] at hret; cases hret
    · exact h1
  · rw [if_neg hc]
    have hret : ret = true := by
      cases ret
      · exact absurd (Or.inl rfl) hc
      · rfl
    have h0 : 0 ≤ temp := by
      by_contra hn
      exact hc (Or.inr (not_le.mp hn))
    refine ⟨true, _, rfl, by simp [hret, h0], ?_, by simp⟩
    intro _
    rw [Int.emod_eq_of_lt h0 (by omega), Int.toNat_of_nonneg h0]

/-- C21, at concrete inputs: `"234"` gives TRUE with 234, `"-234"` and `"dave"` give FALSE
with 0. -/
theorem pk_strtouint_iff_witness :
    pk_strtouint (some "234".toList) = some (true, 234) ∧
    pk_strtouint (some "-234".toList) = some (false, 0) ∧
    pk_strtouint (some "dave".toList) = some (false, 0) ∧
    pk_strtouint none = some (false, 0) ∧
    ∃ flag value, pk_strtouint (some "234".toList) = some (flag, value) ∧
      (flag = true ↔ true = true ∧ (0 : ℤ) ≤ 234) ∧
      (flag = true → (value : ℤ) = 234) ∧ (flag = false → value = 0) :=
  ⟨by decide!, by decide!, by decide!, by decide!,
   pk_strtouint_iff (some "234".toList) true 234 (by decide!)⟩

theorem pk_strvalidate_char_forbidden :
    ∀ c ∈ forbidden_chars, pk_strvalidate_char c = false := by
  decide

theorem pk_strvalidate_char_iff (c : Char) :
    pk_strvalidate_char c = false ↔ c ∈ forbidden_chars := by
  constructor
  · intro h
    by_contra hn
    simp only [forbidden_chars, List.mem_cons, List.mem_singleton, List.not_mem_nil,
      or_false, not_or] at hn
    obtain ⟨h1, h2, h3, h4, h5, h6, h7, h8, h9, h10, h11, h12, h13, h14, h15⟩ := hn
    rw [pk_strvalidate_char, if_neg h1, if_neg h2, if_neg h3, if_neg h4, if_neg h5,
      if_neg h6, if_neg h7, if_neg h8, if_neg h9, if_neg h10, if_neg h11, if_neg h12,
      if_neg h13, if_neg h14, if_neg h15] at h
    cases h
  · exact pk_strvalidate_char_forbidden c

theorem pk_strvalidate_loop_iff (cs : List Char) : ∀ i : ℕ,
    (pk_strvalidate_loop i cs = true ↔
      (∀ c ∈ cs, pk_strvalidate_char c = true) ∧ (cs = [] ∨ i + cs.length ≤ 1025)) := by
  induction cs with
  | nil => intro i; simp [pk_strvalidate_loop]
  | cons c cs ih =>
    intro i
    rw [pk_strvalidate_loop]
    by_cases h10 : i > 1024
    · rw [if_pos h10]
      simp only [Bool.false_eq_true, List.length_cons, false_iff, not_and, not_or]
      intro _
      exact ⟨by simp, by omega⟩
    · rw [if_neg h10]
      by_cases hd : pk_strvalidate_char c = false
      · rw [if_pos hd]
        simp only [Bool.false_eq_true, false_iff, not_and]
        intro hall
        rw [hall c (List.mem_cons_self _ _)] at hd
        cases hd
      · rw [if_neg hd, ih (i + 1)]
        have hd1 : pk_strvalidate_char c = true := by simpa using hd
        simp only [List.mem_cons, forall_eq_or_imp, hd1, true_and, List.length_cons]
        constructor
        · rintro ⟨hall, hlen⟩
          refine ⟨hall, Or.inr ?_⟩
          rcases hlen with h | h
          · rw [h]; simp; omega
          · omega
        · rintro ⟨hall, hlen⟩
          refine ⟨hall, Or.inr ?_⟩
          rcases hlen with h | h
          · cases h
          · omega

theorem pk_strvalidate_short (text : List Char) (hlen : text.length < 4294967296) :
    pk_strvalidate text = pk_strvalidate_loop 0 text := by
  simp only [pk_strvalidate, Nat.mod_eq_of_lt hlen, List.take_length]

theorem pk_strvalidate_of_wrap (text : List Char) (hl : text.length % 4294967296 = 0) :
    pk_strvalidate text = true := by
  simp only [pk_strvalidate, hl, List.take_zero, pk_strvalidate_loop]

/-- C22: `pk_strvalidate` holds the length of the text in a `guint`, modulo `2 ^ 32`: a
text of `2 ^ 32` forbidden characters has the length 0 there and is accepted. For a text
shorter than `2 ^ 32` characters it returns TRUE if and only if the text has at most 1025
characters and none of them is one of the 15 forbidden characters, which are the
characters for which `pk_strvalidate_char` returns FALSE; `a` and `~` are accepted. -/
theorem pk_strvalidate_iff :
    pk_strvalidate (List.replicate 4294967296 '$') = true ∧
    (List.replicate 4294967296 '$').length = 4294967296 ∧
    (∀ c ∈ List.replicate 4294967296 '$', c ∈ forbidden_chars) ∧
    (∀ text : List Char, text.length < 4294967296 →
      (pk_strvalidate text = true ↔
        text.length ≤ 1025 ∧ ∀ c ∈ text, c ∉ forbidden_chars)) ∧
    (∀ c : Char, pk_strvalidate_char c = false ↔ c ∈ forbidden_chars) ∧
    forbidden_chars.length = 15 ∧ forbidden_chars.Nodup ∧
    forbidden_chars.map Char.toNat =
      [32, 36, 96, 39, 34, 94, 91, 93, 123, 125, 35, 92, 60, 62, 124] ∧
    pk_strvalidate_char 'a' = true ∧ pk_strvalidate_char '~' = true ∧
    pk_strvalidate_char '$' = false ∧
    pk_strvalidate "richard$hughes".toList = false ∧
    pk_strvalidate "richardhughes".toList = true ∧
    pk_strvalidate (List.replicate 1025 'a') = true ∧
    pk_strvalidate (List.replicate 1026 'a') = false := by
  have hiff : ∀ t : List Char, t.length < 4294967296 → (pk_strvalidate t = true ↔
      t.length ≤ 1025 ∧ ∀ c ∈ t, c ∉ forbidden_chars) := by
    intro t hshort
    rw [pk_strvalidate_short t hshort, pk_strvalidate_loop_iff t 0]
    have hc : ∀ c : Char, pk_strvalidate_char c = true ↔ c ∉ forbidden_chars := by
      intro c
      rw [← pk_strvalidate_char_iff]
      simp
    constructor
    · rintro ⟨hall, hlen⟩
      refine ⟨?_, fun c hmem => (hc c).mp (hall c hmem)⟩
      rcases hlen with h | h
      · rw [h]; simp
      · omega
    · rintro ⟨hlen, hall⟩
      exact ⟨fun c hmem => (hc c).mpr (hall c hmem), Or.inr (by omega)⟩
  have ha : ∀ c ∈ List.replicate 1025 'a', c ∉ forbidden_chars := by
    intro c hmem
    rw [(List.mem_replicate.mp hmem).2]
    decide
  have hwrap : pk_strvalidate (List.replicate 4294967296 '$') = true :=
    pk_strvalidate_of_wrap _ (by rw [List.length_replicate])
  refine ⟨hwrap, List.length_replicate _ _, ?_, hiff, pk_strvalidate_char_iff, by decide,
    by decide, by decide, by decide, by decide, by decide, by decide, by decide, ?_, ?_⟩
  · intro c hmem
    rw [(List.mem_replicate.mp hmem).2]
    decide
  · exact (hiff _ (by rw [List.length_replicate]; decide)).mpr
      ⟨by rw [List.length_replicate], ha⟩
  · rw [Bool.eq_false_iff]
    intro h
    have := ((hiff _ (by rw [List.length_replicate]; decide)).mp h).1
    rw [List.length_replicate] at this
    omega

theorem to_gint_of_range (z : ℤ) (h1 : -2147483648 ≤ z) (h2 : z < 2147483648) :
    to_gint z = z := by
  unfold to_gint
  rw [Int.emod_eq_of_lt (by omega) (by omega)]
  omega

theorem pk_strpad_overflow (data : List Char) (length : ℕ)
    (hsize : 0 < to_gint ((length : ℤ) - (data.length : ℤ)))
    (hbig : 2147483647 <
      data.length + (to_gint ((length : ℤ) - (data.length : ℤ))).toNat) :
    pk_strpad (some data) length = none := by
  simp only [pk_strpad, g_strnfill, g_strdup_printf, List.length_replicate]
  rw [if_neg (not_le.mpr hsize), if_neg (by omega)]

/-- C23 (amended): when `data` is shorter than `2 ^ 31` characters and `length` is below
`2 ^ 31`, `pk_strpad (data, length)` is `data` followed by `max (0, length - len (data))`
spaces: its length is `max (len (data), length)`, `data` is a prefix of it, and for
`length <= len (data)` it is `data`. For NULL it is `length` spaces. -/
theorem pk_strpad_spec (data : List Char) (length : ℕ) (hdata : data.length < 2147483648)
    (hlength : length < 2147483648) :
    pk_strpad (some data) length =
      some (data ++ List.replicate (length - data.length) ' ') ∧
    (∃ text, pk_strpad (some data) length = some text ∧
      text.length = max data.length length ∧ data <+: text ∧
      (∀ i, (h : i < text.length) → data.length ≤ i → text.get ⟨i, h⟩ = ' ')) ∧
    (length ≤ data.length → pk_strpad (some data) length = some data) ∧
    (∀ n : ℕ, pk_strpad none n = some (List.replicate n ' ')) := by
  have hg := to_gint_of_range ((length : ℤ) - (data.length : ℤ)) (by omega) (by omega)
  have heq : pk_strpad (some data) length =
      some (data ++ List.replicate (length - data.length) ' ') := by
    simp only [pk_strpad, hg, g_strnfill, g_strdup_printf]
    by_cases hc : (length : ℤ) - (data.length : ℤ) ≤ 0
    · rw [if_pos hc]
      have : length - data.length = 0 := by omega
      rw [this]
      simp
    · rw [if_neg hc]
      have : ((length : ℤ) - (data.length : ℤ)).toNat = length - data.length := by omega
      rw [this, List.length_replicate, if_pos (by omega)]
  refine ⟨heq, ⟨_, heq, ?_, List.prefix_append _ _, ?_⟩, ?_, fun n => rfl⟩
  · rw [List.length_append, List.length_replicate]
    omega
  · intro i h hi
    rw [List.get_eq_getElem, List.getElem_append_right hi, List.getElem_replicate]
  · intro hle
    rw [heq]
    have : length - data.length = 0 := by omega
    rw [this]
    simp

/-- C23, at concrete inputs: the tests of `libst_common`. -/
theorem pk_strpad_spec_witness :
    pk_strpad (some "richard".toList) 10 = some "richard   ".toList ∧
    pk_strpad (some "".toList) 10 = some "          ".toList ∧
    pk_strpad (some "richardhughes".toList) 10 = some "richardhughes".toList ∧
    pk_strpad (some "rich".toList) 0 = some "rich".toList ∧
    pk_strpad none 10 = some "          ".toList :=
  have h := pk_strpad_spec "richard".toList 10 (by decide) (by decide)
  ⟨h.1.trans (by decide), by decide, by decide, by decide, h.2.2.2 10⟩

/-- C23, the claim as stated fails: for `length` at `2 ^ 31` or more above the length of
`data` the difference does not fit the `gint` `size`, which becomes negative, and `data`
is returned without padding: `pk_strpad ("rich", 2147483652)` is `"rich"`, of length 4 and
not 2147483652. For `length = 2 ^ 31` and `data = "a"` the padded string would have more
than `INT_MAX` characters, and `g_strdup_printf` has no result. -/
theorem pk_strpad_spec_counterexample :
    pk_strpad (some "rich".toList) 2147483652 = some "rich".toList ∧
    to_gint ((2147483652 : ℤ) - ("rich".toList.length : ℤ)) = -2147483648 ∧
    "rich".toList.length ≠ max "rich".toList.length 2147483652 ∧
    pk_strpad (some "rich".toList) 2147483652 ≠
      some ("rich".toList ++ List.replicate (2147483652 - "rich".toList.length) ' ') ∧
    pk_strpad (some "a".toList) 2147483648 = none := by
  have h : pk_strpad (some "rich".toList) 2147483652 = some "rich".toList := by decide!
  have hl : "rich".toList.length = 4 := rfl
  refine ⟨h, by decide, ?_, ?_, ?_⟩
  · rw [hl]
    decide
  · rw [h]
    intro heq
    have := congrArg (Option.map List.length) heq
    simp only [Option.map_some', Option.some.injEq, List.length_append,
      List.length_replicate, hl] at this
    omega
  · have hg : to_gint (((2147483648 : ℕ) : ℤ) - (("a".toList.length : ℕ) : ℤ)) =
        2147483647 := by
      decide
    apply pk_strpad_overflow
    · rw [hg]; decide
    · rw [hg]; decide

/-! ## The gradient test -/

theorem round_ne_nan (F : Fmt) (q : ℚ) : Flt.round F q ≠ Flt.nan := by
  by_cases hq : q ≤ 0
  · simp [Flt.round, hq]
  · rw [round_pos_eq F q (not_le.mp hq)]
    split_ifs <;> simp

theorem round32_gradient_min : Flt.round binary32 (1 / 100000) =
    Flt.fin (2748779 / 274877906944) := by
  decide!

theorem round32_above_gradient_min :
    Flt.round binary32 (1 / 100000 * (1 + 1 / 16777216)) =
      Flt.fin (10995117 / 1099511627776) := by
  decide!

theorem round32_above_100 : Flt.round binary32 (100 + 1 / 167772) =
    Flt.fin (13107201 / 131072) := by
  decide!

theorem pk_time_get_gradient_eq (older newer : PkTimeItem) (dx dy : ℕ)
    (hx : newer.time = older.time + dx) (hy : newer.percentage = older.percentage + dy)
    (hdx0 : 0 < dx) (hdx : dx ≤ 16777216) (hdy : dy ≤ 16777216)
    (ht : newer.time < 4294967296) (hp : newer.percentage < 4294967296) :
    pk_time_get_gradient newer older = Flt.round binary32 ((dy : ℚ) / (dx : ℚ)) := by
  have h1 : guint_sub newer.percentage older.percentage = dy := by
    rw [guint_sub_of_le _ _ (by omega) hp]; omega
  have h2 : guint_sub newer.time older.time = dx := by
    rw [guint_sub_of_le _ _ (by omega) ht]; omega
  have hne : (dx : ℚ) ≠ 0 := by exact_mod_cast hdx0.ne'
  simp only [pk_time_get_gradient, h1, h2, ofNat_exact dy hdy, ofNat_exact dx hdx, Flt.div,
    if_neg hne]

/-- A ratio `dy / dx` of at most `0.00001` is ignored. -/
theorem gradient_ignored_low (g : ℚ) (h : g ≤ 1 / 100000) :
    gradient_ignored (Flt.round binary32 g) = true := by
  obtain ⟨v, hv, hle⟩ := round_mono binary32 (by decide) g (1 / 100000) _ h
    round32_gradient_min
  rw [hv]
  simp only [gradient_ignored, gradient_min_eq, Flt.lt, Bool.or_eq_true, decide_eq_true_eq]
  left
  have : (2748779 / 274877906944 : ℚ) < 5902958103587057 / 590295810358705651712 := by
    norm_num
  linarith

/-- A ratio `dy / dx` above 100 with `dy` up to `2 ^ 24` is ignored. -/
theorem gradient_ignored_high (dx dy : ℕ) (hdx0 : 0 < dx) (hdy : dy ≤ 16777216)
    (h : (100 : ℚ) < (dy : ℚ) / (dx : ℚ)) :
    gradient_ignored (Flt.round binary32 ((dy : ℚ) / (dx : ℚ))) = true := by
  have hdxq : (0 : ℚ) < dx := by exact_mod_cast hdx0
  have h1 : (100 : ℚ) * dx < dy := (lt_div_iff₀ hdxq).mp h
  have h2 : 100 * dx < dy := by exact_mod_cast h1
  have h3 : (100 : ℚ) * dx + 1 ≤ dy := by exact_mod_cast (by omega : 100 * dx + 1 ≤ dy)
  have h4 : (dx : ℚ) ≤ 167772 := by exact_mod_cast (by omega : dx ≤ 167772)
  have hq0 : (100 + 1 / 167772 : ℚ) ≤ (dy : ℚ) / (dx : ℚ) := by
    rw [le_div_iff₀ hdxq]
    linarith
  have h100 : Flt.ofNat binary32 100 = Flt.fin ((100 : ℕ) : ℚ) := ofNat_exact 100 (by decide)
  simp only [gradient_ignored, h100, Bool.or_eq_true]
  right
  cases hr : Flt.round binary32 ((dy : ℚ) / (dx : ℚ)) with
  | inf => rfl
  | nan => exact absurd hr (round_ne_nan _ _)
  | fin v =>
    obtain ⟨v1, hv1, hle⟩ := round_mono binary32 (by decide) _ _ v hq0 hr
    rw [round32_above_100] at hv1
    simp only [Flt.fin.injEq] at hv1
    simp only [Flt.lt, decide_eq_true_eq]
    rw [← hv1] at hle
    push_cast
    have : (100 : ℚ) < 13107201 / 131072 := by norm_num
    linarith

/-- A ratio `dy / dx` above `0.00001` and up to 100 with `dx` up to `2 ^ 24` is accepted. -/
theorem gradient_accepted_mid (dx dy : ℕ) (hdx0 : 0 < dx) (hdx : dx ≤ 16777216)
    (hlo : (1 : ℚ) / 100000 < (dy : ℚ) / (dx : ℚ)) (hhi : (dy : ℚ) / (dx : ℚ) ≤ 100) :
    gradient_ignored (Flt.round binary32 ((dy : ℚ) / (dx : ℚ))) = false := by
  have hdxq : (0 : ℚ) < dx := by exact_mod_cast hdx0
  have h1 : (1 : ℚ) / 100000 * dx < dy := (lt_div_iff₀ hdxq).mp hlo
  have h2 : dx < 100000 * dy := by
    have : (dx : ℚ) < 100000 * dy := by linarith
    exact_mod_cast this
  have h3 : (dx : ℚ) + 1 ≤ 100000 * dy := by exact_mod_cast (by omega : dx + 1 ≤ 100000 * dy)
  have h4 : (dx : ℚ) ≤ 16777216 := by exact_mod_cast hdx
  have hq1 : (1 / 100000 * (1 + 1 / 16777216) : ℚ) ≤ (dy : ℚ) / (dx : ℚ) := by
    rw [le_div_iff₀ hdxq]
    linarith
  have hrep : Flt.Rep binary32 ((100 : ℕ) : ℚ) := rep_natCast 100 (by decide)
  obtain ⟨v, hv, hle⟩ := round_le_of_le_rep binary32 _ ((100 : ℕ) : ℚ) hrep
    (by norm_num [binary32]) (by push_cast; exact hhi)
  obtain ⟨v1, hv1, hle1⟩ := round_mono binary32 (by decide) _ _ v hq1 hv
  rw [round32_above_gradient_min] at hv1
  simp only [Flt.fin.injEq] at hv1
  have h100 : Flt.ofNat binary32 100 = Flt.fin ((100 : ℕ) : ℚ) := ofNat_exact 100 (by decide)
  rw [hv]
  simp only [gradient_ignored, h100, gradient_min_eq, Flt.lt, Bool.or_eq_false_iff,
    decide_eq_false_iff_not, not_lt]
  constructor
  · rw [← hv1] at hle1
    have : (5902958103587057 / 590295810358705651712 : ℚ) ≤ 10995117 / 1099511627776 := by
      norm_num
    linarith
  · exact hle

/-- C24 (amended): for a consecutive pair of samples with `dx > 0` milliseconds and `dy`
percent between the older and the newer one, both up to `2 ^ 24`, `pk_time_get_remaining`
accepts the gradient if and only if `0.00001 < dy / dx <= 100`: a stalled pair and a pair
with `dy / dx < 0.00001` are rejected, a pair with `dy / dx > 100` is rejected, and the
value 100 is accepted. -/
theorem pk_time_gradient_accepted_iff (older newer : PkTimeItem) (dx dy : ℕ)
    (hx : newer.time = older.time + dx) (hy : newer.percentage = older.percentage + dy)
    (hdx0 : 0 < dx) (hdx : dx ≤ 16777216) (hdy : dy ≤ 16777216)
    (ht : newer.time < 4294967296) (hp : newer.percentage < 4294967296) :
    (gradient_ignored (pk_time_get_gradient newer older) = false ↔
      (1 : ℚ) / 100000 < (dy : ℚ) / (dx : ℚ) ∧ (dy : ℚ) / (dx : ℚ) ≤ 100) ∧
    (dy = 0 → gradient_ignored (pk_time_get_gradient newer older) = true) ∧
    ((dy : ℚ) / (dx : ℚ) < 1 / 100000 →
      gradient_ignored (pk_time_get_gradient newer older) = true) ∧
    ((100 : ℚ) < (dy : ℚ) / (dx : ℚ) →
      gradient_ignored (pk_time_get_gradient newer older) = true) ∧
    ((dy : ℚ) / (dx : ℚ) = 100 →
      gradient_ignored (pk_time_get_gradient newer older) = false) := by
  rw [pk_time_get_gradient_eq older newer dx dy hx hy hdx0 hdx hdy ht hp]
  have hiff : gradient_ignored (Flt.round binary32 ((dy : ℚ) / (dx : ℚ))) = false ↔
      (1 : ℚ) / 100000 < (dy : ℚ) / (dx : ℚ) ∧ (dy : ℚ) / (dx : ℚ) ≤ 100 := by
    constructor
    · intro h
      constructor
      · by_contra hc
        rw [gradient_ignored_low _ (not_lt.mp hc)] at h
        cases h
      · by_contra hc
        rw [gradient_ignored_high dx dy hdx0 hdy (not_le.mp hc)] at h
        cases h
    · rintro ⟨hlo, hhi⟩
      exact gradient_accepted_mid dx dy hdx0 hdx hlo hhi
  refine ⟨hiff, ?_, ?_, ?_, ?_⟩
  · intro h0
    apply gradient_ignored_low
    rw [h0]
    simp
  · intro h
    exact gradient_ignored_low _ h.le
  · intro h
    exact gradient_ignored_high dx dy hdx0 hdy h
  · intro h
    refine hiff.mpr ⟨?_, h.le⟩
    rw [h]
    norm_num

/-- C24, at a concrete input: the pair (2000 ms, 20 %), (4000 ms, 30 %) of the first test,
with the ratio `0.005`, is accepted. -/
theorem pk_time_gradient_accepted_iff_witness :
    gradient_ignored (pk_time_get_gradient { time := 4000, percentage := 30 }
      { time := 2000, percentage := 20 }) = false :=
  (pk_time_gradient_accepted_iff { time := 2000, percentage := 20 }
    { time := 4000, percentage := 30 } 2000 10 rfl rfl (by decide) (by decide) (by decide)
    (by decide) (by decide)).1.mpr ⟨by norm_num, by norm_num⟩

/-- C24, the claim as stated fails: for the pair (0 ms, 0 %), (100000 ms, 1 %) the ratio
`dy / dx` is exactly `0.00001`, inside the claimed range; the `gfloat` gradient is
`2748779 / 2 ^ 38`, below the `double` constant `0.00001` of the test, and the pair is
rejected. A log of five such pairs in a row has no accepted gradient. Above `2 ^ 24` the
conversions to `gfloat` round: 1000 percent in 99999999 ms, a ratio above `0.00001`, is
rejected, and 20000001 percent in 200000 ms, a ratio above 100, is accepted. -/
theorem pk_time_gradient_accepted_iff_counterexample :
    pair_boundary_older.time < pair_boundary_newer.time ∧
    ((pair_boundary_newer.percentage - pair_boundary_older.percentage : ℕ) : ℚ) /
      ((pair_boundary_newer.time - pair_boundary_older.time : ℕ) : ℚ) = 1 / 100000 ∧
    pk_time_get_gradient pair_boundary_newer pair_boundary_older =
      Flt.fin (2748779 / 274877906944) ∧
    gradient_ignored (pk_time_get_gradient pair_boundary_newer pair_boundary_older) = true ∧
    ¬ (gradient_ignored (pk_time_get_gradient pair_boundary_newer pair_boundary_older) = false ↔
      (1 : ℚ) / 100000 ≤
        ((pair_boundary_newer.percentage - pair_boundary_older.percentage : ℕ) : ℚ) /
          ((pair_boundary_newer.time - pair_boundary_older.time : ℕ) : ℚ) ∧
      ((pair_boundary_newer.percentage - pair_boundary_older.percentage : ℕ) : ℚ) /
          ((pair_boundary_newer.time - pair_boundary_older.time : ℕ) : ℚ) ≤ 100) ∧
    pk_time_scan_all log_boundary = (0, Flt.fin 0) ∧
    pk_time_get_remaining log_boundary = some 0 ∧
    ((1 : ℚ) / 100000 < 1000 / 99999999 ∧
      gradient_ignored (pk_time_get_gradient { time := 99999999, percentage := 1000 }
        { time := 0, percentage := 0 }) = true) ∧
    ((100 : ℚ) < 20000001 / 200000 ∧
      gradient_ignored (pk_time_get_gradient { time := 200000, percentage := 20000001 }
        { time := 0, percentage := 0 }) = false) := by
  have hg : ((pair_boundary_newer.percentage - pair_boundary_older.percentage : ℕ) : ℚ) /
      ((pair_boundary_newer.time - pair_boundary_older.time : ℕ) : ℚ) = 1 / 100000 := by
    decide!
  have hi : gradient_ignored
      (pk_time_get_gradient pair_boundary_newer pair_boundary_older) = true := by
    decide!
  refine ⟨by decide, hg, by decide!, hi, ?_, by decide!, by decide!,
    ⟨by norm_num, by decide!⟩, ⟨by norm_num, by decide!⟩⟩
  rw [hg, hi]
  intro h
  have := h.mpr ⟨le_refl _, by norm_num⟩
  cases this

/-! ## Rejected pairs in the scan -/

/-- C25: rejected pairs neither stop the scan nor count: when the log has at least 2
samples, `k` is at most `average_max` and at least `k` consecutive pairs pass the gradient
test, the scan accumulates at least `k` gradients, the gradients it accumulates are the
newest passing pairs in order, the `k` newest among them first, and with
`average_min <= k` the function goes on to the estimate instead of returning the zero for
insufficient data. -/
theorem pk_time_scan_skips_rejected (time : PkTime) (k : ℕ)
    (hlen : 2 ≤ time.array.length) (hk : k ≤ time.average_max)
    (hacc : k ≤ ((pk_time_gradients time.array).filter
      fun grad => !gradient_ignored grad).length) :
    k ≤ (pk_time_scan_all time).1 ∧
    (∃ accumulated : List Flt,
      pk_time_scan_all time =
        (accumulated.length, accumulated.foldl (Flt.add binary32) (Flt.fin 0)) ∧
      accumulated <+: (pk_time_gradients time.array).filter
        (fun grad => !gradient_ignored grad) ∧
      accumulated.take k = ((pk_time_gradients time.array).filter
        fun grad => !gradient_ignored grad).take k) ∧
    (time.average_min ≤ k →
      pk_time_get_remaining time =
        Flt.toGuint (pk_time_range_check time (pk_time_estimated time))) := by
  have hlenacc : k ≤ (pk_time_accepted time).length := by
    unfold pk_time_accepted
    rw [List.length_take]
    omega
  have hscan : k ≤ (pk_time_scan_all time).1 := by
    rw [pk_time_scan_all_eq]
    exact hlenacc
  refine ⟨hscan, ⟨pk_time_accepted time, pk_time_scan_all_eq time, ?_, ?_⟩, ?_⟩
  · exact List.take_prefix _ _
  · unfold pk_time_accepted
    rw [List.take_take, min_eq_left (by omega)]
  · intro hmin
    unfold pk_time_get_remaining
    rw [if_neg (by omega), if_neg (by omega)]

/-- C25, at a concrete input: in the log with a stalled pair and a pair of one percent in
200 s between two older and two newer pairs of ten percent per second, all four passing
pairs are accumulated and the estimate 5 is returned. -/
theorem pk_time_scan_skips_rejected_witness :
    (pk_time_gradients log_rejected_between.array).map (fun grad => !gradient_ignored grad) =
      [true, true, false, false, true, true] ∧
    4 ≤ (pk_time_scan_all log_rejected_between).1 ∧
    pk_time_scan_all log_rejected_between = (4, Flt.fin (5368709 / 134217728)) ∧
    pk_time_get_remaining log_rejected_between = some 5 :=
  have h := pk_time_scan_skips_rejected log_rejected_between 4 (by decide) (by decide)
    (by decide!)
  ⟨by decide!, h.1, by decide!, (h.2.2 (by decide)).trans (by decide!)⟩

/-! ## The estimate against exact arithmetic -/

end PackageKit
